import Mathlib

/-!
# Valve Gear Calculator: embedding and verification

A shallow embedding of the computation and persistence core of the Valve Gear
Calculator (`maths.h`, `maths.cpp`, `common.h`, `menus.cpp`).

* `double` is the type `K` of the definitions, which use only its constants,
  operations and comparisons. `F64` is the arithmetic of the machine: IEEE 754
  binary64 with rounding to nearest, infinities and NaN. The theorems that a
  claim reads over the reals take a linearly ordered field for `K`, and `ℝ`
  with `Real.pi` where the value of pi matters.
* `std::string` is a list of characters.
* `std::map<int, V>` is a key-ordered association list; `operator[]` inserts a
  default element in key order when the key is missing.
* The loops `for (int i = 1; m.find(i) != m.end(); i++)` are bounded by a
  fuel argument of `m.length + 1`; running out of fuel is reported as `none`.
* Console output and calls between member functions are recorded as events.
* The reads of `std::cin` in `takeInputs` are a list of results, and the
  sessions the menu of `Menu::calculator` can reach are an inductive relation.
-/

namespace ValveGear

/-! ## Data model (maths.h) -/

/-- A `std::string`. -/
abbrev Str := List Char

/-- Record `struct Input` of maths.h. -/
structure Input (K : Type) where
  inputLetter : Str
  inputName : Str
  inputDescription : Str
  inputExample : K
  input : K
deriving DecidableEq

/-- Record `struct Output` of maths.h. -/
structure Output (K : Type) where
  outputLetter : Str
  outputName : Str
  output : K
deriving DecidableEq

/-- A `std::map<int, V>`: entries in ascending key order. -/
abbrev IntMap (V : Type) := List (Int × V)

/-- Keys of a map, in iteration order. -/
def keys {V : Type} (m : IntMap V) : List Int := m.map Prod.fst

/-- Lookup `m.find(k)`: `none` stands for `m.end()`. -/
def mapFind {V : Type} (m : IntMap V) (k : Int) : Option V :=
  match m with
  | [] => none
  | (k', v) :: t => if k = k' then some v else mapFind t k

/-- Access `m[k]` followed by an update `f` of the referenced element: when
`k` is missing a default element `d` is inserted first, in key order. -/
def mapUpdate {V : Type} (d : V) (f : V → V) (k : Int) (m : IntMap V) : IntMap V :=
  match m with
  | [] => [(k, f d)]
  | (k', v) :: t =>
    if k < k' then (k, f d) :: (k', v) :: t
    else if k = k' then (k', f v) :: t
    else (k', v) :: mapUpdate d f k t

/-- A value-initialised `Input{}`: empty strings and `0.0`. -/
def Input.dflt {K : Type} [Zero K] : Input K := ⟨[], [], [], 0, 0⟩

/-- A value-initialised `Output{}`: empty strings and `0.0`. -/
def Output.dflt {K : Type} [Zero K] : Output K := ⟨[], [], 0⟩

/-- The data members of `class Maths`. -/
structure Maths (K : Type) where
  mathInput : IntMap (Input K)
  mathOutput : IntMap (Output K)
  wasSuccessful : Bool
deriving DecidableEq

section Model

variable {K : Type} [Zero K] [NatCast K] [OfScientific K] [Add K] [Sub K] [Mul K] [Div K]
  [Neg K] [Pow K ℕ] [LT K] [LE K] [BEq K] [DecidableRel ((· < ·) : K → K → Prop)]
  [DecidableRel ((· ≤ ·) : K → K → Prop)]

/-- Constructor `Maths::Maths()`. The member `wasSuccessful` has no
initialiser, so its initial value `flag` is a parameter. -/
def Maths.new (flag : Bool) : Maths K :=
  { mathInput :=
      [ (1, ⟨"D".toList, "Drive Wheel Diameter".toList, "The drive wheel diameter.".toList, 66, 0⟩),
        (2, ⟨"S".toList, "Piston Stroke".toList, "The piston stroke.".toList, 26, 0⟩),
        (3, ⟨"B".toList, "Bore".toList, "The bore.".toList, 20.5, 0⟩),
        (4, ⟨"L".toList, "Lead".toList, "The lead.".toList, 0.858, 0⟩),
        (5, ⟨"A".toList, "Lap".toList, "The lap (covering port at mid).".toList, 3.39, 0⟩),
        (6, ⟨"T".toList, "Valve Travel".toList, "The valve travel.".toList, 5.5, 0⟩),
        (7, ⟨"W".toList, "Port Width".toList, "The port width.".toList, 18, 0⟩) ]
    mathOutput :=
      [ (1, ⟨"WS".toList, "Wheel Speed".toList, 0⟩),
        (2, ⟨"FPM".toList, "Piston Speed".toList, 0⟩),
        (3, ⟨"BA".toList, "Bore Area".toList, 0⟩),
        (4, ⟨"VPM".toList, "Volume Swept per Minute".toList, 0⟩),
        (5, ⟨"PA".toList, "Port Area".toList, 0⟩),
        (6, ⟨"PH".toList, "Port Height".toList, 0⟩),
        (7, ⟨"HT".toList, "Half Travel".toList, 0⟩),
        (8, ⟨"TM".toList, "Travel Margin".toList, 0⟩),
        (9, ⟨"CLL".toList, "Combination Lever Length".toList, 0⟩) ]
    wasSuccessful := flag }

/-- Access `mathInput[i]` used for reading: inserts a default when missing. -/
def refInput (s : Maths K) (i : Int) : Maths K :=
  { s with mathInput := mapUpdate Input.dflt id i s.mathInput }

/-- Access `mathOutput[i]` used for reading: inserts a default when missing. -/
def refOutput (s : Maths K) (i : Int) : Maths K :=
  { s with mathOutput := mapUpdate Output.dflt id i s.mathOutput }

/-- Value of `mathInput[i].input` (`0.0` for a missing, hence default, entry). -/
def inputVal (s : Maths K) (i : Int) : K :=
  ((mapFind s.mathInput i).getD Input.dflt).input

/-- Value of `mathOutput[i].output` (`0.0` for a missing, hence default, entry). -/
def outputVal (s : Maths K) (i : Int) : K :=
  ((mapFind s.mathOutput i).getD Output.dflt).output

/-- Assignment `mathInput[i].input = v`. -/
def setInput (s : Maths K) (i : Int) (v : K) : Maths K :=
  { s with mathInput := mapUpdate Input.dflt (fun r => { r with input := v }) i s.mathInput }

/-- Assignment `mathOutput[i].output = v`. -/
def setOutput (s : Maths K) (i : Int) (v : K) : Maths K :=
  { s with mathOutput := mapUpdate Output.dflt (fun r => { r with output := v }) i s.mathOutput }

/-! ## The formulas (maths.cpp, `Maths::theActualMath`) -/

/-- Statement 1 of `theActualMath`, Wheel Speed:
`mathOutput[1].output = (mathInput[1].input * M_PI * 336 * 60) / 12;` -/
def stmtWS (M_PI : K) (s : Maths K) : Maths K :=
  let s := refInput s 1
  setOutput s 1 ((inputVal s 1 * M_PI * 336 * 60) / 12)

/-- Statement 2 of `theActualMath`, Piston Speed:
`mathOutput[2].output = (336 * 2 * mathInput[2].input) / 12;` -/
def stmtFPM (s : Maths K) : Maths K :=
  let s := refInput s 2
  setOutput s 2 ((336 * 2 * inputVal s 2) / 12)

/-- Statement 3 of `theActualMath`, Bore Area:
`mathOutput[3].output = (M_PI * pow((mathInput[3].input / 2), 2));` -/
def stmtBA (M_PI : K) (s : Maths K) : Maths K :=
  let s := refInput s 3
  setOutput s 3 (M_PI * (inputVal s 3 / 2) ^ 2)

/-- Statement 4 of `theActualMath`, Volume Swept per Minute:
`mathOutput[4].output = (mathOutput[2].output * mathOutput[3].output) / 144;` -/
def stmtVPM (s : Maths K) : Maths K :=
  let s := refOutput (refOutput s 2) 3
  setOutput s 4 ((outputVal s 2 * outputVal s 3) / 144)

/-- Statement 5 of `theActualMath`, Port Area:
`mathOutput[5].output = mathOutput[4].output / 7874;` -/
def stmtPA (s : Maths K) : Maths K :=
  let s := refOutput s 4
  setOutput s 5 (outputVal s 4 / 7874)

/-- Statement 6 of `theActualMath`, Port Height:
`mathOutput[6].output = (mathOutput[5].output * 12.0) / mathInput[7].input;` -/
def stmtPH (s : Maths K) : Maths K :=
  let s := refInput (refOutput s 5) 7
  setOutput s 6 ((outputVal s 5 * 12) / inputVal s 7)

/-- Statement 7 of `theActualMath`, Half Travel:
`mathOutput[7].output = mathInput[5].input + mathInput[4].input + mathOutput[6].output;` -/
def stmtHT (s : Maths K) : Maths K :=
  let s := refOutput (refInput (refInput s 5) 4) 6
  setOutput s 7 (inputVal s 5 + inputVal s 4 + outputVal s 6)

/-- Statement 8 of `theActualMath`, Travel Margin:
`mathOutput[8].output = mathInput[6].input - (mathInput[5].input + mathInput[4].input);` -/
def stmtTM (s : Maths K) : Maths K :=
  let s := refInput (refInput (refInput s 6) 5) 4
  setOutput s 8 (inputVal s 6 - (inputVal s 5 + inputVal s 4))

/-- Statement 9 of `theActualMath`, Combination Lever Length:
`mathOutput[9].output = (mathInput[2].input * mathOutput[7].output) /
(2.0 * ((mathInput[5].input + mathInput[4].input) / 2.0));` -/
def stmtCLL (s : Maths K) : Maths K :=
  let s := refInput (refInput (refOutput (refInput s 2) 7) 5) 4
  setOutput s 9 ((inputVal s 2 * outputVal s 7) / (2 * ((inputVal s 5 + inputVal s 4) / 2)))

/-- Function `Maths::theActualMath`: its nine statements in order; `M_PI` is
the constant of `<cmath>`. -/
def theActualMath (M_PI : K) (s : Maths K) : Maths K :=
  let s := stmtWS M_PI s
  let s := stmtFPM s
  let s := stmtBA M_PI s
  let s := stmtVPM s
  let s := stmtPA s
  let s := stmtPH s
  let s := stmtHT s
  let s := stmtTM s
  stmtCLL s

/-- The model has the shape the constructor gives it: inputs at the indices
1..7 and outputs at the indices 1..9, whatever the records hold. -/
def Shaped (s : Maths K) : Prop :=
  keys s.mathInput = [1, 2, 3, 4, 5, 6, 7] ∧
  keys s.mathOutput = [1, 2, 3, 4, 5, 6, 7, 8, 9]

/-- An explicit shaped model. -/
def entries (a1 a2 a3 a4 a5 a6 a7 : Input K) (b1 b2 b3 b4 b5 b6 b7 b8 b9 : Output K)
    (flag : Bool) : Maths K :=
  { mathInput := [(1, a1), (2, a2), (3, a3), (4, a4), (5, a5), (6, a6), (7, a7)]
    mathOutput := [(1, b1), (2, b2), (3, b3), (4, b4), (5, b5), (6, b6), (7, b7),
      (8, b8), (9, b9)]
    wasSuccessful := flag }

/-- Manual entry of all seven values: the assignments `mathInput[i].input = v`
for `i` from 1 to 7 (what `takeInputs` stores when every read succeeds). -/
def withInputs (s : Maths K) (D S B L A T W : K) : Maths K :=
  let s := setInput s 1 D
  let s := setInput s 2 S
  let s := setInput s 3 B
  let s := setInput s 4 L
  let s := setInput s 5 A
  let s := setInput s 6 T
  setInput s 7 W

/-- A freshly constructed model with the example values entered as inputs. -/
def exampleModel (flag : Bool) : Maths K :=
  withInputs (Maths.new flag) 66 26 20.5 0.858 3.39 5.5 18

/-! ## Events -/

/-- What a run prints on the console and which member functions it enters.
Delays, ANSI cursor codes and the progress bar are not recorded. -/
inductive Event (K : Type) where
  /-- cout: "Input for [name] is either invalid or not entered yet." -/
  | invalidInput (name : Str)
  /-- print: "name [letter] = " followed by the value -/
  | echoInput (name letter : Str) (value : K)
  /-- print: "name..." before the progress bar -/
  | computing (name : Str)
  /-- print: "name: value" -/
  | result (name : Str) (value : K)
  /-- cout: "Output for [name] is invalid, please re-enter your values ..." -/
  | invalidOutput (name : Str)
  /-- cout: "Calculations completed successfully. Export to files?" -/
  | completed
  /-- cout: "No file found." -/
  | noFileFound
  /-- cout: "No valid data found; cannot save until calculations have been made." -/
  | noValidData
  /-- cout: "Error saving inputs file." -/
  | errorSavingInputs
  /-- cout: "Error saving outputs file." -/
  | errorSavingOutputs
  /-- cout of takeInputs: "[letter] description" and "Example: [example" -/
  | prompt (letter description : Str) (exampleValue : K)
  /-- cout of takeInputs: "Input for [name] is invalid." -/
  | invalidEntry (name : Str)
  /-- entry of `Maths::theActualMath` -/
  | callTheActualMath
  /-- entry of `Maths::visualMath` -/
  | callVisualMath
  /-- entry of `Menu::saves` -/
  | callSaves
  /-- entry of `commonFunctions::saveFile` -/
  | callSaveFile
deriving DecidableEq

/-- The events that record the entry of a member function. -/
def Event.isCall : Event K → Bool
  | Event.callTheActualMath => true
  | Event.callVisualMath => true
  | Event.callSaves => true
  | Event.callSaveFile => true
  | _ => false

/-- The session: the `Maths` object, the flag of `commonFunctions`, the two
files, and the events so far. A file that cannot be opened for reading is
`none`; `inputsWritable` and `outputsWritable` tell whether the `ofstream`
of `saveFile` opens. -/
structure World (K : Type) where
  maths : Maths K
  playerHasSave : Bool
  inputsTxt : Option (List Str)
  outputsTxt : Option (List Str)
  inputsWritable : Bool
  outputsWritable : Bool
  events : List (Event K)
deriving DecidableEq

/-- Append one event. -/
def World.log (w : World K) (e : Event K) : World K :=
  { w with events := w.events ++ [e] }

/-- The session at the start of `main`: a freshly constructed model, no
events yet; the state of the two files is the environment's. -/
def World.start (flag : Bool) (inputsTxt outputsTxt : Option (List Str))
    (inputsWritable outputsWritable : Bool) : World K :=
  { maths := Maths.new flag
    playerHasSave := false
    inputsTxt := inputsTxt
    outputsTxt := outputsTxt
    inputsWritable := inputsWritable
    outputsWritable := outputsWritable
    events := [] }

/-- The session after the seven values have been entered by hand into a
freshly constructed model. -/
def World.entered (flag : Bool) (D S B L A T W : K) : World K :=
  { maths := withInputs (Maths.new flag) D S B L A T W
    playerHasSave := false
    inputsTxt := none
    outputsTxt := none
    inputsWritable := true
    outputsWritable := true
    events := [] }

/-! ## Output sanity check (maths.cpp, `Maths::visualMath`) -/

/-- The loop of `Maths::visualMath` from index `i`: prints each output, sets
`wasSuccessful`, and breaks at the first negative output. -/
def visualLoop (m : IntMap (Output K)) : Nat → Int → Bool × List (Event K) →
    Option (Bool × List (Event K))
  | 0, _, _ => none
  | fuel + 1, i, (flag, ev) =>
    match mapFind m i with
    | none => some (flag, ev)
    | some lookfor =>
      let ev := ev ++ [Event.computing lookfor.outputName,
                       Event.result lookfor.outputName lookfor.output]
      if lookfor.output < 0 then
        some (false, ev ++ [Event.invalidOutput lookfor.outputName])
      else
        visualLoop m fuel (i + 1) (true, ev)

/-- Function `Maths::visualMath`. -/
def visualMath (w : World K) : Option (World K) :=
  let w := w.log Event.callVisualMath
  (visualLoop w.maths.mathOutput (w.maths.mathOutput.length + 1) 1
      (w.maths.wasSuccessful, w.events)).map
    fun r => { w with maths := { w.maths with wasSuccessful := r.1 }, events := r.2 }

/-! ## Saving (common.h, `commonFunctions::saveFile`; menus.cpp, `Menu::saves`) -/

/-- The line `inputsFile << lookfor.inputName << ": " << lookfor.input`. The
parameter `fmt` is the text `operator<<` writes for a `double`. -/
def inputLine (fmt : K → Str) (lookfor : Input K) : Str :=
  lookfor.inputName ++ ": ".toList ++ fmt lookfor.input

/-- The line `outputsFile << lookfor.outputName << ": " << lookfor.output`. -/
def outputLine (fmt : K → Str) (lookfor : Output K) : Str :=
  lookfor.outputName ++ ": ".toList ++ fmt lookfor.output

/-- The first loop of `saveFile`: one line `name: value` per input. -/
def saveInputsLoop (fmt : K → Str) (m : IntMap (Input K)) : Nat → Int → List Str →
    Option (List Str)
  | 0, _, _ => none
  | fuel + 1, i, acc =>
    match mapFind m i with
    | none => some acc
    | some lookfor =>
      saveInputsLoop fmt m fuel (i + 1) (acc ++ [inputLine fmt lookfor])

/-- The second loop of `saveFile`: one line `name: value` per output. -/
def saveOutputsLoop (fmt : K → Str) (m : IntMap (Output K)) : Nat → Int → List Str →
    Option (List Str)
  | 0, _, _ => none
  | fuel + 1, i, acc =>
    match mapFind m i with
    | none => some acc
    | some lookfor =>
      saveOutputsLoop fmt m fuel (i + 1) (acc ++ [outputLine fmt lookfor])

/-- Function `commonFunctions::saveFile`. -/
def saveFile (fmt : K → Str) (w : World K) : Option (World K) := do
  let w := w.log Event.callSaveFile
  -- Save inputs
  let w ←
    if w.inputsWritable then
      (saveInputsLoop fmt w.maths.mathInput (w.maths.mathInput.length + 1) 1 []).map
        fun ls => { w with inputsTxt := some ls }
    else
      some (w.log Event.errorSavingInputs)
  -- Save outputs
  if w.outputsWritable then
    (saveOutputsLoop fmt w.maths.mathOutput (w.maths.mathOutput.length + 1) 1 []).map
      fun ls => { w with outputsTxt := some ls }
  else
    some (w.log Event.errorSavingOutputs)

/-- Function `Menu::saves`. -/
def saves (fmt : K → Str) (w : World K) : Option (World K) :=
  let w := w.log Event.callSaves
  let w := { w with maths := refOutput w.maths 1 }
  if outputVal w.maths 1 == 0 then
    some (w.log Event.noValidData)
  else
    saveFile fmt w

/-! ## Input gate (maths.cpp, `Maths::breakItDown`) -/

/-- The validation loop of `Maths::breakItDown` from index `i`: the result is
the value of `doThing` and the events printed. -/
def validateLoop (m : IntMap (Input K)) : Nat → Int → List (Event K) →
    Option (Bool × List (Event K))
  | 0, _, _ => none
  | fuel + 1, i, ev =>
    match mapFind m i with
    | none => some (true, ev)
    | some lookfor =>
      if lookfor.input ≤ 0 then
        some (false, ev ++ [Event.invalidInput lookfor.inputName])
      else
        validateLoop m fuel (i + 1)
          (ev ++ [Event.echoInput lookfor.inputName lookfor.inputLetter lookfor.input])

/-- Function `Maths::breakItDown`. The parameter `input` is the value of the
local `input` after `std::cin >> input` (the export choice). -/
def breakItDown (M_PI : K) (fmt : K → Str) (input : Int) (w : World K) :
    Option (World K) := do
  let (doThing, ev) ←
    validateLoop w.maths.mathInput (w.maths.mathInput.length + 1) 1 w.events
  let w := { w with events := ev }
  if doThing then
    let w := w.log Event.callTheActualMath
    let w := { w with maths := theActualMath M_PI w.maths }
    let w ← visualMath w
    if w.maths.wasSuccessful = true then
      let w := w.log Event.completed
      if input = 1 then saves fmt w else some w
    else some w
  else some w

/-! ## Loading (common.h, `commonFunctions::loadFile`) -/

/-- Search `hay.find(needle)` of `std::string`, scanning from the position
`pos` at which `hay` starts: the least position where `needle` occurs, `none`
for `npos`. -/
def strFindFrom (needle : Str) : Nat → Str → Option Nat
  | pos, [] => if needle.isPrefixOf [] then some pos else none
  | pos, c :: t =>
    if needle.isPrefixOf (c :: t) then some pos else strFindFrom needle (pos + 1) t

/-- Search `hay.find(needle)`. -/
def strFind (hay needle : Str) : Option Nat := strFindFrom needle 0 hay

/-- Search `s.find(c)` for a character: the position of its first occurrence. -/
def strFindChar (c : Char) : Str → Option Nat
  | [] => none
  | x :: t => if x = c then some 0 else (strFindChar c t).map (· + 1)

/-- Search `s.find_first_not_of(set)`: the position of the first character that
is not in `set`. -/
def findFirstNotOf (set : Str) : Str → Option Nat
  | [] => none
  | x :: t => if x ∈ set then (findFirstNotOf set t).map (· + 1) else some 0

/-- The text `numberStr` that `loadFile` hands to the number parser for a
matched line with its first colon at `colonPos`: `substr(colonPos + 1)`, then
without its leading spaces and tabs when another character follows them. -/
def numberStrOf (fileLine : Str) (colonPos : Nat) : Str :=
  let numberStr := fileLine.drop (colonPos + 1)
  match findFirstNotOf " \t".toList numberStr with
  | some start => numberStr.drop start
  | none => numberStr

/-- The inner loop of `loadFile` for one map entry: the first line on which
`searchLabel` is found at position 0 decides, and ends the search. The
parameter `parse` is the numeric literal that `iss >> value` extracts from a
text, `none` when the extraction fails and `value` keeps its `0`. -/
def scanLines (parse : Str → Option K) (searchLabel : Str) (input : Input K) :
    List Str → Input K
  | [] => input
  | fileLine :: rest =>
    if strFind fileLine searchLabel = some 0 then
      match strFindChar ':' fileLine with
      | some colonPos =>
        { input with input := (parse (numberStrOf fileLine colonPos)).getD 0 }
      | none => input
    else
      scanLines parse searchLabel input rest

/-- Function `commonFunctions::loadFile`. -/
def loadFile (parse : Str → Option K) (w : World K) : World K :=
  match w.inputsTxt with
  | none => { w.log Event.noFileFound with playerHasSave := false }
  | some lines =>
    { w with
      maths :=
        { w.maths with
          mathInput := w.maths.mathInput.map fun (key, input) =>
            (key, scanLines parse (input.inputName ++ ":".toList) input lines) }
      playerHasSave := true }

/-- The spec's words for the text handed to the numeric parse of a matched
line: "take the substring after the first `:`, strip leading whitespace"
(spaces and tabs). To be compared with `numberStrOf`. -/
def specNumberText (line : Str) : Str :=
  ((line.dropWhile fun c => c != ':').drop 1).dropWhile fun c => c == ' ' || c == '\t'

/-! ## A model of the number extraction -/

/-- Value of a decimal digit. -/
def digitVal (c : Char) : Nat := c.toNat - '0'.toNat

/-- The longest prefix of decimal digits, and the rest. -/
def spanDigits (s : Str) : Str × Str := s.span Char.isDigit

/-- The number written by a string of decimal digits. -/
def digitsToNat (ds : Str) : Nat := ds.foldl (fun n c => 10 * n + digitVal c) 0

/-- Modelled from the spec: the extraction `iss >> value` of `<sstream>`, the
"standard floating-point lexical parse" of a leading numeric literal. It skips
leading white space, then reads an optional sign, decimal digits with an
optional fraction, and an optional exponent; it fails (`none`) when there is
no digit, or when an exponent letter is not followed by a digit. -/
def parseDouble (s : Str) : Option K :=
  let s := s.dropWhile Char.isWhitespace
  let (neg, s) :=
    match s with
    | '-' :: t => (true, t)
    | '+' :: t => (false, t)
    | _ => (false, s)
  let (ip, s) := spanDigits s
  let (fp, s) :=
    match s with
    | '.' :: t => spanDigits t
    | _ => ([], s)
  if ip.length + fp.length = 0 then none
  else
    let mant : K := (digitsToNat (ip ++ fp) : K) / (10 : K) ^ fp.length
    let mant := if neg then -mant else mant
    match s with
    | c :: t =>
      if c = 'e' ∨ c = 'E' then
        let (eneg, t) :=
          match t with
          | '-' :: u => (true, u)
          | '+' :: u => (false, u)
          | _ => (false, t)
        let (ed, _) := spanDigits t
        if ed.length = 0 then none
        else if eneg then some (mant / (10 : K) ^ digitsToNat ed)
        else some (mant * (10 : K) ^ digitsToNat ed)
      else some mant
    | [] => some mant

/-! ## Manual entry (maths.cpp, `Maths::takeInputs`) -/

/-- One `std::cin >> lookfor.input` of `takeInputs`: the value the extraction
writes into the input (`none` when it leaves the input as it is, as at the end
of the input stream), and whether `std::cin.fail()` holds afterwards. -/
structure Read (K : Type) where
  stored : Option K
  failed : Bool

/-- The loop of `Maths::takeInputs` from index `i`: it prompts, stores what
the read yields, and breaks at the first failed read. A read past the end of
`reads` fails and stores nothing. -/
def takeLoop : Nat → Int → List (Read K) → IntMap (Input K) × List (Event K) →
    Option (IntMap (Input K) × List (Event K))
  | 0, _, _, _ => none
  | fuel + 1, i, reads, (m, ev) =>
    match mapFind m i with
    | none => some (m, ev)
    | some lookfor =>
      let ev := ev ++
        [Event.prompt lookfor.inputLetter lookfor.inputDescription lookfor.inputExample]
      let rd := reads.headD ⟨none, true⟩
      let m := mapUpdate Input.dflt (fun r => { r with input := rd.stored.getD r.input }) i m
      if rd.failed then some (m, ev ++ [Event.invalidEntry lookfor.inputName])
      else takeLoop fuel (i + 1) reads.tail (m, ev)

/-- Function `Maths::takeInputs`; `reads` are the reads of `std::cin`. -/
def takeInputs (reads : List (Read K)) (w : World K) : Option (World K) :=
  (takeLoop (w.maths.mathInput.length + 1) 1 reads (w.maths.mathInput, w.events)).map
    fun r => { w with maths := { w.maths with mathInput := r.1 }, events := r.2 }

/-! ## The help text (menus.cpp, `Menu::files`) -/

/-- The seven lines `Menu::files` prints between the dashed rules as the
"Example of file format". -/
def filesExample : List Str :=
  [ "Drive Wheel Diameter: 66".toList,
    "Piston Stroke : 26".toList,
    "Bore : 20.5".toList,
    "Lead : 0.858".toList,
    "Lap : 3.39".toList,
    "Valve Travel : 5.5".toList,
    "Port Width : 18".toList ]

/-! ## The shape of the model and the reachable sessions -/

/-- Index, letter, name, description and example of every input, in map
order: all of an input map but the values. -/
def inputShape (s : Maths K) : List (Int × Str × Str × Str × K) :=
  s.mathInput.map fun p =>
    (p.1, p.2.inputLetter, p.2.inputName, p.2.inputDescription, p.2.inputExample)

/-- Index, letter and name of every output, in map order: all of an output
map but the values. -/
def outputShape (s : Maths K) : List (Int × Str × Str) :=
  s.mathOutput.map fun p => (p.1, p.2.outputLetter, p.2.outputName)

/-- The model has the indices, letters, names, descriptions and examples the
constructor gives it; only values and the flag are free. -/
def Canonical (s : Maths K) : Prop :=
  inputShape s = inputShape (Maths.new false : Maths K) ∧
  outputShape s = outputShape (Maths.new false : Maths K)

/-- The sessions the program can be in between two choices in
`Menu::calculator`, from the start of `main`: option 1 is `breakItDown`,
option 2 `takeInputs`, option 3 `loadFile`, option 4 `saves`; between two
choices the user may change the two files. -/
inductive Reach (M_PI : K) (fmt : K → Str) (parse : Str → Option K) : World K → Prop where
  | start (flag : Bool) (inputsTxt outputsTxt : Option (List Str))
      (inputsWritable outputsWritable : Bool) :
      Reach M_PI fmt parse (World.start flag inputsTxt outputsTxt inputsWritable outputsWritable)
  | calculate (input : Int) {w w' : World K} :
      Reach M_PI fmt parse w → breakItDown M_PI fmt input w = some w' →
      Reach M_PI fmt parse w'
  | manualInput (reads : List (Read K)) {w w' : World K} :
      Reach M_PI fmt parse w → takeInputs reads w = some w' → Reach M_PI fmt parse w'
  | fileInput {w : World K} :
      Reach M_PI fmt parse w → Reach M_PI fmt parse (loadFile parse w)
  | fileOutput {w w' : World K} :
      Reach M_PI fmt parse w → saves fmt w = some w' → Reach M_PI fmt parse w'
  | filesChanged (inputsTxt outputsTxt : Option (List Str))
      (inputsWritable outputsWritable : Bool) {w : World K} :
      Reach M_PI fmt parse w →
      Reach M_PI fmt parse { w with
        inputsTxt := inputsTxt
        outputsTxt := outputsTxt
        inputsWritable := inputsWritable
        outputsWritable := outputsWritable }

end Model

/-! ## Binary64 arithmetic (`double`)

The values and operations of `double` as IEEE 754 defines them for binary64.
Every operation is evaluated in `double` and rounds its exact result once, to
the nearest value, a tie going to the even fraction (the default rounding
mode); an invalid operation gives a NaN, and a comparison with a NaN is
false. -/

/-- A `double`: an IEEE 754 binary64 value, given by its sign bit and by the
63 bits of biased exponent and fraction read as one number,
`mag = exponent * 2^52 + fraction`. Every `mag` above that of infinity is a
NaN. -/
structure F64 where
  sign : Bool
  mag : Nat
deriving DecidableEq

namespace F64

/-- The `mag` of infinity: biased exponent 2047, fraction 0. -/
def infMag : Nat := 2047 * 2 ^ 52

/-- Infinity with the given sign. -/
def inf (sign : Bool) : F64 := ⟨sign, infMag⟩

/-- A quiet NaN, the result of every invalid operation and of every operation
on a NaN; the program does not look at the sign or the payload of a NaN. -/
def nan : F64 := ⟨false, infMag + 2 ^ 51⟩

/-- Test `std::isnan`. -/
def isNaN (x : F64) : Bool := decide (infMag < x.mag)

/-- Test `std::isfinite`. -/
def isFinite (x : F64) : Bool := decide (x.mag < infMag)

/-- The magnitude of a finite value as a multiple of 2^-1074, the least
positive `double`: the fraction itself for a subnormal, and
`(2^52 + fraction) * 2^(exponent - 1)` for a normal number. -/
def units (x : F64) : Nat :=
  if x.mag < 2 ^ 52 then x.mag
  else (2 ^ 52 + x.mag % 2 ^ 52) * 2 ^ (x.mag / 2 ^ 52 - 1)

/-- The number of binary digits of `n`, counted in blocks of 64 digits while
`n` has more than 64 of them and one by one after that; `fuel` bounds the
number of steps, and `n` itself is enough of it. -/
def bitLen : Nat → Nat → Nat
  | 0, _ => 0
  | fuel + 1, n =>
    if n = 0 then 0
    else if 2 ^ 64 ≤ n then bitLen fuel (n / 2 ^ 64) + 64
    else bitLen fuel (n / 2) + 1

/-- The `double` nearest to `num / den` multiples of 2^-1074, with the given
sign; a tie goes to the even fraction, and a value that rounds beyond the
largest finite `double` gives infinity. The quotient is cut to 53 significant
bits by the shift `k`; below 2^53 the value is on the grid of the subnormal
numbers and of the first binade, where `mag` is the multiple itself. -/
def roundUnits (sign : Bool) (num den : Nat) : F64 :=
  let k := bitLen (num / den) (num / den) - 53
  let d := den * 2 ^ k
  let m := num / d
  let r := num % d
  let up := if d < 2 * r ∨ (2 * r = d ∧ m % 2 = 1) then 1 else 0
  let mag := k * 2 ^ 52 + m + up
  if infMag ≤ mag then inf sign else ⟨sign, mag⟩

/-- Product `a * b`. -/
def mul (a b : F64) : F64 :=
  if a.isNaN || b.isNaN then nan
  else if a.mag = infMag then (if b.mag = 0 then nan else inf (a.sign != b.sign))
  else if b.mag = infMag then (if a.mag = 0 then nan else inf (a.sign != b.sign))
  else roundUnits (a.sign != b.sign) (a.units * b.units) (2 ^ 1074)

/-- Quotient `a / b`. -/
def div (a b : F64) : F64 :=
  if a.isNaN || b.isNaN then nan
  else if a.mag = infMag then (if b.mag = infMag then nan else inf (a.sign != b.sign))
  else if b.mag = infMag then ⟨a.sign != b.sign, 0⟩
  else if b.mag = 0 then (if a.mag = 0 then nan else inf (a.sign != b.sign))
  else roundUnits (a.sign != b.sign) (a.units * 2 ^ 1074) b.units

/-- Sum `a + b`. -/
def add (a b : F64) : F64 :=
  if a.isNaN || b.isNaN then nan
  else if a.mag = infMag then (if b.mag = infMag && a.sign != b.sign then nan else a)
  else if b.mag = infMag then b
  else if a.sign = b.sign then roundUnits a.sign (a.units + b.units) 1
  else if a.units = b.units then ⟨false, 0⟩
  else if b.units < a.units then roundUnits a.sign (a.units - b.units) 1
  else roundUnits b.sign (b.units - a.units) 1

/-- Negation `-a`: the sign bit is flipped. -/
def neg (a : F64) : F64 := ⟨!a.sign, a.mag⟩

/-- Difference `a - b`. -/
def sub (a b : F64) : F64 := add a (neg b)

/-- The place of a value that is not a NaN in the order of the `double`s. -/
def key (x : F64) : Int := if x.sign then -(x.mag : Int) else (x.mag : Int)

/-- Comparison `a < b`: false when either side is a NaN. -/
def lt (a b : F64) : Bool := !a.isNaN && !b.isNaN && decide (a.key < b.key)

/-- Comparison `a <= b`: false when either side is a NaN. -/
def le (a b : F64) : Bool := !a.isNaN && !b.isNaN && decide (a.key ≤ b.key)

/-- Comparison `a == b`: false when either side is a NaN, true for the two
zeros. -/
def eq (a b : F64) : Bool := !a.isNaN && !b.isNaN && decide (a.key = b.key)

/-- Conversion of a non-negative integer. -/
def ofNat (n : Nat) : F64 := roundUnits false (n * 2 ^ 1074) 1

/-- Conversion of a decimal literal `mantissa * 10^(-e)` or `mantissa * 10^e`. -/
def ofScientific (mantissa : Nat) (exponentSign : Bool) (e : Nat) : F64 :=
  if exponentSign then roundUnits false (mantissa * 2 ^ 1074) (10 ^ e)
  else roundUnits false (mantissa * 10 ^ e * 2 ^ 1074) 1

/-- Power `std::pow(x, n)` for a non-negative integer `n`, read as the
repeated product: `pow(x, 2)` is `x * x`, rounded once. -/
def powNat (x : F64) : Nat → F64
  | 0 => ofNat 1
  | n + 1 => mul (powNat x n) x

instance : Zero F64 := ⟨⟨false, 0⟩⟩
instance : One F64 := ⟨ofNat 1⟩
instance : NatCast F64 := ⟨ofNat⟩
instance : OfScientific F64 := ⟨ofScientific⟩
instance : Add F64 := ⟨add⟩
instance : Sub F64 := ⟨sub⟩
instance : Mul F64 := ⟨mul⟩
instance : Div F64 := ⟨div⟩
instance : Neg F64 := ⟨neg⟩
instance : Pow F64 ℕ := ⟨powNat⟩
instance : LT F64 := ⟨fun a b => lt a b = true⟩
instance : LE F64 := ⟨fun a b => le a b = true⟩
instance : BEq F64 := ⟨eq⟩
instance : DecidableRel ((· < ·) : F64 → F64 → Prop) :=
  fun a b => inferInstanceAs (Decidable (lt a b = true))
instance : DecidableRel ((· ≤ ·) : F64 → F64 → Prop) :=
  fun a b => inferInstanceAs (Decidable (le a b = true))

end F64

/-- The exact value of a finite `double`, as a rational number. -/
def F64.toRat (x : F64) : ℚ := (if x.sign then -1 else 1) * (x.units : ℚ) / 2 ^ 1074

/-- The constant `M_PI` of `<cmath>`, 3.14159265358979323846, as a `double`. -/
def M_PI64 : F64 := 3.14159265358979323846

/-- The session after Piston Stroke 1e308 and Bore 1e-200 have been entered,
with the example values for the other inputs. -/
def nanInputs : World F64 := World.entered false 66 1e308 1e-200 0.858 3.39 5.5 18

/-- The session after Drive Wheel Diameter 1e308 has been entered, with the
example values for the other inputs. -/
def hugeInputs : World F64 := World.entered false 1e308 26 20.5 0.858 3.39 5.5 18

/-- The session after Lead 1.1102230246251565e-16, which is 2^-53, Lap 1 and
Valve Travel 1 have been entered, with 64, 24, 16 and 16 for the other
inputs. -/
def roundedInputs : World F64 := World.entered false 64 24 16 1.1102230246251565e-16 1 1 16

/-! # Verification -/

/-! ## Lemmas that hold for every arithmetic -/

section Structure

variable {K : Type}

/-! ### Shape lemmas -/

theorem keys_cons_inv {V : Type} {m : IntMap V} {k : Int} {ks : List Int}
    (h : keys m = k :: ks) : ∃ v t, m = (k, v) :: t ∧ keys t = ks := by
  cases m with
  | nil => simp [keys] at h
  | cons p t =>
    obtain ⟨k', v⟩ := p
    simp only [keys, List.map_cons, List.cons.injEq] at h
    exact ⟨v, t, by rw [h.1], h.2⟩

theorem keys_nil_inv {V : Type} {m : IntMap V} (h : keys m = []) : m = [] := by
  cases m with
  | nil => rfl
  | cons p t => simp [keys] at h

/-- A map with the keys 1..7 is a list of seven entries. -/
theorem inputs_of_keys {V : Type} {m : IntMap V} (h : keys m = [1, 2, 3, 4, 5, 6, 7]) :
    ∃ a1 a2 a3 a4 a5 a6 a7,
      m = [(1, a1), (2, a2), (3, a3), (4, a4), (5, a5), (6, a6), (7, a7)] := by
  obtain ⟨a1, t1, rfl, h1⟩ := keys_cons_inv h
  obtain ⟨a2, t2, rfl, h2⟩ := keys_cons_inv h1
  obtain ⟨a3, t3, rfl, h3⟩ := keys_cons_inv h2
  obtain ⟨a4, t4, rfl, h4⟩ := keys_cons_inv h3
  obtain ⟨a5, t5, rfl, h5⟩ := keys_cons_inv h4
  obtain ⟨a6, t6, rfl, h6⟩ := keys_cons_inv h5
  obtain ⟨a7, t7, rfl, h7⟩ := keys_cons_inv h6
  exact ⟨a1, a2, a3, a4, a5, a6, a7, by rw [keys_nil_inv h7]⟩

/-- A map with the keys 1..9 is a list of nine entries. -/
theorem outputs_of_keys {V : Type} {m : IntMap V}
    (h : keys m = [1, 2, 3, 4, 5, 6, 7, 8, 9]) :
    ∃ b1 b2 b3 b4 b5 b6 b7 b8 b9,
      m = [(1, b1), (2, b2), (3, b3), (4, b4), (5, b5), (6, b6), (7, b7), (8, b8),
        (9, b9)] := by
  obtain ⟨b1, t1, rfl, h1⟩ := keys_cons_inv h
  obtain ⟨b2, t2, rfl, h2⟩ := keys_cons_inv h1
  obtain ⟨b3, t3, rfl, h3⟩ := keys_cons_inv h2
  obtain ⟨b4, t4, rfl, h4⟩ := keys_cons_inv h3
  obtain ⟨b5, t5, rfl, h5⟩ := keys_cons_inv h4
  obtain ⟨b6, t6, rfl, h6⟩ := keys_cons_inv h5
  obtain ⟨b7, t7, rfl, h7⟩ := keys_cons_inv h6
  obtain ⟨b8, t8, rfl, h8⟩ := keys_cons_inv h7
  obtain ⟨b9, t9, rfl, h9⟩ := keys_cons_inv h8
  exact ⟨b1, b2, b3, b4, b5, b6, b7, b8, b9, by rw [keys_nil_inv h9]⟩

/-- A shaped model, entry by entry. -/
theorem Shaped.entries {s : Maths K} (h : Shaped s) :
    ∃ a1 a2 a3 a4 a5 a6 a7 b1 b2 b3 b4 b5 b6 b7 b8 b9 flag,
      s = entries a1 a2 a3 a4 a5 a6 a7 b1 b2 b3 b4 b5 b6 b7 b8 b9 flag := by
  obtain ⟨mi, mo, flag⟩ := s
  obtain ⟨hi, ho⟩ := h
  obtain ⟨a1, a2, a3, a4, a5, a6, a7, rfl⟩ := inputs_of_keys hi
  obtain ⟨b1, b2, b3, b4, b5, b6, b7, b8, b9, rfl⟩ := outputs_of_keys ho
  exact ⟨a1, a2, a3, a4, a5, a6, a7, b1, b2, b3, b4, b5, b6, b7, b8, b9, flag, rfl⟩

theorem stmtWS_entries [Zero K] [NatCast K] [Add K] [Sub K] [Mul K] [Div K] [Pow K ℕ]
    (M_PI : K) (a1 a2 a3 a4 a5 a6 a7 : Input K)
    (b1 b2 b3 b4 b5 b6 b7 b8 b9 : Output K) (flag : Bool) :
    stmtWS M_PI (entries a1 a2 a3 a4 a5 a6 a7 b1 b2 b3 b4 b5 b6 b7 b8 b9 flag) =
      entries a1 a2 a3 a4 a5 a6 a7
        { b1 with output := (a1.input * M_PI * 336 * 60) / 12 } b2 b3 b4 b5 b6 b7 b8 b9 flag :=
  rfl

theorem stmtFPM_entries [Zero K] [NatCast K] [Add K] [Sub K] [Mul K] [Div K] [Pow K ℕ]
    (a1 a2 a3 a4 a5 a6 a7 : Input K)
    (b1 b2 b3 b4 b5 b6 b7 b8 b9 : Output K) (flag : Bool) :
    stmtFPM (entries a1 a2 a3 a4 a5 a6 a7 b1 b2 b3 b4 b5 b6 b7 b8 b9 flag) =
      entries a1 a2 a3 a4 a5 a6 a7
        b1 { b2 with output := (336 * 2 * a2.input) / 12 } b3 b4 b5 b6 b7 b8 b9 flag :=
  rfl

theorem stmtBA_entries [Zero K] [NatCast K] [Add K] [Sub K] [Mul K] [Div K] [Pow K ℕ]
    (M_PI : K) (a1 a2 a3 a4 a5 a6 a7 : Input K)
    (b1 b2 b3 b4 b5 b6 b7 b8 b9 : Output K) (flag : Bool) :
    stmtBA M_PI (entries a1 a2 a3 a4 a5 a6 a7 b1 b2 b3 b4 b5 b6 b7 b8 b9 flag) =
      entries a1 a2 a3 a4 a5 a6 a7
        b1 b2 { b3 with output := M_PI * (a3.input / 2) ^ 2 } b4 b5 b6 b7 b8 b9 flag :=
  rfl

theorem stmtVPM_entries [Zero K] [NatCast K] [Add K] [Sub K] [Mul K] [Div K] [Pow K ℕ]
    (a1 a2 a3 a4 a5 a6 a7 : Input K)
    (b1 b2 b3 b4 b5 b6 b7 b8 b9 : Output K) (flag : Bool) :
    stmtVPM (entries a1 a2 a3 a4 a5 a6 a7 b1 b2 b3 b4 b5 b6 b7 b8 b9 flag) =
      entries a1 a2 a3 a4 a5 a6 a7
        b1 b2 b3 { b4 with output := (b2.output * b3.output) / 144 } b5 b6 b7 b8 b9 flag :=
  rfl

theorem stmtPA_entries [Zero K] [NatCast K] [Add K] [Sub K] [Mul K] [Div K] [Pow K ℕ]
    (a1 a2 a3 a4 a5 a6 a7 : Input K)
    (b1 b2 b3 b4 b5 b6 b7 b8 b9 : Output K) (flag : Bool) :
    stmtPA (entries a1 a2 a3 a4 a5 a6 a7 b1 b2 b3 b4 b5 b6 b7 b8 b9 flag) =
      entries a1 a2 a3 a4 a5 a6 a7
        b1 b2 b3 b4 { b5 with output := b4.output / 7874 } b6 b7 b8 b9 flag :=
  rfl

theorem stmtPH_entries [Zero K] [NatCast K] [Add K] [Sub K] [Mul K] [Div K] [Pow K ℕ]
    (a1 a2 a3 a4 a5 a6 a7 : Input K)
    (b1 b2 b3 b4 b5 b6 b7 b8 b9 : Output K) (flag : Bool) :
    stmtPH (entries a1 a2 a3 a4 a5 a6 a7 b1 b2 b3 b4 b5 b6 b7 b8 b9 flag) =
      entries a1 a2 a3 a4 a5 a6 a7
        b1 b2 b3 b4 b5 { b6 with output := (b5.output * 12) / a7.input } b7 b8 b9 flag :=
  rfl

theorem stmtHT_entries [Zero K] [NatCast K] [Add K] [Sub K] [Mul K] [Div K] [Pow K ℕ]
    (a1 a2 a3 a4 a5 a6 a7 : Input K)
    (b1 b2 b3 b4 b5 b6 b7 b8 b9 : Output K) (flag : Bool) :
    stmtHT (entries a1 a2 a3 a4 a5 a6 a7 b1 b2 b3 b4 b5 b6 b7 b8 b9 flag) =
      entries a1 a2 a3 a4 a5 a6 a7
        b1 b2 b3 b4 b5 b6 { b7 with output := a5.input + a4.input + b6.output } b8 b9 flag :=
  rfl

theorem stmtTM_entries [Zero K] [NatCast K] [Add K] [Sub K] [Mul K] [Div K] [Pow K ℕ]
    (a1 a2 a3 a4 a5 a6 a7 : Input K)
    (b1 b2 b3 b4 b5 b6 b7 b8 b9 : Output K) (flag : Bool) :
    stmtTM (entries a1 a2 a3 a4 a5 a6 a7 b1 b2 b3 b4 b5 b6 b7 b8 b9 flag) =
      entries a1 a2 a3 a4 a5 a6 a7
        b1 b2 b3 b4 b5 b6 b7 { b8 with output := a6.input - (a5.input + a4.input) } b9 flag :=
  rfl

theorem stmtCLL_entries [Zero K] [NatCast K] [Add K] [Sub K] [Mul K] [Div K] [Pow K ℕ]
    (a1 a2 a3 a4 a5 a6 a7 : Input K)
    (b1 b2 b3 b4 b5 b6 b7 b8 b9 : Output K) (flag : Bool) :
    stmtCLL (entries a1 a2 a3 a4 a5 a6 a7 b1 b2 b3 b4 b5 b6 b7 b8 b9 flag) =
      entries a1 a2 a3 a4 a5 a6 a7
        b1 b2 b3 b4 b5 b6 b7 b8 { b9 with output := (a2.input * b7.output) / (2 * ((a5.input + a4.input) / 2)) } flag :=
  rfl

/-- The state after `theActualMath` on a shaped model, entry by entry. -/
theorem theActualMath_entries [Zero K] [NatCast K] [Add K] [Sub K] [Mul K] [Div K] [Pow K ℕ]
    (M_PI : K) (a1 a2 a3 a4 a5 a6 a7 : Input K)
    (b1 b2 b3 b4 b5 b6 b7 b8 b9 : Output K) (flag : Bool) :
    theActualMath M_PI (entries a1 a2 a3 a4 a5 a6 a7 b1 b2 b3 b4 b5 b6 b7 b8 b9 flag) =
      entries a1 a2 a3 a4 a5 a6 a7
        { b1 with output := (a1.input * M_PI * 336 * 60) / 12 }
        { b2 with output := (336 * 2 * a2.input) / 12 }
        { b3 with output := M_PI * (a3.input / 2) ^ 2 }
        { b4 with output := ((336 * 2 * a2.input) / 12 * (M_PI * (a3.input / 2) ^ 2)) / 144 }
        { b5 with output :=
            ((336 * 2 * a2.input) / 12 * (M_PI * (a3.input / 2) ^ 2)) / 144 / 7874 }
        { b6 with output :=
            (((336 * 2 * a2.input) / 12 * (M_PI * (a3.input / 2) ^ 2)) / 144 / 7874 * 12) /
              a7.input }
        { b7 with output := a5.input + a4.input +
            (((336 * 2 * a2.input) / 12 * (M_PI * (a3.input / 2) ^ 2)) / 144 / 7874 * 12) /
              a7.input }
        { b8 with output := a6.input - (a5.input + a4.input) }
        { b9 with output := (a2.input * (a5.input + a4.input +
            (((336 * 2 * a2.input) / 12 * (M_PI * (a3.input / 2) ^ 2)) / 144 / 7874 * 12) /
              a7.input)) / (2 * ((a5.input + a4.input) / 2)) }
        flag := by
  simp only [theActualMath, stmtWS_entries, stmtFPM_entries, stmtBA_entries, stmtVPM_entries,
    stmtPA_entries, stmtPH_entries, stmtHT_entries, stmtTM_entries, stmtCLL_entries]

theorem shaped_entries (a1 a2 a3 a4 a5 a6 a7 : Input K)
    (b1 b2 b3 b4 b5 b6 b7 b8 b9 : Output K) (flag : Bool) :
    Shaped (entries a1 a2 a3 a4 a5 a6 a7 b1 b2 b3 b4 b5 b6 b7 b8 b9 flag) :=
  ⟨rfl, rfl⟩

/-- In a shaped model the input loop finds the indices 1..7 and stops at 8. -/
theorem Shaped.inputs_dense {s : Maths K} (h : Shaped s) :
    s.mathInput.length = 7 ∧
    (∀ j : Int, 1 ≤ j → j < 1 + (7 : Nat) → (mapFind s.mathInput j).isSome = true) ∧
    mapFind s.mathInput (1 + (7 : Nat)) = none := by
  obtain ⟨a1, a2, a3, a4, a5, a6, a7, b1, b2, b3, b4, b5, b6, b7, b8, b9, flag, rfl⟩ :=
    h.entries
  refine ⟨rfl, ?_, rfl⟩
  intro j h1 h2
  have h3 : j < 8 := by simpa using h2
  interval_cases j <;> rfl

/-- In a shaped model the output loop finds the indices 1..9 and stops at 10. -/
theorem Shaped.outputs_dense {s : Maths K} (h : Shaped s) :
    s.mathOutput.length = 9 ∧
    (∀ j : Int, 1 ≤ j → j < 1 + (9 : Nat) → (mapFind s.mathOutput j).isSome = true) ∧
    mapFind s.mathOutput (1 + (9 : Nat)) = none := by
  obtain ⟨a1, a2, a3, a4, a5, a6, a7, b1, b2, b3, b4, b5, b6, b7, b8, b9, flag, rfl⟩ :=
    h.entries
  refine ⟨rfl, ?_, rfl⟩
  intro j h1 h2
  have h3 : j < 10 := by simpa using h2
  interval_cases j <;> rfl

/-- The loop of `visualMath` over a block of `n` present indices from `i`: it
returns, the flag is false exactly when an output of the block is negative
(or the block is empty and the flag was false), and it only prints. -/
theorem visualLoop_spec [Zero K] [LT K] [DecidableRel ((· < ·) : K → K → Prop)]
    (m : IntMap (Output K)) :
    ∀ (n fuel : Nat) (i : Int) (flag : Bool) (ev : List (Event K)),
      n < fuel →
      (∀ j : Int, i ≤ j → j < i + n → (mapFind m j).isSome = true) →
      mapFind m (i + n) = none →
      ∃ flag' more, visualLoop m fuel i (flag, ev) = some (flag', ev ++ more) ∧
        (flag' = false ↔
          (∃ j : Int, i ≤ j ∧ j < i + n ∧ ((mapFind m j).getD Output.dflt).output < 0) ∨
            (n = 0 ∧ flag = false)) ∧
        (∀ e ∈ more, e.isCall = false) := by
  intro n
  induction n with
  | zero =>
    intro fuel i flag ev hf _ hend
    obtain ⟨f, rfl⟩ : ∃ f, fuel = f + 1 := ⟨fuel - 1, by omega⟩
    have hend' : mapFind m i = none := by simpa using hend
    refine ⟨flag, [], by simp [visualLoop, hend'], ?_, by simp⟩
    constructor
    · intro hflag
      exact Or.inr ⟨rfl, hflag⟩
    · rintro (⟨j, h1, h2, _⟩ | ⟨_, hflag⟩)
      · exact absurd h2 (by simpa using h1)
      · exact hflag
  | succ n ih =>
    intro fuel i flag ev hf hfound hend
    obtain ⟨f, rfl⟩ : ∃ f, fuel = f + 1 := ⟨fuel - 1, by omega⟩
    have hi := hfound i le_rfl (by push_cast; omega)
    obtain ⟨v, hv⟩ := Option.isSome_iff_exists.mp hi
    by_cases hneg : v.output < 0
    · refine ⟨false, [Event.computing v.outputName, Event.result v.outputName v.output,
        Event.invalidOutput v.outputName], by simp [visualLoop, hv, hneg], ?_, ?_⟩
      · refine ⟨fun _ => Or.inl ⟨i, le_rfl, by push_cast; omega, ?_⟩, fun _ => rfl⟩
        simpa [hv] using hneg
      · intro e he
        simp only [List.mem_cons, List.mem_singleton, List.not_mem_nil, or_false] at he
        rcases he with rfl | rfl | rfl <;> rfl
    · obtain ⟨flag', more, hrun, hflag, hmore⟩ :=
        ih f (i + 1) true
          (ev ++ [Event.computing v.outputName, Event.result v.outputName v.output])
          (by omega)
          (fun j h1 h2 => hfound j (by omega) (by push_cast; omega))
          (by rw [← hend]; congr 1; push_cast; ring)
      refine ⟨flag', [Event.computing v.outputName, Event.result v.outputName v.output] ++ more,
        by simp [visualLoop, hv, hneg, hrun], ?_, ?_⟩
      · rw [hflag]
        constructor
        · rintro (⟨j, h1, h2, h3⟩ | ⟨_, h⟩)
          · exact Or.inl ⟨j, by omega, by push_cast; omega, h3⟩
          · exact absurd h (by simp)
        · rintro (⟨j, h1, h2, h3⟩ | ⟨h, _⟩)
          · rcases eq_or_lt_of_le h1 with rfl | hlt
            · rw [hv] at h3
              exact absurd h3 hneg
            · exact Or.inl ⟨j, by omega, by push_cast at h2; omega, h3⟩
          · exact absurd h (by simp)
      · intro e he
        simp only [List.mem_append, List.mem_cons, List.mem_singleton, List.not_mem_nil,
          or_false] at he
        rcases he with (rfl | rfl) | he
        · rfl
        · rfl
        · exact hmore e he

/-- The formulas keep the shape of the model. -/
theorem shaped_theActualMath [Zero K] [NatCast K] [Add K] [Sub K] [Mul K] [Div K] [Pow K ℕ]
    (M_PI : K) {s : Maths K} (h : Shaped s) :
    Shaped (theActualMath M_PI s) := by
  obtain ⟨a1, a2, a3, a4, a5, a6, a7, b1, b2, b3, b4, b5, b6, b7, b8, b9, flag, rfl⟩ :=
    h.entries
  rw [theActualMath_entries]
  exact shaped_entries _ _ _ _ _ _ _ _ _ _ _ _ _ _ _ _ _

/-- On a shaped model `visualMath` returns: it sets the flag, appends its
entry and what it prints, and changes nothing else. -/
theorem visualMath_spec [Zero K] [LT K] [DecidableRel ((· < ·) : K → K → Prop)]
    (w : World K) (h : Shaped w.maths) :
    ∃ flag' more,
      visualMath w = some { w with
        maths := { w.maths with wasSuccessful := flag' }
        events := w.events ++ Event.callVisualMath :: more } ∧
      (flag' = false ↔ ∃ i : Int, 1 ≤ i ∧ i ≤ 9 ∧ outputVal w.maths i < 0) ∧
      (∀ e ∈ more, e.isCall = false) := by
  obtain ⟨hlen, hfound, hend⟩ := h.outputs_dense
  obtain ⟨flag', more, hrun, hflag, hmore⟩ :=
    visualLoop_spec w.maths.mathOutput 9 (w.maths.mathOutput.length + 1) 1
      w.maths.wasSuccessful (w.events ++ [Event.callVisualMath]) (by omega) hfound hend
  refine ⟨flag', more, ?_, ?_, hmore⟩
  · simp only [visualMath, World.log, hrun, Option.map_some', List.append_assoc,
      List.singleton_append]
  · rw [hflag]
    constructor
    · rintro (⟨j, h1, h2, h3⟩ | ⟨h0, _⟩)
      · exact ⟨j, h1, by push_cast at h2; omega, h3⟩
      · exact absurd h0 (by decide)
    · rintro ⟨j, h1, h2, h3⟩
      exact Or.inl ⟨j, h1, by push_cast; omega, h3⟩

theorem outputVal_congr [Zero K]
    {s t : Maths K} (h : s.mathOutput = t.mathOutput) (i : Int) :
    outputVal s i = outputVal t i := by
  simp only [outputVal, h]

/-- The outputs of the formulas other than Travel Margin do not depend on
Valve Travel. -/
theorem theActualMath_indep_T [Zero K] [NatCast K] [Add K] [Sub K] [Mul K] [Div K] [Pow K ℕ]
    (M_PI : K) {s : Maths K} (h : Shaped s) (T' : K) (i : Int)
    (h1 : 1 ≤ i) (h9 : i ≤ 9) (h8 : i ≠ 8) :
    outputVal (theActualMath M_PI (setInput s 6 T')) i = outputVal (theActualMath M_PI s) i := by
  obtain ⟨a1, a2, a3, a4, a5, a6, a7, b1, b2, b3, b4, b5, b6, b7, b8, b9, flag, rfl⟩ :=
    h.entries
  have hset : setInput (entries a1 a2 a3 a4 a5 a6 a7 b1 b2 b3 b4 b5 b6 b7 b8 b9 flag) 6 T' =
      entries a1 a2 a3 a4 a5 { a6 with input := T' } a7 b1 b2 b3 b4 b5 b6 b7 b8 b9 flag := rfl
  rw [hset, theActualMath_entries, theActualMath_entries]
  interval_cases i
  · rfl
  · rfl
  · rfl
  · rfl
  · rfl
  · rfl
  · rfl
  · exact absurd rfl h8
  · rfl

/-- Travel Margin after the formulas. -/
theorem theActualMath_TM [Zero K] [NatCast K] [Add K] [Sub K] [Mul K] [Div K] [Pow K ℕ]
    (M_PI : K) {s : Maths K} (h : Shaped s) :
    outputVal (theActualMath M_PI s) 8 = inputVal s 6 - (inputVal s 5 + inputVal s 4) := by
  obtain ⟨a1, a2, a3, a4, a5, a6, a7, b1, b2, b3, b4, b5, b6, b7, b8, b9, flag, rfl⟩ :=
    h.entries
  rw [theActualMath_entries]
  rfl

theorem shaped_entered [Zero K] [NatCast K] [OfScientific K]
    (flag : Bool) (D S B L A T W : K) :
    Shaped (World.entered flag D S B L A T W).maths :=
  ⟨rfl, rfl⟩

theorem inputVal_entered [Zero K] [NatCast K] [OfScientific K]
    (flag : Bool) (D S B L A T W : K) :
    inputVal (World.entered flag D S B L A T W).maths 1 = D ∧
    inputVal (World.entered flag D S B L A T W).maths 2 = S ∧
    inputVal (World.entered flag D S B L A T W).maths 3 = B ∧
    inputVal (World.entered flag D S B L A T W).maths 4 = L ∧
    inputVal (World.entered flag D S B L A T W).maths 5 = A ∧
    inputVal (World.entered flag D S B L A T W).maths 6 = T ∧
    inputVal (World.entered flag D S B L A T W).maths 7 = W :=
  ⟨rfl, rfl, rfl, rfl, rfl, rfl, rfl⟩

/-! ### The gate of `breakItDown` -/

/-- The validation loop of `breakItDown` over a block of `n` present indices
from `i`, for every arithmetic: it returns, `doThing` is true exactly when no
input of the block passes the test `input <= 0.0`, and it only prints. -/
theorem validateLoop_gate [Zero K] [LE K] [DecidableRel ((· ≤ ·) : K → K → Prop)]
    (m : IntMap (Input K)) :
    ∀ (n fuel : Nat) (i : Int) (ev : List (Event K)),
      n < fuel →
      (∀ j : Int, i ≤ j → j < i + n → (mapFind m j).isSome = true) →
      mapFind m (i + n) = none →
      ∃ doThing more, validateLoop m fuel i ev = some (doThing, ev ++ more) ∧
        (doThing = true ↔
          ∀ j : Int, i ≤ j → j < i + n → ¬ ((mapFind m j).getD Input.dflt).input ≤ 0) ∧
        (∀ e ∈ more, e.isCall = false) := by
  intro n
  induction n with
  | zero =>
    intro fuel i ev hf _ hend
    obtain ⟨f, rfl⟩ : ∃ f, fuel = f + 1 := ⟨fuel - 1, by omega⟩
    have hend' : mapFind m i = none := by simpa using hend
    refine ⟨true, [], by simp [validateLoop, hend'], ?_, by simp⟩
    refine ⟨fun _ j h1 h2 => absurd h2 (by simpa using h1), fun _ => rfl⟩
  | succ n ih =>
    intro fuel i ev hf hfound hend
    obtain ⟨f, rfl⟩ : ∃ f, fuel = f + 1 := ⟨fuel - 1, by omega⟩
    have hi := hfound i le_rfl (by push_cast; omega)
    obtain ⟨v, hv⟩ := Option.isSome_iff_exists.mp hi
    by_cases hbad : v.input ≤ 0
    · refine ⟨false, [Event.invalidInput v.inputName], by simp [validateLoop, hv, hbad], ?_, ?_⟩
      · refine ⟨fun h => absurd h (by simp), fun h => ?_⟩
        have := h i le_rfl (by push_cast; omega)
        rw [hv] at this
        exact absurd hbad this
      · intro e he
        simp only [List.mem_singleton] at he
        subst he
        rfl
    · obtain ⟨doThing, more, hrun, hdo, hmore⟩ :=
        ih f (i + 1) (ev ++ [Event.echoInput v.inputName v.inputLetter v.input])
          (by omega)
          (fun j h1 h2 => hfound j (by omega) (by push_cast; omega))
          (by rw [← hend]; congr 1; push_cast; ring)
      refine ⟨doThing, [Event.echoInput v.inputName v.inputLetter v.input] ++ more,
        by simp [validateLoop, hv, hbad, hrun], ?_, ?_⟩
      · rw [hdo]
        constructor
        · intro h j h1 h2
          rcases eq_or_lt_of_le h1 with rfl | hlt
          · rw [hv]
            exact hbad
          · exact h j (by omega) (by push_cast at h2; omega)
        · intro h j h1 h2
          exact h j (by omega) (by push_cast; omega)
      · intro e he
        simp only [List.mem_append, List.mem_singleton] at he
        rcases he with rfl | he
        · rfl
        · exact hmore e he

/-- The steps of `breakItDown` on a shaped model, for every arithmetic: the
validation loop returns; when an input passes the test `input <= 0.0` the call
only prints, and otherwise it runs the formulas and the sanity check, and
offers the export when the check passes. -/
theorem breakItDown_steps [Zero K] [NatCast K] [Add K] [Sub K] [Mul K] [Div K] [Pow K ℕ]
    [LT K] [LE K] [BEq K] [DecidableRel ((· < ·) : K → K → Prop)]
    [DecidableRel ((· ≤ ·) : K → K → Prop)]
    (M_PI : K) (fmt : K → Str) (input : Int) (w : World K) (h : Shaped w.maths) :
    ∃ doThing more,
      (doThing = true ↔ ∀ i : Int, 1 ≤ i → i ≤ 7 → ¬ inputVal w.maths i ≤ 0) ∧
      (∀ e ∈ more, e.isCall = false) ∧
      breakItDown M_PI fmt input w =
        if doThing = true then
          (visualMath { w with
              maths := theActualMath M_PI w.maths
              events := w.events ++ more ++ [Event.callTheActualMath] }).bind fun w1 =>
            if w1.maths.wasSuccessful = true then
              if input = 1 then saves fmt (w1.log Event.completed)
              else some (w1.log Event.completed)
            else some w1
        else some { w with events := w.events ++ more } := by
  obtain ⟨hlen, hfound, hend⟩ := h.inputs_dense
  obtain ⟨doThing, more, hrun, hdo, hmore⟩ :=
    validateLoop_gate w.maths.mathInput 7 (w.maths.mathInput.length + 1) 1 w.events
      (by omega) hfound hend
  refine ⟨doThing, more, ?_, hmore, ?_⟩
  · rw [hdo]
    constructor
    · intro hp j h1 h2
      exact hp j h1 (by push_cast; omega)
    · intro hp j h1 h2
      exact hp j h1 (by push_cast at h2; omega)
  · cases doThing <;> simp [breakItDown, hrun, World.log]

end Structure

/-! ## Lemmas and theorems over an ordered field -/

section Proofs

variable {K : Type} [LinearOrderedField K]

/-! ## C1: the formulas -/

/-- C1. After `theActualMath` on a model with the seven inputs and nine
outputs, each output equals its formula of the spec, evaluated on the inputs
and on the outputs of the same call: WS = D*pi*336*60/12, FPM = 336*2*S/12,
BA = pi*(B/2)^2, VPM = FPM*BA/144, PA = VPM/7874, PH = PA*12/W,
HT = A + L + PH, TM = T - (A + L), CLL = (S*HT)/(2*((A+L)/2)), for a port
width W and a sum A + L other than zero. -/
theorem theActualMath_formulas (M_PI : K) (s : Maths K) (h : Shaped s)
    (_hW : inputVal s 7 ≠ 0) (_hAL : inputVal s 5 + inputVal s 4 ≠ 0) :
    outputVal (theActualMath M_PI s) 1 = inputVal s 1 * M_PI * 336 * 60 / 12 ∧
    outputVal (theActualMath M_PI s) 2 = 336 * 2 * inputVal s 2 / 12 ∧
    outputVal (theActualMath M_PI s) 3 = M_PI * (inputVal s 3 / 2) ^ 2 ∧
    outputVal (theActualMath M_PI s) 4 =
      outputVal (theActualMath M_PI s) 2 * outputVal (theActualMath M_PI s) 3 / 144 ∧
    outputVal (theActualMath M_PI s) 5 = outputVal (theActualMath M_PI s) 4 / 7874 ∧
    outputVal (theActualMath M_PI s) 6 =
      outputVal (theActualMath M_PI s) 5 * 12 / inputVal s 7 ∧
    outputVal (theActualMath M_PI s) 7 =
      inputVal s 5 + inputVal s 4 + outputVal (theActualMath M_PI s) 6 ∧
    outputVal (theActualMath M_PI s) 8 = inputVal s 6 - (inputVal s 5 + inputVal s 4) ∧
    outputVal (theActualMath M_PI s) 9 =
      inputVal s 2 * outputVal (theActualMath M_PI s) 7 /
        (2 * ((inputVal s 5 + inputVal s 4) / 2)) := by
  obtain ⟨a1, a2, a3, a4, a5, a6, a7, b1, b2, b3, b4, b5, b6, b7, b8, b9, flag, rfl⟩ :=
    h.entries
  rw [theActualMath_entries]
  exact ⟨rfl, rfl, rfl, rfl, rfl, rfl, rfl, rfl, rfl⟩

theorem shaped_new (flag : Bool) : Shaped (Maths.new flag : Maths K) := ⟨rfl, rfl⟩

theorem shaped_exampleModel (flag : Bool) : Shaped (exampleModel flag : Maths K) :=
  ⟨rfl, rfl⟩

theorem inputVal_exampleModel (flag : Bool) :
    inputVal (exampleModel flag : Maths K) 1 = 66 ∧
    inputVal (exampleModel flag : Maths K) 2 = 26 ∧
    inputVal (exampleModel flag : Maths K) 3 = 20.5 ∧
    inputVal (exampleModel flag : Maths K) 4 = 0.858 ∧
    inputVal (exampleModel flag : Maths K) 5 = 3.39 ∧
    inputVal (exampleModel flag : Maths K) 6 = 5.5 ∧
    inputVal (exampleModel flag : Maths K) 7 = 18 :=
  ⟨rfl, rfl, rfl, rfl, rfl, rfl, rfl⟩

/-- Witness of C1: the example model over the reals. -/
theorem theActualMath_formulas_witness :
    Shaped (exampleModel false : Maths ℝ) ∧
    inputVal (exampleModel false : Maths ℝ) 7 ≠ 0 ∧
    inputVal (exampleModel false : Maths ℝ) 5 + inputVal (exampleModel false : Maths ℝ) 4 ≠ 0 ∧
    outputVal (theActualMath Real.pi (exampleModel false)) 8 =
      inputVal (exampleModel false : Maths ℝ) 6 -
        (inputVal (exampleModel false : Maths ℝ) 5 + inputVal (exampleModel false : Maths ℝ) 4) :=
  have hW : inputVal (exampleModel false : Maths ℝ) 7 ≠ 0 := by
    rw [(inputVal_exampleModel false).2.2.2.2.2.2]; norm_num
  have hAL : inputVal (exampleModel false : Maths ℝ) 5 +
      inputVal (exampleModel false : Maths ℝ) 4 ≠ 0 := by
    rw [(inputVal_exampleModel false).2.2.2.2.1, (inputVal_exampleModel false).2.2.2.1]
    norm_num
  ⟨shaped_exampleModel false, hW, hAL,
    (theActualMath_formulas Real.pi (exampleModel false) (shaped_exampleModel false)
      hW hAL).2.2.2.2.2.2.2.1⟩

/-! ## C2: the example run -/

/-- C2. For the example inputs D=66, S=26, B=20.5, L=0.858, A=3.39, T=5.5,
W=18, over the reals with the true pi, `theActualMath` gives FPM = 1456
exactly, and WS, BA, VPM, PA, PH, HT, TM, CLL within 0.5% of 348339.9, 330.06,
3337.3, 0.4238, 0.2825, 4.5305, 1.252 and 27.73. -/
theorem theActualMath_example (s : Maths ℝ) (h : Shaped s)
    (hD : inputVal s 1 = 66) (hS : inputVal s 2 = 26) (hB : inputVal s 3 = 20.5)
    (hL : inputVal s 4 = 0.858) (hA : inputVal s 5 = 3.39) (hT : inputVal s 6 = 5.5)
    (hW : inputVal s 7 = 18) :
    outputVal (theActualMath Real.pi s) 2 = 1456 ∧
    |outputVal (theActualMath Real.pi s) 1 - 348339.9| ≤ 0.005 * 348339.9 ∧
    |outputVal (theActualMath Real.pi s) 3 - 330.06| ≤ 0.005 * 330.06 ∧
    |outputVal (theActualMath Real.pi s) 4 - 3337.3| ≤ 0.005 * 3337.3 ∧
    |outputVal (theActualMath Real.pi s) 5 - 0.4238| ≤ 0.005 * 0.4238 ∧
    |outputVal (theActualMath Real.pi s) 6 - 0.2825| ≤ 0.005 * 0.2825 ∧
    |outputVal (theActualMath Real.pi s) 7 - 4.5305| ≤ 0.005 * 4.5305 ∧
    |outputVal (theActualMath Real.pi s) 8 - 1.252| ≤ 0.005 * 1.252 ∧
    |outputVal (theActualMath Real.pi s) 9 - 27.73| ≤ 0.005 * 27.73 := by
  obtain ⟨a1, a2, a3, a4, a5, a6, a7, b1, b2, b3, b4, b5, b6, b7, b8, b9, flag, rfl⟩ :=
    h.entries
  have h1 : a1.input = 66 := hD
  have h2 : a2.input = 26 := hS
  have h3 : a3.input = 20.5 := hB
  have h4 : a4.input = 0.858 := hL
  have h5 : a5.input = 3.39 := hA
  have h6 : a6.input = 5.5 := hT
  have h7 : a7.input = 18 := hW
  have lo := Real.pi_gt_d6
  have hi := Real.pi_lt_d6
  rw [theActualMath_entries]
  simp only [outputVal, entries, mapFind, Option.getD_some, h1, h2, h3, h4, h5, h6, h7]
  refine ⟨by norm_num, ?_, ?_, ?_, ?_, ?_, ?_, ?_, ?_⟩ <;> rw [abs_le] <;>
    constructor <;> norm_num <;> linarith

/-! ## The index loops -/

/-- The validation loop of `breakItDown` over a block of `n` present indices
from `i`: it returns, `doThing` is true exactly when every input of the block
is positive, and it only prints. -/
theorem validateLoop_spec (m : IntMap (Input K)) :
    ∀ (n fuel : Nat) (i : Int) (ev : List (Event K)),
      n < fuel →
      (∀ j : Int, i ≤ j → j < i + n → (mapFind m j).isSome = true) →
      mapFind m (i + n) = none →
      ∃ doThing more, validateLoop m fuel i ev = some (doThing, ev ++ more) ∧
        (doThing = true ↔
          ∀ j : Int, i ≤ j → j < i + n → 0 < ((mapFind m j).getD Input.dflt).input) ∧
        (∀ e ∈ more, e.isCall = false) := by
  intro n
  induction n with
  | zero =>
    intro fuel i ev hf _ hend
    obtain ⟨f, rfl⟩ : ∃ f, fuel = f + 1 := ⟨fuel - 1, by omega⟩
    have hend' : mapFind m i = none := by simpa using hend
    refine ⟨true, [], by simp [validateLoop, hend'], ?_, by simp⟩
    refine ⟨fun _ j h1 h2 => absurd h2 (by simpa using h1), fun _ => rfl⟩
  | succ n ih =>
    intro fuel i ev hf hfound hend
    obtain ⟨f, rfl⟩ : ∃ f, fuel = f + 1 := ⟨fuel - 1, by omega⟩
    have hi := hfound i le_rfl (by push_cast; omega)
    obtain ⟨v, hv⟩ := Option.isSome_iff_exists.mp hi
    by_cases hbad : v.input ≤ 0
    · refine ⟨false, [Event.invalidInput v.inputName], by simp [validateLoop, hv, hbad], ?_, ?_⟩
      · refine ⟨fun h => absurd h (by simp), fun h => ?_⟩
        have := h i le_rfl (by push_cast; omega)
        rw [hv] at this
        exact absurd hbad (not_le.mpr this)
      · intro e he
        simp only [List.mem_singleton] at he
        subst he
        rfl
    · obtain ⟨doThing, more, hrun, hdo, hmore⟩ :=
        ih f (i + 1) (ev ++ [Event.echoInput v.inputName v.inputLetter v.input])
          (by omega)
          (fun j h1 h2 => hfound j (by omega) (by push_cast; omega))
          (by rw [← hend]; congr 1; push_cast; ring)
      refine ⟨doThing, [Event.echoInput v.inputName v.inputLetter v.input] ++ more,
        by simp [validateLoop, hv, hbad, hrun], ?_, ?_⟩
      · rw [hdo]
        constructor
        · intro h j h1 h2
          rcases eq_or_lt_of_le h1 with rfl | hlt
          · rw [hv]
            exact not_le.mp hbad
          · exact h j (by omega) (by push_cast at h2; omega)
        · intro h j h1 h2
          exact h j (by omega) (by push_cast; omega)
      · intro e he
        simp only [List.mem_append, List.mem_singleton] at he
        rcases he with rfl | he
        · rfl
        · exact hmore e he

/-- The validation loop of `breakItDown` stops at the first index `k` of the
block whose input is not positive: it echoes the inputs before `k` and
reports the name of input `k`. -/
theorem validateLoop_first (m : IntMap (Input K)) :
    ∀ (n fuel : Nat) (i k : Int) (ev : List (Event K)),
      n < fuel →
      (∀ j : Int, i ≤ j → j < i + n → (mapFind m j).isSome = true) →
      i ≤ k → k < i + n →
      ((mapFind m k).getD Input.dflt).input ≤ 0 →
      (∀ j : Int, i ≤ j → j < k → 0 < ((mapFind m j).getD Input.dflt).input) →
      ∃ echoes, validateLoop m fuel i ev =
          some (false, ev ++ echoes ++
            [Event.invalidInput ((mapFind m k).getD Input.dflt).inputName]) ∧
        echoes.length = (k - i).toNat ∧
        (∀ e ∈ echoes, ∃ name letter value, e = Event.echoInput name letter value) := by
  intro n
  induction n with
  | zero =>
    intro fuel i k ev _ _ h1 h2
    exact absurd h2 (by simpa using h1)
  | succ n ih =>
    intro fuel i k ev hf hfound h1 h2 hbad hgood
    obtain ⟨f, rfl⟩ : ∃ f, fuel = f + 1 := ⟨fuel - 1, by omega⟩
    have hi := hfound i le_rfl (by push_cast; omega)
    obtain ⟨v, hv⟩ := Option.isSome_iff_exists.mp hi
    rcases eq_or_lt_of_le h1 with rfl | hlt
    · rw [hv] at hbad ⊢
      simp only [Option.getD_some] at hbad
      exact ⟨[], by simp [validateLoop, hv, hbad], by simp, by simp⟩
    · have hpos := hgood i le_rfl hlt
      rw [hv] at hpos
      have hnb : ¬ v.input ≤ 0 := not_le.mpr hpos
      obtain ⟨echoes, hrun, hlen, hech⟩ :=
        ih f (i + 1) k (ev ++ [Event.echoInput v.inputName v.inputLetter v.input])
          (by omega)
          (fun j h1 h2 => hfound j (by omega) (by push_cast; omega))
          (by omega) (by push_cast at h2; omega) hbad
          (fun j h1 h2 => hgood j (by omega) h2)
      refine ⟨[Event.echoInput v.inputName v.inputLetter v.input] ++ echoes,
        by simp [validateLoop, hv, hnb, hrun], ?_, ?_⟩
      · rw [List.length_append, hlen, List.length_singleton]
        omega
      intro e he
      simp only [List.mem_append, List.mem_singleton] at he
      rcases he with rfl | he
      · exact ⟨_, _, _, rfl⟩
      · exact hech e he

omit [LinearOrderedField K] in
theorem map_range_succ {α : Type} (g : Nat → α) (n : Nat) :
    (List.range (n + 1)).map g = g 0 :: (List.range n).map fun d => g (d + 1) := by
  simp [List.range_succ_eq_map, Function.comp_def]

/-- The first loop of `saveFile` over a block of `n` present indices from
`i`: it returns and writes one line per index, in index order. -/
theorem saveInputsLoop_spec (fmt : K → Str) (m : IntMap (Input K)) :
    ∀ (n fuel : Nat) (i : Int) (acc : List Str),
      n < fuel →
      (∀ j : Int, i ≤ j → j < i + n → (mapFind m j).isSome = true) →
      mapFind m (i + n) = none →
      saveInputsLoop fmt m fuel i acc =
        some (acc ++ (List.range n).map fun (d : Nat) =>
          inputLine fmt ((mapFind m (i + (d : Int))).getD Input.dflt)) := by
  intro n
  induction n with
  | zero =>
    intro fuel i acc hf _ hend
    obtain ⟨f, rfl⟩ : ∃ f, fuel = f + 1 := ⟨fuel - 1, by omega⟩
    have hend' : mapFind m i = none := by simpa using hend
    simp [saveInputsLoop, hend']
  | succ n ih =>
    intro fuel i acc hf hfound hend
    obtain ⟨f, rfl⟩ : ∃ f, fuel = f + 1 := ⟨fuel - 1, by omega⟩
    have hi := hfound i le_rfl (by push_cast; omega)
    obtain ⟨v, hv⟩ := Option.isSome_iff_exists.mp hi
    have hrec := ih f (i + 1) (acc ++ [inputLine fmt v]) (by omega)
      (fun j h1 h2 => hfound j (by omega) (by push_cast; omega))
      (by rw [← hend]; congr 1; push_cast; ring)
    have hfun : ∀ d : Nat, i + 1 + (d : Int) = i + ((d + 1 : Nat) : Int) :=
      fun d => by push_cast; ring
    simp only [saveInputsLoop, hv]
    rw [hrec, map_range_succ]
    simp only [hfun, Nat.cast_zero, add_zero, hv, Option.getD_some, List.append_assoc,
      List.singleton_append]

/-- The second loop of `saveFile` over a block of `n` present indices from
`i`: it returns and writes one line per index, in index order. -/
theorem saveOutputsLoop_spec (fmt : K → Str) (m : IntMap (Output K)) :
    ∀ (n fuel : Nat) (i : Int) (acc : List Str),
      n < fuel →
      (∀ j : Int, i ≤ j → j < i + n → (mapFind m j).isSome = true) →
      mapFind m (i + n) = none →
      saveOutputsLoop fmt m fuel i acc =
        some (acc ++ (List.range n).map fun (d : Nat) =>
          outputLine fmt ((mapFind m (i + (d : Int))).getD Output.dflt)) := by
  intro n
  induction n with
  | zero =>
    intro fuel i acc hf _ hend
    obtain ⟨f, rfl⟩ : ∃ f, fuel = f + 1 := ⟨fuel - 1, by omega⟩
    have hend' : mapFind m i = none := by simpa using hend
    simp [saveOutputsLoop, hend']
  | succ n ih =>
    intro fuel i acc hf hfound hend
    obtain ⟨f, rfl⟩ : ∃ f, fuel = f + 1 := ⟨fuel - 1, by omega⟩
    have hi := hfound i le_rfl (by push_cast; omega)
    obtain ⟨v, hv⟩ := Option.isSome_iff_exists.mp hi
    have hrec := ih f (i + 1) (acc ++ [outputLine fmt v]) (by omega)
      (fun j h1 h2 => hfound j (by omega) (by push_cast; omega))
      (by rw [← hend]; congr 1; push_cast; ring)
    have hfun : ∀ d : Nat, i + 1 + (d : Int) = i + ((d + 1 : Nat) : Int) :=
      fun d => by push_cast; ring
    simp only [saveOutputsLoop, hv]
    rw [hrec, map_range_succ]
    simp only [hfun, Nat.cast_zero, add_zero, hv, Option.getD_some, List.append_assoc,
      List.singleton_append]

/-- In a shaped model `mathInput[i]` for `i` in 1..7 inserts nothing. -/
theorem refInput_shaped {s : Maths K} (h : Shaped s) (i : Int) (h1 : 1 ≤ i) (h7 : i ≤ 7) :
    refInput s i = s := by
  obtain ⟨a1, a2, a3, a4, a5, a6, a7, b1, b2, b3, b4, b5, b6, b7, b8, b9, flag, rfl⟩ :=
    h.entries
  interval_cases i <;> rfl

/-- In a shaped model `mathOutput[i]` for `i` in 1..9 inserts nothing. -/
theorem refOutput_shaped {s : Maths K} (h : Shaped s) (i : Int) (h1 : 1 ≤ i) (h9 : i ≤ 9) :
    refOutput s i = s := by
  obtain ⟨a1, a2, a3, a4, a5, a6, a7, b1, b2, b3, b4, b5, b6, b7, b8, b9, flag, rfl⟩ :=
    h.entries
  interval_cases i <;> rfl

/-- The formulas leave every input record as it was. -/
theorem mathInput_theActualMath (M_PI : K) {s : Maths K} (h : Shaped s) :
    (theActualMath M_PI s).mathInput = s.mathInput := by
  obtain ⟨a1, a2, a3, a4, a5, a6, a7, b1, b2, b3, b4, b5, b6, b7, b8, b9, flag, rfl⟩ :=
    h.entries
  rw [theActualMath_entries]
  rfl

/-- The formulas leave the flag as it was. -/
theorem wasSuccessful_theActualMath (M_PI : K) {s : Maths K} (h : Shaped s) :
    (theActualMath M_PI s).wasSuccessful = s.wasSuccessful := by
  obtain ⟨a1, a2, a3, a4, a5, a6, a7, b1, b2, b3, b4, b5, b6, b7, b8, b9, flag, rfl⟩ :=
    h.entries
  rw [theActualMath_entries]
  rfl

/-- On a shaped model `saveFile` returns: it writes the seven input lines and
the nine output lines to the files that open, reports the files that do not,
and changes nothing of the model. -/
theorem saveFile_spec (fmt : K → Str) (w : World K) (h : Shaped w.maths) :
    saveFile fmt w = some { w with
      inputsTxt := (if w.inputsWritable then
        some ((List.range 7).map fun (d : Nat) =>
          inputLine fmt ((mapFind w.maths.mathInput (1 + (d : Int))).getD Input.dflt))
        else w.inputsTxt)
      outputsTxt := (if w.outputsWritable then
        some ((List.range 9).map fun (d : Nat) =>
          outputLine fmt ((mapFind w.maths.mathOutput (1 + (d : Int))).getD Output.dflt))
        else w.outputsTxt)
      events := w.events ++ Event.callSaveFile ::
        ((if w.inputsWritable then [] else [Event.errorSavingInputs]) ++
          (if w.outputsWritable then [] else [Event.errorSavingOutputs])) } := by
  obtain ⟨_, hfi, hei⟩ := h.inputs_dense
  obtain ⟨_, hfo, heo⟩ := h.outputs_dense
  have hin := saveInputsLoop_spec fmt w.maths.mathInput 7 (w.maths.mathInput.length + 1) 1 []
    (by omega) hfi hei
  have hout := saveOutputsLoop_spec fmt w.maths.mathOutput 9 (w.maths.mathOutput.length + 1) 1
    [] (by omega) hfo heo
  cases hwi : w.inputsWritable <;> cases hwo : w.outputsWritable <;>
    simp [saveFile, World.log, hwi, hwo, hin, hout]

/-- On a shaped model `saves` returns: it warns when output 1 is zero and
calls `saveFile` otherwise. -/
theorem saves_spec (fmt : K → Str) (w : World K) (h : Shaped w.maths) :
    saves fmt w =
      if outputVal w.maths 1 = 0 then
        some { w with events := w.events ++ [Event.callSaves, Event.noValidData] }
      else
        saveFile fmt { w with events := w.events ++ [Event.callSaves] } := by
  simp only [saves, World.log, refOutput_shaped h 1 (by decide) (by decide), beq_iff_eq]
  split_ifs <;> simp

/-- The steps of `breakItDown` on a shaped model: the validation loop returns;
when it fails the call only prints, and when it passes the call runs the
formulas and the sanity check, and offers the export when the check passes. -/
theorem breakItDown_spec (M_PI : K) (fmt : K → Str) (input : Int) (w : World K)
    (h : Shaped w.maths) :
    ∃ doThing more,
      validateLoop w.maths.mathInput (w.maths.mathInput.length + 1) 1 w.events =
        some (doThing, w.events ++ more) ∧
      (doThing = true ↔ ∀ i : Int, 1 ≤ i → i ≤ 7 → 0 < inputVal w.maths i) ∧
      (∀ e ∈ more, e.isCall = false) ∧
      breakItDown M_PI fmt input w =
        if doThing = true then
          (visualMath { w with
              maths := theActualMath M_PI w.maths
              events := w.events ++ more ++ [Event.callTheActualMath] }).bind fun w1 =>
            if w1.maths.wasSuccessful = true then
              if input = 1 then saves fmt (w1.log Event.completed)
              else some (w1.log Event.completed)
            else some w1
        else some { w with events := w.events ++ more } := by
  obtain ⟨hlen, hfound, hend⟩ := h.inputs_dense
  obtain ⟨doThing, more, hrun, hdo, hmore⟩ :=
    validateLoop_spec w.maths.mathInput 7 (w.maths.mathInput.length + 1) 1 w.events
      (by omega) hfound hend
  refine ⟨doThing, more, hrun, ?_, hmore, ?_⟩
  · rw [hdo]
    constructor
    · intro hp j h1 h2
      exact hp j h1 (by push_cast; omega)
    · intro hp j h1 h2
      exact hp j h1 (by push_cast at h2; omega)
  · cases doThing <;> simp [breakItDown, hrun, World.log]

/-- On a shaped model `saves` returns, changes nothing of the model, and enters
`saveFile` exactly when output 1 is not zero; only `saveFile` touches the
files. -/
theorem saves_total (fmt : K → Str) (w : World K) (h : Shaped w.maths) :
    ∃ w' more, saves fmt w = some w' ∧ w'.maths = w.maths ∧
      w'.playerHasSave = w.playerHasSave ∧
      w'.events = w.events ++ Event.callSaves :: more ∧
      (Event.callSaveFile ∈ more ↔ outputVal w.maths 1 ≠ 0) ∧
      (outputVal w.maths 1 = 0 →
        w'.inputsTxt = w.inputsTxt ∧ w'.outputsTxt = w.outputsTxt) := by
  rw [saves_spec fmt w h]
  by_cases hz : outputVal w.maths 1 = 0
  · rw [if_pos hz]
    exact ⟨_, [Event.noValidData], rfl, rfl, rfl, by simp, by simp [hz], fun _ => ⟨rfl, rfl⟩⟩
  · rw [if_neg hz, saveFile_spec fmt { w with events := w.events ++ [Event.callSaves] } h]
    exact ⟨_, Event.callSaveFile ::
        ((if w.inputsWritable then [] else [Event.errorSavingInputs]) ++
          (if w.outputsWritable then [] else [Event.errorSavingOutputs])),
      rfl, rfl, rfl, by simp, by simp [hz], fun h0 => absurd h0 hz⟩

/-- What `breakItDown` does after the formulas, on a shaped model: the sanity
check returns and sets the flag; the export is offered only when the flag is
true, and `saves` is entered only when the answer is 1. -/
theorem afterMath_spec (fmt : K → Str) (input : Int) (w1 : World K) (h : Shaped w1.maths) :
    ∃ w' more,
      ((visualMath w1).bind fun w2 =>
        if w2.maths.wasSuccessful = true then
          if input = 1 then saves fmt (w2.log Event.completed)
          else some (w2.log Event.completed)
        else some w2) = some w' ∧
      w'.events = w1.events ++ Event.callVisualMath :: more ∧
      w'.maths.mathInput = w1.maths.mathInput ∧
      w'.maths.mathOutput = w1.maths.mathOutput ∧
      (w'.maths.wasSuccessful = false ↔ ∃ i : Int, 1 ≤ i ∧ i ≤ 9 ∧ outputVal w1.maths i < 0) ∧
      (Event.callSaves ∈ more ↔ w'.maths.wasSuccessful = true ∧ input = 1) ∧
      (Event.callSaveFile ∈ more ↔
        w'.maths.wasSuccessful = true ∧ input = 1 ∧ outputVal w1.maths 1 ≠ 0) ∧
      (w'.maths.wasSuccessful = false →
        w'.inputsTxt = w1.inputsTxt ∧ w'.outputsTxt = w1.outputsTxt) := by
  obtain ⟨flag', more, hvis, hflag, hmore⟩ := visualMath_spec w1 h
  have hno : ∀ e : Event K, e.isCall = true → e ∉ more :=
    fun e he hm => absurd (hmore e hm) (by simp [he])
  rw [hvis, Option.some_bind]
  cases flag' with
  | false =>
    refine ⟨{ w1 with
        maths := { w1.maths with wasSuccessful := false }
        events := w1.events ++ Event.callVisualMath :: more }, more, by simp, rfl, rfl, rfl,
      ?_, ?_, ?_, fun _ => ⟨rfl, rfl⟩⟩
    · simpa using hflag
    · simpa using hno Event.callSaves rfl
    · simpa using hno Event.callSaveFile rfl
  | true =>
    have hpos : ¬ ∃ i : Int, 1 ≤ i ∧ i ≤ 9 ∧ outputVal w1.maths i < 0 :=
      fun hex => absurd (hflag.mpr hex) (by simp)
    by_cases hin : input = 1
    · obtain ⟨w', more2, hsv, hm, -, hev, hsf, -⟩ :=
        saves_total fmt
          ({ w1 with
            maths := { w1.maths with wasSuccessful := true }
            events := w1.events ++ Event.callVisualMath :: more }.log Event.completed)
          ⟨h.1, h.2⟩
      refine ⟨w', more ++ Event.completed :: Event.callSaves :: more2,
        by simpa [hin] using hsv, by simp [hev, World.log], by rw [hm]; rfl, by rw [hm]; rfl,
        ?_, ?_, ?_, ?_⟩
      · rw [hm]
        simpa [World.log] using hpos
      · rw [hm]
        simp [World.log, hin]
      · rw [hm]
        have h1 := hno Event.callSaveFile rfl
        have h2 : outputVal ({ w1 with
            maths := { w1.maths with wasSuccessful := true }
            events := w1.events ++ Event.callVisualMath :: more }.log Event.completed).maths 1 =
            outputVal w1.maths 1 := rfl
        rw [h2] at hsf
        simp [World.log, hin, h1, hsf]
      · rw [hm]
        intro hf
        exact absurd hf (by simp [World.log])
    · refine ⟨{ w1 with
          maths := { w1.maths with wasSuccessful := true }
          events := w1.events ++ Event.callVisualMath :: more ++ [Event.completed] },
        more ++ [Event.completed], by simp [hin, World.log], by simp, rfl, rfl, ?_, ?_, ?_, ?_⟩
      · simpa using hpos
      · simpa [hin] using hno Event.callSaves rfl
      · simpa [hin] using hno Event.callSaveFile rfl
      · intro hf
        exact absurd hf (by simp)

/-! ## C3: the validation gate -/

/-- C4. When an input is <= 0, `breakItDown` reports the input with the
smallest index `k` in 1..7 whose value is <= 0, zero included: it echoes the
inputs before `k`, prints the message for the name of input `k`, and does
nothing else. -/
theorem breakItDown_reports_first (M_PI : K) (fmt : K → Str) (input : Int) (w : World K)
    (h : Shaped w.maths) (k : Int) (h1 : 1 ≤ k) (h7 : k ≤ 7)
    (hbad : inputVal w.maths k ≤ 0)
    (hgood : ∀ j : Int, 1 ≤ j → j < k → 0 < inputVal w.maths j) :
    ∃ echoes,
      breakItDown M_PI fmt input w =
        some { w with events := w.events ++ echoes ++
          [Event.invalidInput ((mapFind w.maths.mathInput k).getD Input.dflt).inputName] } ∧
      echoes.length = (k - 1).toNat ∧
      (∀ e ∈ echoes, ∃ name letter value, e = Event.echoInput name letter value) := by
  obtain ⟨hlen, hfound, -⟩ := h.inputs_dense
  obtain ⟨echoes, hrun, hlen, hech⟩ :=
    validateLoop_first w.maths.mathInput 7 (w.maths.mathInput.length + 1) 1 k w.events
      (by omega) hfound h1 (by push_cast; omega) hbad hgood
  exact ⟨echoes, by simp [breakItDown, hrun], hlen, hech⟩

/-- Witness of C4: a freshly constructed model, all values 0, fails at index
1, Drive Wheel Diameter. -/
theorem breakItDown_reports_first_witness :
    Shaped (World.start false none none true true : World ℚ).maths ∧
    inputVal (World.start false none none true true : World ℚ).maths 1 ≤ 0 ∧
    breakItDown (3 : ℚ) (fun _ => []) 1 (World.start false none none true true) =
      some { (World.start false none none true true : World ℚ) with
        events := [Event.invalidInput "Drive Wheel Diameter".toList] } := by
  obtain ⟨echoes, hrun, hlen, -⟩ :=
    breakItDown_reports_first (3 : ℚ) (fun _ => []) 1 (World.start false none none true true)
      (shaped_new false) 1 (by decide) (by decide) (le_of_eq rfl)
      (fun j h1 hj => absurd hj (not_lt.mpr h1))
  refine ⟨shaped_new false, le_of_eq rfl, ?_⟩
  rw [hrun, List.length_eq_zero.mp hlen]
  rfl

/-! ## Sessions with entered values -/

/-- All seven inputs of a session are positive when the entered values are. -/
theorem allPositive_entered (flag : Bool) {D S B L A T W : K} (hD : 0 < D) (hS : 0 < S)
    (hB : 0 < B) (hL : 0 < L) (hA : 0 < A) (hT : 0 < T) (hW : 0 < W) :
    ∀ i : Int, 1 ≤ i → i ≤ 7 → 0 < inputVal (World.entered flag D S B L A T W).maths i := by
  intro i h1 h7
  interval_cases i
  · exact hD
  · exact hS
  · exact hB
  · exact hL
  · exact hA
  · exact hT
  · exact hW

/-- Witness of C2: the example model. -/
theorem theActualMath_example_witness :
    Shaped (exampleModel false : Maths ℝ) ∧
    inputVal (exampleModel false : Maths ℝ) 2 = 26 ∧
    outputVal (theActualMath Real.pi (exampleModel false)) 2 = 1456 :=
  ⟨shaped_exampleModel false, (inputVal_exampleModel false).2.1,
    (theActualMath_example (exampleModel false) (shaped_exampleModel false)
      (inputVal_exampleModel false).1 (inputVal_exampleModel false).2.1
      (inputVal_exampleModel false).2.2.1 (inputVal_exampleModel false).2.2.2.1
      (inputVal_exampleModel false).2.2.2.2.1 (inputVal_exampleModel false).2.2.2.2.2.1
      (inputVal_exampleModel false).2.2.2.2.2.2).1⟩

/-! ## C7: dependency on Bore -/

/-- The chain from Bore Area to Combination Lever Length is injective: two
different bore areas give different VPM, PA, PH, HT and CLL. -/
theorem bore_chain {S A L W X X' : ℝ} (hS : 0 < S) (hAL : 0 < A + L) (hW : 0 < W)
    (hX : X' ≠ X) :
    (336 * 2 * S) / 12 * X' / 144 ≠ (336 * 2 * S) / 12 * X / 144 ∧
    (336 * 2 * S) / 12 * X' / 144 / 7874 ≠ (336 * 2 * S) / 12 * X / 144 / 7874 ∧
    (336 * 2 * S) / 12 * X' / 144 / 7874 * 12 / W ≠
      (336 * 2 * S) / 12 * X / 144 / 7874 * 12 / W ∧
    A + L + (336 * 2 * S) / 12 * X' / 144 / 7874 * 12 / W ≠
      A + L + (336 * 2 * S) / 12 * X / 144 / 7874 * 12 / W ∧
    S * (A + L + (336 * 2 * S) / 12 * X' / 144 / 7874 * 12 / W) / (2 * ((A + L) / 2)) ≠
      S * (A + L + (336 * 2 * S) / 12 * X / 144 / 7874 * 12 / W) / (2 * ((A + L) / 2)) := by
  have h4 : (336 * 2 * S) / 12 * X' / 144 ≠ (336 * 2 * S) / 12 * X / 144 := by
    intro heq
    apply hX
    have hF : (336 * 2 * S) / 12 ≠ 0 := by positivity
    have h2 : (336 * 2 * S) / 12 * X' = (336 * 2 * S) / 12 * X := by linarith
    exact mul_left_cancel₀ hF h2
  have h5 : (336 * 2 * S) / 12 * X' / 144 / 7874 ≠ (336 * 2 * S) / 12 * X / 144 / 7874 := by
    intro heq
    apply h4
    linarith
  have h6 : (336 * 2 * S) / 12 * X' / 144 / 7874 * 12 / W ≠
      (336 * 2 * S) / 12 * X / 144 / 7874 * 12 / W := by
    intro heq
    apply h5
    have := (div_left_inj' hW.ne').mp heq
    linarith
  have h7 : A + L + (336 * 2 * S) / 12 * X' / 144 / 7874 * 12 / W ≠
      A + L + (336 * 2 * S) / 12 * X / 144 / 7874 * 12 / W := by
    intro heq
    apply h6
    linarith
  refine ⟨h4, h5, h6, h7, ?_⟩
  intro heq
  apply h7
  have hden : 2 * ((A + L) / 2) ≠ 0 := by positivity
  exact mul_left_cancel₀ hS.ne' ((div_left_inj' hden).mp heq)

/-- C7. For every all-positive input set and every positive Bore value B'
different from B, recomputing with `theActualMath` after replacing only Bore
by B' changes VPM, PA, PH, HT and CLL and leaves WS and FPM unchanged, over
the reals with the true pi. -/
theorem theActualMath_bore (s : Maths ℝ) (h : Shaped s)
    (hpos : ∀ i : Int, 1 ≤ i → i ≤ 7 → 0 < inputVal s i)
    (B' : ℝ) (hB' : 0 < B') (hne : B' ≠ inputVal s 3) :
    outputVal (theActualMath Real.pi (setInput s 3 B')) 4 ≠
      outputVal (theActualMath Real.pi s) 4 ∧
    outputVal (theActualMath Real.pi (setInput s 3 B')) 5 ≠
      outputVal (theActualMath Real.pi s) 5 ∧
    outputVal (theActualMath Real.pi (setInput s 3 B')) 6 ≠
      outputVal (theActualMath Real.pi s) 6 ∧
    outputVal (theActualMath Real.pi (setInput s 3 B')) 7 ≠
      outputVal (theActualMath Real.pi s) 7 ∧
    outputVal (theActualMath Real.pi (setInput s 3 B')) 9 ≠
      outputVal (theActualMath Real.pi s) 9 ∧
    outputVal (theActualMath Real.pi (setInput s 3 B')) 1 =
      outputVal (theActualMath Real.pi s) 1 ∧
    outputVal (theActualMath Real.pi (setInput s 3 B')) 2 =
      outputVal (theActualMath Real.pi s) 2 := by
  obtain ⟨a1, a2, a3, a4, a5, a6, a7, b1, b2, b3, b4, b5, b6, b7, b8, b9, flag, rfl⟩ :=
    h.entries
  have hS : 0 < a2.input := hpos 2 (by decide) (by decide)
  have hB : 0 < a3.input := hpos 3 (by decide) (by decide)
  have hL : 0 < a4.input := hpos 4 (by decide) (by decide)
  have hA : 0 < a5.input := hpos 5 (by decide) (by decide)
  have hW : 0 < a7.input := hpos 7 (by decide) (by decide)
  have hne' : B' ≠ a3.input := hne
  have hX : Real.pi * (B' / 2) ^ 2 ≠ Real.pi * (a3.input / 2) ^ 2 := by
    intro heq
    apply hne'
    have h2 := mul_left_cancel₀ Real.pi_ne_zero heq
    have h3 : (B' - a3.input) * (B' + a3.input) = 0 := by nlinarith
    rcases mul_eq_zero.mp h3 with h4 | h4
    · linarith
    · linarith
  have hset : setInput (entries a1 a2 a3 a4 a5 a6 a7 b1 b2 b3 b4 b5 b6 b7 b8 b9 flag) 3 B' =
      entries a1 a2 { a3 with input := B' } a4 a5 a6 a7 b1 b2 b3 b4 b5 b6 b7 b8 b9 flag := rfl
  rw [hset, theActualMath_entries, theActualMath_entries]
  obtain ⟨h4, h5, h6, h7, h9⟩ := bore_chain hS (add_pos hA hL) hW hX
  exact ⟨h4, h5, h6, h7, h9, rfl, rfl⟩

/-- Witness of C7: the example inputs with Bore changed from 20.5 to 21. -/
theorem theActualMath_bore_witness :
    Shaped (World.entered false 66 26 20.5 0.858 3.39 5.5 18 : World ℝ).maths ∧
    (21 : ℝ) ≠ inputVal (World.entered false 66 26 20.5 0.858 3.39 5.5 18 : World ℝ).maths 3 ∧
    outputVal (theActualMath Real.pi
        (setInput (World.entered false 66 26 20.5 0.858 3.39 5.5 18 : World ℝ).maths 3 21)) 4 ≠
      outputVal (theActualMath Real.pi
        (World.entered false 66 26 20.5 0.858 3.39 5.5 18 : World ℝ).maths) 4 := by
  have hne : (21 : ℝ) ≠
      inputVal (World.entered false 66 26 20.5 0.858 3.39 5.5 18 : World ℝ).maths 3 := by
    show (21 : ℝ) ≠ 20.5
    norm_num
  exact ⟨shaped_entered _ _ _ _ _ _ _ _, hne,
    (theActualMath_bore _ (shaped_entered _ _ _ _ _ _ _ _)
      (allPositive_entered false (by norm_num) (by norm_num) (by norm_num) (by norm_num)
        (by norm_num) (by norm_num) (by norm_num)) 21 (by norm_num) hne).1⟩

/-! ## C8: determinism -/

theorem inputVal_congr {s t : Maths K} (h : s.mathInput = t.mathInput) (i : Int) :
    inputVal s i = inputVal t i := by
  simp only [inputVal, h]

/-- Manual entry keeps the shape of the model. -/
theorem shaped_withInputs {s : Maths K} (h : Shaped s) (D S B L A T W : K) :
    Shaped (withInputs s D S B L A T W) := by
  obtain ⟨a1, a2, a3, a4, a5, a6, a7, b1, b2, b3, b4, b5, b6, b7, b8, b9, flag, rfl⟩ :=
    h.entries
  exact ⟨rfl, rfl⟩

/-- Manual entry stores the seven values. -/
theorem inputVal_withInputs {s : Maths K} (h : Shaped s) (D S B L A T W : K) :
    inputVal (withInputs s D S B L A T W) 1 = D ∧
    inputVal (withInputs s D S B L A T W) 2 = S ∧
    inputVal (withInputs s D S B L A T W) 3 = B ∧
    inputVal (withInputs s D S B L A T W) 4 = L ∧
    inputVal (withInputs s D S B L A T W) 5 = A ∧
    inputVal (withInputs s D S B L A T W) 6 = T ∧
    inputVal (withInputs s D S B L A T W) 7 = W := by
  obtain ⟨a1, a2, a3, a4, a5, a6, a7, b1, b2, b3, b4, b5, b6, b7, b8, b9, flag, rfl⟩ :=
    h.entries
  exact ⟨rfl, rfl, rfl, rfl, rfl, rfl, rfl⟩

/-- C8. For any two models whose seven input values are equal, whatever
their output values and flags, `theActualMath` produces equal values for all
nine outputs; and running `theActualMath` twice gives the same model as
running it once. -/
theorem theActualMath_deterministic (M_PI : K) (s t : Maths K) (hs : Shaped s)
    (ht : Shaped t) (heq : ∀ i : Int, 1 ≤ i → i ≤ 7 → inputVal s i = inputVal t i) :
    (∀ i : Int, 1 ≤ i → i ≤ 9 →
      outputVal (theActualMath M_PI s) i = outputVal (theActualMath M_PI t) i) ∧
    theActualMath M_PI (theActualMath M_PI s) = theActualMath M_PI s := by
  obtain ⟨a1, a2, a3, a4, a5, a6, a7, b1, b2, b3, b4, b5, b6, b7, b8, b9, flag, rfl⟩ :=
    hs.entries
  obtain ⟨c1, c2, c3, c4, c5, c6, c7, d1, d2, d3, d4, d5, d6, d7, d8, d9, flag', rfl⟩ :=
    ht.entries
  have h1 : a1.input = c1.input := heq 1 (by decide) (by decide)
  have h2 : a2.input = c2.input := heq 2 (by decide) (by decide)
  have h3 : a3.input = c3.input := heq 3 (by decide) (by decide)
  have h4 : a4.input = c4.input := heq 4 (by decide) (by decide)
  have h5 : a5.input = c5.input := heq 5 (by decide) (by decide)
  have h6 : a6.input = c6.input := heq 6 (by decide) (by decide)
  have h7 : a7.input = c7.input := heq 7 (by decide) (by decide)
  constructor
  · intro i hi1 hi9
    rw [theActualMath_entries, theActualMath_entries, h1, h2, h3, h4, h5, h6, h7]
    interval_cases i <;> rfl
  · rw [theActualMath_entries, theActualMath_entries]

/-- Witness of C8: the example inputs entered into a fresh model, and the
same inputs entered into a model that holds the outputs of an earlier run on
other inputs. -/
theorem theActualMath_deterministic_witness :
    Shaped (exampleModel false : Maths ℚ) ∧
    Shaped (withInputs (theActualMath (3 : ℚ) (World.entered true 1 2 3 4 5 6 7).maths)
      66 26 20.5 0.858 3.39 5.5 18) ∧
    outputVal (theActualMath (3 : ℚ) (exampleModel false)) 4 =
      outputVal (theActualMath (3 : ℚ)
        (withInputs (theActualMath (3 : ℚ) (World.entered true 1 2 3 4 5 6 7).maths)
          66 26 20.5 0.858 3.39 5.5 18)) 4 := by
  have hs : Shaped (exampleModel false : Maths ℚ) := shaped_exampleModel false
  have h0 : Shaped (theActualMath (3 : ℚ) (World.entered true 1 2 3 4 5 6 7).maths) :=
    shaped_theActualMath 3 (shaped_entered _ _ _ _ _ _ _ _)
  have ht := shaped_withInputs h0 66 26 20.5 0.858 3.39 5.5 18
  obtain ⟨e1, e2, e3, e4, e5, e6, e7⟩ := inputVal_exampleModel (K := ℚ) false
  obtain ⟨i1, i2, i3, i4, i5, i6, i7⟩ := inputVal_withInputs h0 66 26 20.5 0.858 3.39 5.5 18
  refine ⟨hs, ht, (theActualMath_deterministic (3 : ℚ) _ _ hs ht ?_).1 4 (by decide)
    (by decide)⟩
  intro i h1 h7
  interval_cases i
  · rw [e1, i1]
  · rw [e2, i2]
  · rw [e3, i3]
  · rw [e4, i4]
  · rw [e5, i5]
  · rw [e6, i6]
  · rw [e7, i7]

/-! ## Loading -/

omit [LinearOrderedField K] in
theorem strFindFrom_ge (needle : Str) :
    ∀ (hay : Str) (p q : Nat), strFindFrom needle p hay = some q → p ≤ q := by
  intro hay
  induction hay with
  | nil =>
    intro p q h
    simp only [strFindFrom] at h
    split_ifs at h
    simp only [Option.some.injEq] at h
    omega
  | cons c t ih =>
    intro p q h
    simp only [strFindFrom] at h
    split_ifs at h
    · simp only [Option.some.injEq] at h
      omega
    · have := ih (p + 1) q h
      omega

omit [LinearOrderedField K] in
/-- The test `fileLine.find(searchLabel) == 0` holds exactly when the line
starts with the label. -/
theorem strFind_eq_zero_iff (hay needle : Str) :
    strFind hay needle = some 0 ↔ needle <+: hay := by
  rw [← List.isPrefixOf_iff_prefix]
  cases hay with
  | nil =>
    simp only [strFind, strFindFrom]
    split_ifs with h <;> simp [h]
  | cons c t =>
    simp only [strFind, strFindFrom]
    split_ifs with h
    · simp [h]
    · constructor
      · intro h0
        have := strFindFrom_ge needle t 1 0 h0
        omega
      · intro h1
        exact absurd h1 h

omit [LinearOrderedField K] in
/-- Mapping the records of a map keeps the keys. -/
theorem mapFind_map {V : Type} (g : V → V) (m : IntMap V) (j : Int) :
    mapFind (m.map fun p => (p.1, g p.2)) j = (mapFind m j).map g := by
  induction m with
  | nil => rfl
  | cons p t ih =>
    obtain ⟨k, v⟩ := p
    simp only [List.map_cons, mapFind]
    split_ifs
    · rfl
    · exact ih

/-- A label that no line starts with leaves the record as it was. -/
theorem scanLines_no_match (parse : Str → Option K) (lbl : Str) (r : Input K) :
    ∀ lines : List Str, (∀ l ∈ lines, ¬ lbl <+: l) → scanLines parse lbl r lines = r := by
  intro lines
  induction lines with
  | nil => intro _; rfl
  | cons l t ih =>
    intro h
    have hl : ¬ strFind l lbl = some 0 := by
      rw [strFind_eq_zero_iff]
      exact h l (List.mem_cons_self _ _)
    simp only [scanLines, if_neg hl]
    exact ih fun l' hl' => h l' (List.mem_cons_of_mem _ hl')

/-- The first line that starts with the label decides. -/
theorem scanLines_first (parse : Str → Option K) (lbl : Str) (r : Input K) (line : Str)
    (post : List Str) (hmatch : lbl <+: line) :
    ∀ pre : List Str, (∀ l ∈ pre, ¬ lbl <+: l) →
      scanLines parse lbl r (pre ++ line :: post) =
        match strFindChar ':' line with
        | some colonPos => { r with input := (parse (numberStrOf line colonPos)).getD 0 }
        | none => r := by
  intro pre
  induction pre with
  | nil =>
    intro _
    have hl : strFind line lbl = some 0 := (strFind_eq_zero_iff line lbl).mpr hmatch
    simp only [List.nil_append, scanLines, if_pos hl]
  | cons l t ih =>
    intro h
    have hl : ¬ strFind l lbl = some 0 := by
      rw [strFind_eq_zero_iff]
      exact h l (List.mem_cons_self _ _)
    simp only [List.cons_append, scanLines, if_neg hl]
    exact ih fun l' hl' => h l' (List.mem_cons_of_mem _ hl')

omit [LinearOrderedField K] in
/-- The position of the first colon, and the text after it. -/
theorem strFindChar_colon (line : Str) :
    (strFindChar ':' line = none ∧ ':' ∉ line) ∨
    ∃ colonPos, strFindChar ':' line = some colonPos ∧
      line.drop (colonPos + 1) = (line.dropWhile fun c => c != ':').drop 1 := by
  induction line with
  | nil => exact Or.inl ⟨rfl, by simp⟩
  | cons x t ih =>
    by_cases hx : x = ':'
    · subst hx
      exact Or.inr ⟨0, by simp [strFindChar], by simp [List.dropWhile]⟩
    · rcases ih with ⟨hnone, hmem⟩ | ⟨c, hc, hdrop⟩
      · exact Or.inl ⟨by simp [strFindChar, hx, hnone], by simp [hmem, Ne.symm hx]⟩
      · refine Or.inr ⟨c + 1, by simp [strFindChar, hx, hc], ?_⟩
        have hb : (x != ':') = true := by simpa using hx
        simp only [List.drop_succ_cons, List.dropWhile_cons, hb, if_true]
        exact hdrop

omit [LinearOrderedField K] in
/-- What `find_first_not_of(" \t")` and `substr` leave of a text: the text
without its leading spaces and tabs, or the whole text when it holds nothing
else. -/
theorem findFirstNotOf_blank (s : Str) :
    (findFirstNotOf " \t".toList s = none ∧
      (s.dropWhile fun c => c == ' ' || c == '\t') = []) ∨
    ∃ start, findFirstNotOf " \t".toList s = some start ∧
      s.drop start = s.dropWhile fun c => c == ' ' || c == '\t' := by
  induction s with
  | nil => exact Or.inl ⟨rfl, rfl⟩
  | cons x t ih =>
    by_cases hx : x = ' ' ∨ x = '\t'
    · have hmem : x ∈ " \t".toList := by
        rcases hx with rfl | rfl <;> decide
      have hb : (x == ' ' || x == '\t') = true := by
        rcases hx with rfl | rfl <;> decide
      rcases ih with ⟨hnone, hall⟩ | ⟨st, hst, hdrop⟩
      · exact Or.inl ⟨by simp only [findFirstNotOf, if_pos hmem, hnone, Option.map_none'],
          by simp only [List.dropWhile_cons, hb, if_true, hall]⟩
      · exact Or.inr ⟨st + 1,
          by simp only [findFirstNotOf, if_pos hmem, hst, Option.map_some'],
          by simp only [List.drop_succ_cons, List.dropWhile_cons, hb, if_true, hdrop]⟩
    · have hmem : x ∉ " \t".toList := by
        intro hm
        apply hx
        simpa using hm
      have hb : (x == ' ' || x == '\t') = false := by
        simpa using hx
      exact Or.inr ⟨0, by simp only [findFirstNotOf, if_neg hmem],
        by simp [List.dropWhile_cons, hb]⟩

omit [LinearOrderedField K] in
/-- For a parser that skips leading blanks itself, the text `loadFile` hands
it parses like the text of the spec. -/
theorem parse_numberStrOf (parse : Str → Option K)
    (hskip : ∀ s : Str, parse (s.dropWhile fun c => c == ' ' || c == '\t') = parse s)
    (line : Str) (colonPos : Nat) (hc : strFindChar ':' line = some colonPos) :
    parse (numberStrOf line colonPos) = parse (specNumberText line) := by
  have hdrop : line.drop (colonPos + 1) = (line.dropWhile fun c => c != ':').drop 1 := by
    rcases strFindChar_colon line with ⟨hnone, -⟩ | ⟨c, hc', hd⟩
    · rw [hnone] at hc
      exact absurd hc (by simp)
    · rw [hc'] at hc
      obtain rfl : c = colonPos := by simpa using hc
      exact hd
  simp only [numberStrOf, specNumberText, hdrop]
  rcases findFirstNotOf_blank ((line.dropWhile fun c => c != ':').drop 1) with
    ⟨hnone, -⟩ | ⟨st, hst, hd⟩
  · simp only [hnone]
    exact (hskip _).symm
  · simp only [hst, hd]

/-- The record of an input after `loadFile` read the lines of the file. -/
theorem mapFind_loadFile (parse : Str → Option K) (w : World K) (lines : List Str)
    (hfile : w.inputsTxt = some lines) (i : Int) :
    mapFind (loadFile parse w).maths.mathInput i =
      (mapFind w.maths.mathInput i).map fun r =>
        scanLines parse (r.inputName ++ ":".toList) r lines := by
  simp only [loadFile, hfile]
  exact mapFind_map (fun r => scanLines parse (r.inputName ++ ":".toList) r lines) _ i

omit [LinearOrderedField K] in
theorem dropWhile_whitespace_blank (s : Str) :
    (s.dropWhile fun c => c == ' ' || c == '\t').dropWhile Char.isWhitespace =
      s.dropWhile Char.isWhitespace := by
  induction s with
  | nil => rfl
  | cons x t ih =>
    by_cases hx : x = ' ' ∨ x = '\t'
    · have hb : (x == ' ' || x == '\t') = true := by
        rcases hx with rfl | rfl <;> decide
      have hw : x.isWhitespace = true := by
        rcases hx with rfl | rfl <;> decide
      simp only [List.dropWhile_cons, hb, hw, if_true, ih]
    · have hb : (x == ' ' || x == '\t') = false := by
        simpa using hx
      simp [List.dropWhile_cons, hb]

/-- The model of the extraction skips leading spaces and tabs. -/
theorem parseDouble_skip (s : Str) :
    (parseDouble (s.dropWhile fun c => c == ' ' || c == '\t') : Option K) = parseDouble s := by
  unfold parseDouble
  rw [dropWhile_whitespace_blank]

/-! ## C9: tolerant parse -/

/-- C9. For every list of lines and every input for which some line starts
with `"<name>:"`, `loadFile` sets the value of that input from the first such
line only: it takes the text after the first `:` of that line without its
leading spaces and tabs, and stores the numeric literal the extraction reads
from it, or 0.0 when the extraction fails; the rest of the record is kept.
The extraction `parse` is any one that skips leading blanks itself. -/
theorem loadFile_first_match (parse : Str → Option K)
    (hskip : ∀ s : Str, parse (s.dropWhile fun c => c == ' ' || c == '\t') = parse s)
    (w : World K) (lines : List Str) (hfile : w.inputsTxt = some lines)
    (i : Int) (r : Input K) (hi : mapFind w.maths.mathInput i = some r)
    (pre post : List Str) (line : Str) (hsplit : lines = pre ++ line :: post)
    (hmatch : (r.inputName ++ ":".toList) <+: line)
    (hfirst : ∀ l ∈ pre, ¬ (r.inputName ++ ":".toList) <+: l) :
    mapFind (loadFile parse w).maths.mathInput i =
        some { r with input := (parse (specNumberText line)).getD 0 } ∧
      inputVal (loadFile parse w).maths i = (parse (specNumberText line)).getD 0 := by
  have hrec : mapFind (loadFile parse w).maths.mathInput i =
      some { r with input := (parse (specNumberText line)).getD 0 } := by
    rw [mapFind_loadFile parse w lines hfile, hi, Option.map_some', hsplit,
      scanLines_first parse _ r line post hmatch pre hfirst]
    rcases strFindChar_colon line with ⟨-, hno⟩ | ⟨c, hc, -⟩
    · exact absurd (hmatch.subset (by simp)) hno
    · simp only [hc, parse_numberStrOf parse hskip line c hc]
  exact ⟨hrec, by simp only [inputVal, hrec, Option.getD_some]⟩

/-- Witness of C9: "Bore: 20.5 extra text" gives Bore = 20.5 and the second
Bore line is not used; "Bore: notanumber" gives Bore = 0.0. -/
theorem loadFile_first_match_witness :
    inputVal (loadFile parseDouble
      (World.start false
        (some ["Lap: 3".toList, "Bore: 20.5 extra text".toList, "Bore: 7".toList]) none
        true true : World ℚ)).maths 3 = 20.5 ∧
    inputVal (loadFile parseDouble
      { (World.entered false 66 26 20.5 0.858 3.39 5.5 18 : World ℚ) with
        inputsTxt := some ["Bore: notanumber".toList] }).maths 3 = 0 := by
  have h1 := (loadFile_first_match (parseDouble : Str → Option ℚ) parseDouble_skip
    (World.start false
      (some ["Lap: 3".toList, "Bore: 20.5 extra text".toList, "Bore: 7".toList]) none
      true true)
    ["Lap: 3".toList, "Bore: 20.5 extra text".toList, "Bore: 7".toList] rfl 3
    ⟨"B".toList, "Bore".toList, "The bore.".toList, 20.5, 0⟩ rfl
    ["Lap: 3".toList] ["Bore: 7".toList] "Bore: 20.5 extra text".toList rfl
    (by decide) (by decide)).2
  have h2 := (loadFile_first_match (parseDouble : Str → Option ℚ) parseDouble_skip
    { (World.entered false 66 26 20.5 0.858 3.39 5.5 18 : World ℚ) with
      inputsTxt := some ["Bore: notanumber".toList] }
    ["Bore: notanumber".toList] rfl 3
    ⟨"B".toList, "Bore".toList, "The bore.".toList, 20.5, 20.5⟩ rfl
    [] [] "Bore: notanumber".toList rfl (by decide) (by decide)).2
  have hp1 : (parseDouble (specNumberText "Bore: 20.5 extra text".toList) : Option ℚ) =
      some (((205 : ℕ) : ℚ) / (10 : ℚ) ^ (1 : ℕ)) := rfl
  have hp2 : (parseDouble (specNumberText "Bore: notanumber".toList) : Option ℚ) = none := rfl
  rw [h1, h2, hp1, hp2]
  norm_num

/-! ## C10: load changes an input only when it is matched -/

/-- C10. If the file cannot be opened, `loadFile` changes nothing of the
model, reports "No file found." and leaves `playerHasSave` false. If it can
be opened, every input for which no line starts with `"<name>:"` keeps its
record, so its value, whatever the lines hold for the other inputs. -/
theorem loadFile_frame (parse : Str → Option K) (w : World K) :
    (w.inputsTxt = none →
      (loadFile parse w).maths = w.maths ∧
      (loadFile parse w).playerHasSave = false ∧
      (loadFile parse w).events = w.events ++ [Event.noFileFound]) ∧
    (∀ lines : List Str, w.inputsTxt = some lines →
      (loadFile parse w).playerHasSave = true ∧
      (loadFile parse w).events = w.events ∧
      ∀ (i : Int) (r : Input K), mapFind w.maths.mathInput i = some r →
        (∀ l ∈ lines, ¬ (r.inputName ++ ":".toList) <+: l) →
        mapFind (loadFile parse w).maths.mathInput i = some r ∧
        inputVal (loadFile parse w).maths i = inputVal w.maths i) := by
  constructor
  · intro hnone
    exact ⟨by simp only [loadFile, hnone, World.log],
      by simp only [loadFile, hnone, World.log], by simp only [loadFile, hnone, World.log]⟩
  · intro lines hfile
    refine ⟨by simp only [loadFile, hfile], by simp only [loadFile, hfile], ?_⟩
    intro i r hi hno
    have hrec : mapFind (loadFile parse w).maths.mathInput i = some r := by
      rw [mapFind_loadFile parse w lines hfile, hi, Option.map_some',
        scanLines_no_match parse _ r lines hno]
    exact ⟨hrec, by simp only [inputVal, hrec, hi]⟩

/-- Witness of C10: a file with no "Lead:" line leaves Lead unchanged, and a
missing file leaves the model unchanged. -/
theorem loadFile_frame_witness :
    inputVal (loadFile parseDouble
      { (World.entered false 66 26 20.5 0.858 3.39 5.5 18 : World ℚ) with
        inputsTxt := some ["Bore: 21".toList, "lead: 1".toList, " Lead: 2".toList] }).maths 4 =
      0.858 ∧
    (loadFile parseDouble (World.entered false 66 26 20.5 0.858 3.39 5.5 18 : World ℚ)).maths =
      (World.entered false 66 26 20.5 0.858 3.39 5.5 18 : World ℚ).maths := by
  have h1 := ((loadFile_frame (parseDouble : Str → Option ℚ)
    { (World.entered false 66 26 20.5 0.858 3.39 5.5 18 : World ℚ) with
      inputsTxt := some ["Bore: 21".toList, "lead: 1".toList, " Lead: 2".toList] }).2
    ["Bore: 21".toList, "lead: 1".toList, " Lead: 2".toList] rfl).2.2 4
    ⟨"L".toList, "Lead".toList, "The lead.".toList, 0.858, 0.858⟩ rfl (by decide)
  have h2 := ((loadFile_frame (parseDouble : Str → Option ℚ)
    (World.entered false 66 26 20.5 0.858 3.39 5.5 18 : World ℚ)).1 rfl).1
  exact ⟨h1.2.trans rfl, h2⟩

/-! ## C16: the shape of the model -/

omit [LinearOrderedField K] in
theorem keys_eq_of_inputShape (s : Maths K) :
    keys s.mathInput = (inputShape s).map Prod.fst := by
  simp [keys, inputShape, List.map_map, Function.comp_def]

omit [LinearOrderedField K] in
theorem keys_eq_of_outputShape (s : Maths K) :
    keys s.mathOutput = (outputShape s).map Prod.fst := by
  simp [keys, outputShape, List.map_map, Function.comp_def]

/-- A canonical model is shaped. -/
theorem Canonical.shaped {s : Maths K} (h : Canonical s) : Shaped s := by
  constructor
  · rw [keys_eq_of_inputShape, h.1]
    rfl
  · rw [keys_eq_of_outputShape, h.2]
    rfl

theorem canonical_new (flag : Bool) : Canonical (Maths.new flag : Maths K) := ⟨rfl, rfl⟩

/-- Reading the file changes no key, letter, name, description or example. -/
theorem scanLines_shape (parse : Str → Option K) (lbl : Str) (r : Input K) :
    ∀ lines : List Str,
      (scanLines parse lbl r lines).inputLetter = r.inputLetter ∧
      (scanLines parse lbl r lines).inputName = r.inputName ∧
      (scanLines parse lbl r lines).inputDescription = r.inputDescription ∧
      (scanLines parse lbl r lines).inputExample = r.inputExample := by
  intro lines
  induction lines with
  | nil => exact ⟨rfl, rfl, rfl, rfl⟩
  | cons l t ih =>
    simp only [scanLines]
    split_ifs
    · split <;> exact ⟨rfl, rfl, rfl, rfl⟩
    · exact ih

theorem inputShape_loadFile (parse : Str → Option K) (w : World K) :
    inputShape (loadFile parse w).maths = inputShape w.maths := by
  cases hf : w.inputsTxt with
  | none => simp only [loadFile, hf, World.log]
  | some lines =>
    simp only [loadFile, hf, inputShape, List.map_map]
    apply List.map_congr_left
    intro p _
    obtain ⟨hl, hn, hd, he⟩ := scanLines_shape parse (p.2.inputName ++ ":".toList) p.2 lines
    simp only [Function.comp, hl, hn, hd, he]

theorem mathOutput_loadFile (parse : Str → Option K) (w : World K) :
    (loadFile parse w).maths.mathOutput = w.maths.mathOutput ∧
    (loadFile parse w).maths.wasSuccessful = w.maths.wasSuccessful := by
  cases hf : w.inputsTxt with
  | none => simp only [loadFile, hf, World.log, and_self]
  | some lines => simp only [loadFile, hf, and_self]

/-- The formulas change no output key, letter or name. -/
theorem outputShape_theActualMath (M_PI : K) {s : Maths K} (h : Shaped s) :
    outputShape (theActualMath M_PI s) = outputShape s := by
  obtain ⟨a1, a2, a3, a4, a5, a6, a7, b1, b2, b3, b4, b5, b6, b7, b8, b9, flag, rfl⟩ :=
    h.entries
  rw [theActualMath_entries]
  rfl

/-- C16. The constructor creates the inputs at exactly the indices 1..7 and
the outputs at exactly 1..9 with the letters, names and examples of the spec
in its order and every value 0; `theActualMath`, `loadFile`, `visualMath`
and `Menu::saves` keep both index sets and every letter, name, description
and example; `theActualMath` changes no input record and `loadFile` no output
record. -/
theorem shape_invariant (M_PI : K) (fmt : K → Str) (parse : Str → Option K) :
    (∀ flag : Bool,
      inputShape (Maths.new flag : Maths K) =
        [ (1, "D".toList, "Drive Wheel Diameter".toList, "The drive wheel diameter.".toList, 66),
          (2, "S".toList, "Piston Stroke".toList, "The piston stroke.".toList, 26),
          (3, "B".toList, "Bore".toList, "The bore.".toList, 20.5),
          (4, "L".toList, "Lead".toList, "The lead.".toList, 0.858),
          (5, "A".toList, "Lap".toList, "The lap (covering port at mid).".toList, 3.39),
          (6, "T".toList, "Valve Travel".toList, "The valve travel.".toList, 5.5),
          (7, "W".toList, "Port Width".toList, "The port width.".toList, 18) ] ∧
      outputShape (Maths.new flag : Maths K) =
        [ (1, "WS".toList, "Wheel Speed".toList),
          (2, "FPM".toList, "Piston Speed".toList),
          (3, "BA".toList, "Bore Area".toList),
          (4, "VPM".toList, "Volume Swept per Minute".toList),
          (5, "PA".toList, "Port Area".toList),
          (6, "PH".toList, "Port Height".toList),
          (7, "HT".toList, "Half Travel".toList),
          (8, "TM".toList, "Travel Margin".toList),
          (9, "CLL".toList, "Combination Lever Length".toList) ] ∧
      (∀ p ∈ (Maths.new flag : Maths K).mathInput, p.2.input = 0) ∧
      (∀ p ∈ (Maths.new flag : Maths K).mathOutput, p.2.output = 0) ∧
      Shaped (Maths.new flag : Maths K)) ∧
    (∀ s : Maths K, Shaped s →
      Shaped (theActualMath M_PI s) ∧
      inputShape (theActualMath M_PI s) = inputShape s ∧
      outputShape (theActualMath M_PI s) = outputShape s ∧
      (theActualMath M_PI s).mathInput = s.mathInput) ∧
    (∀ w : World K,
      keys (loadFile parse w).maths.mathInput = keys w.maths.mathInput ∧
      inputShape (loadFile parse w).maths = inputShape w.maths ∧
      (loadFile parse w).maths.mathOutput = w.maths.mathOutput) ∧
    (∀ w : World K, Shaped w.maths →
      ∃ w', visualMath w = some w' ∧
        w'.maths.mathInput = w.maths.mathInput ∧ w'.maths.mathOutput = w.maths.mathOutput) ∧
    (∀ w : World K, Shaped w.maths →
      ∃ w', saves fmt w = some w' ∧ w'.maths = w.maths) := by
  refine ⟨fun flag => ⟨rfl, rfl, ?_, ?_, shaped_new flag⟩, ?_, ?_, ?_, ?_⟩
  · intro p hp
    simp only [Maths.new, List.mem_cons, List.mem_singleton, List.not_mem_nil, or_false] at hp
    rcases hp with rfl | rfl | rfl | rfl | rfl | rfl | rfl <;> rfl
  · intro p hp
    simp only [Maths.new, List.mem_cons, List.mem_singleton, List.not_mem_nil, or_false] at hp
    rcases hp with rfl | rfl | rfl | rfl | rfl | rfl | rfl | rfl | rfl <;> rfl
  · intro s h
    have hin := mathInput_theActualMath M_PI h
    exact ⟨shaped_theActualMath M_PI h, by simp only [inputShape, hin],
      outputShape_theActualMath M_PI h, hin⟩
  · intro w
    have hs := inputShape_loadFile parse w
    exact ⟨by rw [keys_eq_of_inputShape, keys_eq_of_inputShape, hs], hs,
      (mathOutput_loadFile parse w).1⟩
  · intro w h
    obtain ⟨flag', more, hvis, -, -⟩ := visualMath_spec w h
    exact ⟨_, hvis, rfl, rfl⟩
  · intro w h
    obtain ⟨w', more, hsv, hm, -⟩ := saves_total fmt w h
    exact ⟨w', hsv, hm⟩

/-- Witness of C16: the freshly constructed model keeps its shape through the
formulas and a load. -/
theorem shape_invariant_witness :
    Shaped (Maths.new false : Maths ℚ) ∧
    inputShape (theActualMath (3 : ℚ) (Maths.new false)) = inputShape (Maths.new false : Maths ℚ) ∧
    (theActualMath (3 : ℚ) (Maths.new false)).mathInput = (Maths.new false : Maths ℚ).mathInput ∧
    (loadFile parseDouble (World.start false (some filesExample) none true true : World ℚ)
      ).maths.mathOutput = (Maths.new false : Maths ℚ).mathOutput :=
  have h := shape_invariant (3 : ℚ) (fun _ => []) (parseDouble : Str → Option ℚ)
  have h1 := h.2.1 (Maths.new false) (shaped_new false)
  ⟨shaped_new false, h1.2.1, h1.2.2.2,
    (h.2.2.1 (World.start false (some filesExample) none true true)).2.2⟩

/-! ## Manual entry and the reachable sessions -/

omit [LinearOrderedField K] in
theorem mapFind_isSome_iff {V : Type} (m : IntMap V) (j : Int) :
    (mapFind m j).isSome = true ↔ j ∈ keys m := by
  induction m with
  | nil => simp [mapFind, keys]
  | cons p t ih =>
    obtain ⟨k, v⟩ := p
    simp only [mapFind, keys, List.map_cons, List.mem_cons]
    split_ifs with h
    · simp [h]
    · simp only [h, false_or]
      exact ih

omit [LinearOrderedField K] in
/-- Updating the element of a present key of an ordered map inserts nothing:
whatever the update leaves alone is left alone in the whole map. -/
theorem map_mapUpdate_of_mem {V β : Type} (g : V → β) (d : V) (f : V → V)
    (hg : ∀ v, g (f v) = g v) (i : Int) :
    ∀ m : IntMap V, (keys m).Pairwise (· < ·) → i ∈ keys m →
      (mapUpdate d f i m).map (fun p => (p.1, g p.2)) = m.map fun p => (p.1, g p.2) := by
  intro m
  induction m with
  | nil => intro _ hi; simp [keys] at hi
  | cons p t ih =>
    obtain ⟨k, v⟩ := p
    intro hs hi
    simp only [keys, List.map_cons, List.pairwise_cons, List.mem_cons] at hs hi
    simp only [mapUpdate]
    split_ifs with h1 h2
    · rcases hi with rfl | hi
      · exact absurd h1 (lt_irrefl _)
      · exact absurd (hs.1 i hi) (not_lt.mpr h1.le)
    · simp only [List.map_cons, hg]
    · rcases hi with rfl | hi
      · exact absurd rfl h2
      · simp only [List.map_cons, List.cons.injEq, true_and]
        exact ih hs.2 hi

/-- The loop of `takeInputs` over a block of `n` present indices from `i` of
an ordered map: it returns, changes only values, and only prints. -/
theorem takeLoop_spec :
    ∀ (n fuel : Nat) (i : Int) (reads : List (Read K)) (m : IntMap (Input K))
      (ev : List (Event K)),
      n < fuel → (keys m).Pairwise (· < ·) →
      (∀ j : Int, i ≤ j → j < i + n → j ∈ keys m) → i + n ∉ keys m →
      ∃ m' more, takeLoop fuel i reads (m, ev) = some (m', ev ++ more) ∧
        (m'.map fun p => (p.1, p.2.inputLetter, p.2.inputName, p.2.inputDescription,
          p.2.inputExample)) =
          (m.map fun p => (p.1, p.2.inputLetter, p.2.inputName, p.2.inputDescription,
            p.2.inputExample)) ∧
        (∀ e ∈ more, e.isCall = false) := by
  intro n
  induction n with
  | zero =>
    intro fuel i reads m ev hf _ _ hend
    obtain ⟨f, rfl⟩ : ∃ f, fuel = f + 1 := ⟨fuel - 1, by omega⟩
    have hnone : mapFind m i = none := by
      have : ¬ (mapFind m i).isSome = true := by
        rw [mapFind_isSome_iff]
        simpa using hend
      simpa using this
    exact ⟨m, [], by simp [takeLoop, hnone], rfl, by simp⟩
  | succ n ih =>
    intro fuel i reads m ev hf hs hfound hend
    obtain ⟨f, rfl⟩ : ∃ f, fuel = f + 1 := ⟨fuel - 1, by omega⟩
    have hi : i ∈ keys m := hfound i le_rfl (by push_cast; omega)
    obtain ⟨v, hv⟩ := Option.isSome_iff_exists.mp ((mapFind_isSome_iff m i).mpr hi)
    have hshape := map_mapUpdate_of_mem
      (fun r : Input K => (r.inputLetter, r.inputName, r.inputDescription, r.inputExample))
      Input.dflt (fun r => { r with input := (reads.headD ⟨none, true⟩).stored.getD r.input })
      (fun _ => rfl) i m hs hi
    have hkeys : keys (mapUpdate Input.dflt
        (fun r => { r with input := (reads.headD ⟨none, true⟩).stored.getD r.input }) i m) =
        keys m := by
      have := congrArg (List.map Prod.fst) hshape
      simpa [keys, List.map_map, Function.comp_def] using this
    by_cases hfail : (reads.headD ⟨none, true⟩).failed = true
    · refine ⟨_, [Event.prompt v.inputLetter v.inputDescription v.inputExample,
        Event.invalidEntry v.inputName],
        by simp only [takeLoop, hv, hfail, if_true, List.append_assoc, List.singleton_append],
        hshape, ?_⟩
      intro e he
      simp only [List.mem_cons, List.mem_singleton, List.not_mem_nil, or_false] at he
      rcases he with rfl | rfl <;> rfl
    · obtain ⟨m', more, hrun, hsh, hmore⟩ :=
        ih f (i + 1) reads.tail
          (mapUpdate Input.dflt
            (fun r => { r with input := (reads.headD ⟨none, true⟩).stored.getD r.input }) i m)
          (ev ++ [Event.prompt v.inputLetter v.inputDescription v.inputExample])
          (by omega) (by rw [hkeys]; exact hs)
          (fun j h1 h2 => by rw [hkeys]; exact hfound j (by omega) (by push_cast; omega))
          (by rw [hkeys]; intro hmem; apply hend; convert hmem using 1; push_cast; ring)
      refine ⟨m', [Event.prompt v.inputLetter v.inputDescription v.inputExample] ++ more,
        by simp only [takeLoop, hv, hfail, Bool.false_eq_true, if_false, hrun,
          List.append_assoc, List.singleton_append], hsh.trans hshape, ?_⟩
      intro e he
      simp only [List.mem_append, List.mem_singleton] at he
      rcases he with rfl | he
      · rfl
      · exact hmore e he

/-- On a shaped model `takeInputs` returns: it changes only input values and
only prints. -/
theorem takeInputs_spec (reads : List (Read K)) (w : World K) (h : Shaped w.maths) :
    ∃ m' more,
      takeInputs reads w = some { w with
        maths := { w.maths with mathInput := m' }
        events := w.events ++ more } ∧
      inputShape { w.maths with mathInput := m' } = inputShape w.maths ∧
      (∀ e ∈ more, e.isCall = false) := by
  have hs : (keys w.maths.mathInput).Pairwise (· < ·) := by
    rw [h.1]
    decide
  obtain ⟨m', more, hrun, hsh, hmore⟩ :=
    takeLoop_spec 7 (w.maths.mathInput.length + 1) 1 reads w.maths.mathInput w.events
      (by have := h.inputs_dense.1; omega) hs
      (fun j h1 h2 => by
        rw [h.1]
        have h3 : j < 8 := by simpa using h2
        interval_cases j <;> decide)
      (by rw [h.1]; decide)
  exact ⟨m', more, by simp only [takeInputs, hrun, Option.map_some'], hsh, hmore⟩

/-- The two outcomes of `breakItDown` on a shaped model: stopped by the gate,
it only prints; past the gate, the outputs are those of the formulas. -/
theorem breakItDown_cases (M_PI : K) (fmt : K → Str) (input : Int) (w : World K)
    (h : Shaped w.maths) :
    ∃ w' new, breakItDown M_PI fmt input w = some w' ∧ w'.events = w.events ++ new ∧
      ((¬ (∀ i : Int, 1 ≤ i → i ≤ 7 → 0 < inputVal w.maths i) ∧ w'.maths = w.maths ∧
          (∀ e ∈ new, e.isCall = false) ∧
          w'.inputsTxt = w.inputsTxt ∧ w'.outputsTxt = w.outputsTxt) ∨
        ((∀ i : Int, 1 ≤ i → i ≤ 7 → 0 < inputVal w.maths i) ∧
          w'.maths.mathInput = w.maths.mathInput ∧
          w'.maths.mathOutput = (theActualMath M_PI w.maths).mathOutput ∧
          Event.callTheActualMath ∈ new ∧
          (w'.maths.wasSuccessful = false ↔
            ∃ i : Int, 1 ≤ i ∧ i ≤ 9 ∧ outputVal (theActualMath M_PI w.maths) i < 0))) := by
  obtain ⟨doThing, more, -, hdo, hmore, hrun⟩ := breakItDown_spec M_PI fmt input w h
  cases doThing with
  | false =>
    have hnot : ¬ ∀ i : Int, 1 ≤ i → i ≤ 7 → 0 < inputVal w.maths i :=
      fun hp => absurd (hdo.mpr hp) (by simp)
    exact ⟨{ w with events := w.events ++ more }, more, by simpa using hrun, rfl,
      Or.inl ⟨hnot, rfl, hmore, rfl, rfl⟩⟩
  | true =>
    have hall : ∀ i : Int, 1 ≤ i → i ≤ 7 → 0 < inputVal w.maths i := hdo.mp rfl
    obtain ⟨w', more2, htail, hev, hin, hout, hflag, -, -, -⟩ :=
      afterMath_spec fmt input { w with
        maths := theActualMath M_PI w.maths
        events := w.events ++ more ++ [Event.callTheActualMath] }
        (shaped_theActualMath M_PI h)
    rw [if_pos rfl, htail] at hrun
    refine ⟨w', more ++ Event.callTheActualMath :: Event.callVisualMath :: more2, hrun,
      by simp [hev], Or.inr ⟨hall, hin.trans (mathInput_theActualMath M_PI h), hout,
        by simp, hflag⟩⟩

/-- Wheel Speed after the formulas. -/
theorem theActualMath_WS (M_PI : K) {s : Maths K} (h : Shaped s) :
    outputVal (theActualMath M_PI s) 1 = inputVal s 1 * M_PI * 336 * 60 / 12 := by
  obtain ⟨a1, a2, a3, a4, a5, a6, a7, b1, b2, b3, b4, b5, b6, b7, b8, b9, flag, rfl⟩ :=
    h.entries
  rw [theActualMath_entries]
  rfl

/-- What `loadFile` prints. -/
theorem events_loadFile (parse : Str → Option K) (w : World K) :
    (loadFile parse w).events = w.events ∨
    (loadFile parse w).events = w.events ++ [Event.noFileFound] := by
  cases hf : w.inputsTxt with
  | none => exact Or.inr (by simp only [loadFile, hf, World.log])
  | some lines => exact Or.inl (by simp only [loadFile, hf])

/-- On a shaped model `saves` returns, leaves the model as it is and does not
enter the formulas. -/
theorem saves_events (fmt : K → Str) (w : World K) (h : Shaped w.maths) :
    ∃ w' more, saves fmt w = some w' ∧ w'.maths = w.maths ∧
      w'.events = w.events ++ more ∧ Event.callTheActualMath ∉ more := by
  rw [saves_spec fmt w h]
  by_cases hz : outputVal w.maths 1 = 0
  · rw [if_pos hz]
    exact ⟨_, [Event.callSaves, Event.noValidData], rfl, rfl, rfl, by simp⟩
  · rw [if_neg hz, saveFile_spec fmt { w with events := w.events ++ [Event.callSaves] } h]
    refine ⟨_, Event.callSaves :: Event.callSaveFile ::
        ((if w.inputsWritable then [] else [Event.errorSavingInputs]) ++
          (if w.outputsWritable then [] else [Event.errorSavingOutputs])),
      rfl, rfl, by simp, ?_⟩
    cases w.inputsWritable <;> cases w.outputsWritable <;> simp

theorem canonical_of_eq {s t : Maths K} (h : Canonical s)
    (hi : inputShape t = inputShape s) (ho : outputShape t = outputShape s) : Canonical t :=
  ⟨hi.trans h.1, ho.trans h.2⟩

/-- Every reachable session has the shape of the constructor, and its output
1 is 0 until the formulas have run and positive afterwards. -/
theorem Reach.inv {M_PI : K} (hpi : 0 < M_PI) {fmt : K → Str} {parse : Str → Option K}
    {w : World K} (h : Reach M_PI fmt parse w) :
    Canonical w.maths ∧
    (Event.callTheActualMath ∉ w.events → outputVal w.maths 1 = 0) ∧
    (Event.callTheActualMath ∈ w.events → 0 < outputVal w.maths 1) := by
  induction h with
  | start flag inputsTxt outputsTxt iw ow =>
    exact ⟨canonical_new flag, fun _ => rfl, fun hm => absurd hm (by simp [World.start])⟩
  | @calculate input w w' _ hrun ih =>
    obtain ⟨hc, h0, h1⟩ := ih
    obtain ⟨w'', new, hrun', hev, hcase⟩ := breakItDown_cases M_PI fmt input w hc.shaped
    rw [hrun] at hrun'
    obtain rfl : w' = w'' := by simpa using hrun'
    rcases hcase with ⟨-, hm, hnew, -, -⟩ | ⟨hall, hin, hout, hmem, -⟩
    · have hiff : Event.callTheActualMath ∈ w'.events ↔ Event.callTheActualMath ∈ w.events := by
        rw [hev, List.mem_append]
        exact ⟨fun hh => hh.elim id fun hh => absurd (hnew _ hh) (by simp [Event.isCall]),
          Or.inl⟩
      rw [hm, hiff]
      exact ⟨hc, h0, h1⟩
    · refine ⟨canonical_of_eq hc (by simp only [inputShape, hin]) ?_, ?_, ?_⟩
      · have := outputShape_theActualMath M_PI hc.shaped
        simp only [outputShape, hout] at this ⊢
        exact this
      · intro hno
        exact absurd (by rw [hev]; exact List.mem_append_right _ hmem) hno
      · intro _
        rw [outputVal_congr hout 1, theActualMath_WS M_PI hc.shaped]
        have hD := hall 1 (by decide) (by decide)
        positivity
  | @manualInput reads w w' _ hrun ih =>
    obtain ⟨hc, h0, h1⟩ := ih
    obtain ⟨m', more, hrun', hsh, hmore⟩ := takeInputs_spec reads w hc.shaped
    rw [hrun] at hrun'
    obtain rfl := Option.some.inj hrun'
    have hiff : Event.callTheActualMath ∈ w.events ++ more ↔
        Event.callTheActualMath ∈ w.events := by
      rw [List.mem_append]
      exact ⟨fun hh => hh.elim id fun hh => absurd (hmore _ hh) (by simp [Event.isCall]),
        Or.inl⟩
    exact ⟨canonical_of_eq hc hsh rfl, fun hno => h0 fun hm => hno (hiff.mpr hm),
      fun hm => h1 (hiff.mp hm)⟩
  | @fileInput w _ ih =>
    obtain ⟨hc, h0, h1⟩ := ih
    have hout := (mathOutput_loadFile parse w).1
    have hiff : Event.callTheActualMath ∈ (loadFile parse w).events ↔
        Event.callTheActualMath ∈ w.events := by
      rcases events_loadFile parse w with he | he <;> rw [he]
      simp
    refine ⟨canonical_of_eq hc (inputShape_loadFile parse w) (by simp only [outputShape, hout]),
      ?_, ?_⟩
    · intro hno
      rw [outputVal_congr hout 1]
      exact h0 fun hm => hno (hiff.mpr hm)
    · intro hm
      rw [outputVal_congr hout 1]
      exact h1 (hiff.mp hm)
  | @fileOutput w w' _ hrun ih =>
    obtain ⟨hc, h0, h1⟩ := ih
    obtain ⟨w'', more, hrun', hm, hev, hno⟩ := saves_events fmt w hc.shaped
    rw [hrun] at hrun'
    obtain rfl : w' = w'' := by simpa using hrun'
    have hiff : Event.callTheActualMath ∈ w'.events ↔ Event.callTheActualMath ∈ w.events := by
      rw [hev, List.mem_append]
      exact ⟨fun hh => hh.elim id fun hh => absurd hh hno, Or.inl⟩
    rw [hm, hiff]
    exact ⟨hc, h0, h1⟩
  | @filesChanged inputsTxt outputsTxt iw ow w _ ih => exact ih

/-! ## C14: what `Menu::saves` tests -/

/-- C14. In every session reachable from a freshly constructed model through
`takeInputs`, `loadFile`, `breakItDown` and `saves` (over the reals, with the
true pi), output 1 is 0.0 if and only if `theActualMath` has never run; so
`Menu::saves` returns, warns and leaves both files as they are exactly when
no outputs have been computed, and enters `saveFile` otherwise. -/
theorem saves_warns_iff_never_computed (fmt : ℝ → Str) (parse : Str → Option ℝ)
    (w : World ℝ) (h : Reach Real.pi fmt parse w) :
    (outputVal w.maths 1 = 0 ↔ Event.callTheActualMath ∉ w.events) ∧
    ∃ w' more, saves fmt w = some w' ∧ w'.events = w.events ++ Event.callSaves :: more ∧
      (Event.noValidData ∈ more ↔ Event.callTheActualMath ∉ w.events) ∧
      (Event.callSaveFile ∈ more ↔ Event.callTheActualMath ∈ w.events) ∧
      (Event.callTheActualMath ∉ w.events →
        w'.inputsTxt = w.inputsTxt ∧ w'.outputsTxt = w.outputsTxt) := by
  obtain ⟨hc, h0, h1⟩ := h.inv Real.pi_pos
  have hiff : outputVal w.maths 1 = 0 ↔ Event.callTheActualMath ∉ w.events :=
    ⟨fun hz hm => absurd hz (h1 hm).ne', h0⟩
  refine ⟨hiff, ?_⟩
  rw [saves_spec fmt w hc.shaped]
  by_cases hz : outputVal w.maths 1 = 0
  · have hno := hiff.mp hz
    rw [if_pos hz]
    exact ⟨_, [Event.noValidData], rfl, by simp, by simp [hno], by simp [hno],
      fun _ => ⟨rfl, rfl⟩⟩
  · have hyes : Event.callTheActualMath ∈ w.events := not_not.mp fun hn => hz (hiff.mpr hn)
    rw [if_neg hz,
      saveFile_spec fmt { w with events := w.events ++ [Event.callSaves] } hc.shaped]
    refine ⟨_, Event.callSaveFile ::
        ((if w.inputsWritable then [] else [Event.errorSavingInputs]) ++
          (if w.outputsWritable then [] else [Event.errorSavingOutputs])),
      rfl, by simp, ?_, by simp [hyes], fun hn => absurd hyes hn⟩
    cases w.inputsWritable <;> cases w.outputsWritable <;> simp [hyes]

/-- Witness of C14: at the start of the session nothing has been computed and
`saves` only warns. -/
theorem saves_warns_iff_never_computed_witness :
    Reach Real.pi (fun _ => []) parseDouble (World.start false none none true true : World ℝ) ∧
    outputVal (World.start false none none true true : World ℝ).maths 1 = 0 ∧
    Event.callTheActualMath ∉ (World.start false none none true true : World ℝ).events :=
  have hr : Reach Real.pi (fun _ => []) parseDouble
      (World.start false none none true true : World ℝ) := Reach.start _ _ _ _ _
  ⟨hr, (saves_warns_iff_never_computed _ _ _ hr).1.mpr (by simp [World.start]),
    (saves_warns_iff_never_computed _ _ _ hr).1.mp rfl⟩

/-! ## C17: only Travel Margin can be negative -/

/-- The loop of `visualMath` stops at the first index `k` of the block whose
output is negative: it prints the outputs up to `k` and reports the name of
output `k`. -/
theorem visualLoop_first (m : IntMap (Output K)) :
    ∀ (n fuel : Nat) (i k : Int) (flag : Bool) (ev : List (Event K)),
      n < fuel →
      (∀ j : Int, i ≤ j → j < i + n → (mapFind m j).isSome = true) →
      i ≤ k → k < i + n →
      ((mapFind m k).getD Output.dflt).output < 0 →
      (∀ j : Int, i ≤ j → j < k → 0 ≤ ((mapFind m j).getD Output.dflt).output) →
      ∃ printed, visualLoop m fuel i (flag, ev) =
          some (false, ev ++ printed ++
            [Event.invalidOutput ((mapFind m k).getD Output.dflt).outputName]) ∧
        printed.length = 2 * ((k - i).toNat + 1) ∧
        (∀ e ∈ printed, (∃ name, e = Event.computing name) ∨
          ∃ name value, e = Event.result name value) := by
  intro n
  induction n with
  | zero =>
    intro fuel i k flag ev _ _ h1 h2
    exact absurd h2 (by simpa using h1)
  | succ n ih =>
    intro fuel i k flag ev hf hfound h1 h2 hbad hgood
    obtain ⟨f, rfl⟩ : ∃ f, fuel = f + 1 := ⟨fuel - 1, by omega⟩
    have hi := hfound i le_rfl (by push_cast; omega)
    obtain ⟨v, hv⟩ := Option.isSome_iff_exists.mp hi
    rcases eq_or_lt_of_le h1 with rfl | hlt
    · rw [hv] at hbad ⊢
      simp only [Option.getD_some] at hbad ⊢
      refine ⟨[Event.computing v.outputName, Event.result v.outputName v.output],
        by simp [visualLoop, hv, hbad], by simp, ?_⟩
      intro e he
      simp only [List.mem_cons, List.mem_singleton, List.not_mem_nil, or_false] at he
      rcases he with rfl | rfl
      · exact Or.inl ⟨_, rfl⟩
      · exact Or.inr ⟨_, _, rfl⟩
    · have hpos := hgood i le_rfl hlt
      rw [hv] at hpos
      have hnb : ¬ v.output < 0 := not_lt.mpr hpos
      obtain ⟨printed, hrun, hlen, hpr⟩ :=
        ih f (i + 1) k true
          (ev ++ [Event.computing v.outputName, Event.result v.outputName v.output])
          (by omega)
          (fun j h1 h2 => hfound j (by omega) (by push_cast; omega))
          (by omega) (by push_cast at h2; omega) hbad
          (fun j h1 h2 => hgood j (by omega) h2)
      refine ⟨[Event.computing v.outputName, Event.result v.outputName v.output] ++ printed,
        by simp [visualLoop, hv, hnb, hrun], ?_, ?_⟩
      · rw [List.length_append, hlen]
        simp only [List.length_cons, List.length_nil]
        omega
      · intro e he
        simp only [List.mem_append, List.mem_cons, List.mem_singleton, List.not_mem_nil,
          or_false] at he
        rcases he with (rfl | rfl) | he
        · exact Or.inl ⟨_, rfl⟩
        · exact Or.inr ⟨_, _, rfl⟩
        · exact hpr e he

/-- For positive inputs and a positive pi every output of the formulas other
than Travel Margin is positive. -/
theorem theActualMath_pos {M_PI : K} (hpi : 0 < M_PI) {s : Maths K} (h : Shaped s)
    (hpos : ∀ i : Int, 1 ≤ i → i ≤ 7 → 0 < inputVal s i)
    (i : Int) (h1 : 1 ≤ i) (h9 : i ≤ 9) (h8 : i ≠ 8) :
    0 < outputVal (theActualMath M_PI s) i := by
  obtain ⟨a1, a2, a3, a4, a5, a6, a7, b1, b2, b3, b4, b5, b6, b7, b8, b9, flag, rfl⟩ :=
    h.entries
  have hD : 0 < a1.input := hpos 1 (by decide) (by decide)
  have hS : 0 < a2.input := hpos 2 (by decide) (by decide)
  have hB : 0 < a3.input := hpos 3 (by decide) (by decide)
  have hL : 0 < a4.input := hpos 4 (by decide) (by decide)
  have hA : 0 < a5.input := hpos 5 (by decide) (by decide)
  have hW : 0 < a7.input := hpos 7 (by decide) (by decide)
  rw [theActualMath_entries]
  interval_cases i
  · show 0 < (a1.input * M_PI * 336 * 60) / 12
    positivity
  · show 0 < (336 * 2 * a2.input) / 12
    positivity
  · show 0 < M_PI * (a3.input / 2) ^ 2
    positivity
  · show 0 < ((336 * 2 * a2.input) / 12 * (M_PI * (a3.input / 2) ^ 2)) / 144
    positivity
  · show 0 < ((336 * 2 * a2.input) / 12 * (M_PI * (a3.input / 2) ^ 2)) / 144 / 7874
    positivity
  · show 0 < (((336 * 2 * a2.input) / 12 * (M_PI * (a3.input / 2) ^ 2)) / 144 / 7874 * 12) /
      a7.input
    positivity
  · show 0 < a5.input + a4.input +
      (((336 * 2 * a2.input) / 12 * (M_PI * (a3.input / 2) ^ 2)) / 144 / 7874 * 12) / a7.input
    positivity
  · exact absurd rfl h8
  · show 0 < (a2.input * (a5.input + a4.input +
      (((336 * 2 * a2.input) / 12 * (M_PI * (a3.input / 2) ^ 2)) / 144 / 7874 * 12) /
        a7.input)) / (2 * ((a5.input + a4.input) / 2))
    positivity

/-- The formulas keep the name of every output. -/
theorem outputName_theActualMath (M_PI : K) {s : Maths K} (h : Shaped s) (i : Int)
    (h1 : 1 ≤ i) (h9 : i ≤ 9) :
    ((mapFind (theActualMath M_PI s).mathOutput i).getD Output.dflt).outputName =
      ((mapFind s.mathOutput i).getD Output.dflt).outputName := by
  obtain ⟨a1, a2, a3, a4, a5, a6, a7, b1, b2, b3, b4, b5, b6, b7, b8, b9, flag, rfl⟩ :=
    h.entries
  rw [theActualMath_entries]
  interval_cases i <;> rfl

/-- C17. For every all-positive input set, over the reals with the true pi,
the eight outputs WS, FPM, BA, VPM, PA, PH, HT and CLL of `theActualMath` are
strictly positive; so `breakItDown` ends with `wasSuccessful = false` if and
only if Valve Travel < Lap + Lead, and then the loop of the sanity check stops
at index 8: it prints the outputs 1..8 and reports Travel Margin. -/
theorem sanity_fails_iff_margin (fmt : ℝ → Str) (input : Int) (w : World ℝ)
    (h : Shaped w.maths) (hpos : ∀ i : Int, 1 ≤ i → i ≤ 7 → 0 < inputVal w.maths i) :
    (∀ i : Int, 1 ≤ i → i ≤ 9 → i ≠ 8 → 0 < outputVal (theActualMath Real.pi w.maths) i) ∧
    (∃ w', breakItDown Real.pi fmt input w = some w' ∧
      (w'.maths.wasSuccessful = false ↔
        inputVal w.maths 6 < inputVal w.maths 5 + inputVal w.maths 4)) ∧
    ∃ w1, visualMath { w with maths := theActualMath Real.pi w.maths } = some w1 ∧
      (w1.maths.wasSuccessful = false ↔
        inputVal w.maths 6 < inputVal w.maths 5 + inputVal w.maths 4) ∧
      (inputVal w.maths 6 < inputVal w.maths 5 + inputVal w.maths 4 →
        ∃ printed, w1.events = w.events ++ Event.callVisualMath :: printed ++
            [Event.invalidOutput ((mapFind w.maths.mathOutput 8).getD Output.dflt).outputName] ∧
          printed.length = 16 ∧
          (∀ e ∈ printed, (∃ name, e = Event.computing name) ∨
            ∃ name value, e = Event.result name value)) := by
  have hp := theActualMath_pos Real.pi_pos h hpos
  have hTM := theActualMath_TM Real.pi h
  have hs1 := shaped_theActualMath Real.pi h
  have hiff : (∃ i : Int, 1 ≤ i ∧ i ≤ 9 ∧ outputVal (theActualMath Real.pi w.maths) i < 0) ↔
      inputVal w.maths 6 < inputVal w.maths 5 + inputVal w.maths 4 := by
    constructor
    · rintro ⟨i, h1, h9, hneg⟩
      by_cases h8 : i = 8
      · subst h8
        rw [hTM] at hneg
        exact sub_neg.mp hneg
      · exact absurd (hp i h1 h9 h8) (not_lt.mpr hneg.le)
    · intro hT
      exact ⟨8, by decide, by decide, by rw [hTM]; exact sub_neg.mpr hT⟩
  refine ⟨hp, ?_, ?_⟩
  · obtain ⟨w', new, hrun, -, hcase⟩ := breakItDown_cases Real.pi fmt input w h
    rcases hcase with ⟨hnot, -⟩ | ⟨-, -, -, -, hflag⟩
    · exact absurd hpos hnot
    · exact ⟨w', hrun, hflag.trans hiff⟩
  · obtain ⟨flag', more, hvis, hflag, -⟩ :=
      visualMath_spec { w with maths := theActualMath Real.pi w.maths } hs1
    refine ⟨_, hvis, hflag.trans hiff, ?_⟩
    intro hT
    obtain ⟨hlen, hfound, -⟩ := hs1.outputs_dense
    obtain ⟨printed, hrun, hplen, hpr⟩ :=
      visualLoop_first (theActualMath Real.pi w.maths).mathOutput 9
        ((theActualMath Real.pi w.maths).mathOutput.length + 1) 1 8
        (theActualMath Real.pi w.maths).wasSuccessful (w.events ++ [Event.callVisualMath])
        (by omega) hfound (by decide) (by decide)
        (by
          have := sub_neg.mpr hT
          rw [← hTM] at this
          exact this)
        (fun j h1 hj => (hp j h1 (by omega) (by omega)).le)
    have hvis2 : visualMath { w with maths := theActualMath Real.pi w.maths } =
        some { w with
          maths := { theActualMath Real.pi w.maths with wasSuccessful := false }
          events := w.events ++ [Event.callVisualMath] ++ printed ++
            [Event.invalidOutput
              ((mapFind (theActualMath Real.pi w.maths).mathOutput 8).getD
                Output.dflt).outputName] } := by
      simp only [visualMath, World.log, hrun, Option.map_some']
    rw [hvis] at hvis2
    have hev := congrArg World.events (Option.some.inj hvis2)
    simp only at hev
    refine ⟨printed, ?_, by rw [hplen]; rfl, hpr⟩
    show w.events ++ Event.callVisualMath :: more = _
    rw [hev, outputName_theActualMath Real.pi h 8 (by decide) (by decide)]
    simp

/-- Witness of C17: with T = 2, A = 3.39 and L = 0.858 the check fails. -/
theorem sanity_fails_iff_margin_witness :
    Shaped (World.entered false 66 26 20.5 0.858 3.39 2 18 : World ℝ).maths ∧
    ∃ w', breakItDown Real.pi (fun _ => []) 1
        (World.entered false 66 26 20.5 0.858 3.39 2 18 : World ℝ) = some w' ∧
      w'.maths.wasSuccessful = false := by
  obtain ⟨w', hrun, hflag⟩ :=
    (sanity_fails_iff_margin (fun _ => []) 1
      (World.entered false 66 26 20.5 0.858 3.39 2 18 : World ℝ)
      (shaped_entered _ _ _ _ _ _ _ _)
      (allPositive_entered false (by norm_num) (by norm_num) (by norm_num) (by norm_num)
        (by norm_num) (by norm_num) (by norm_num))).2.1
  refine ⟨shaped_entered _ _ _ _ _ _ _ _, w', hrun, hflag.mpr ?_⟩
  show (2 : ℝ) < 3.39 + 0.858
  norm_num

/-! ## C11: saving and loading again -/

/-- A canonical model, entry by entry, with the names of the constructor. -/
theorem Canonical.names {s : Maths K} (h : Canonical s) :
    ∃ a1 a2 a3 a4 a5 a6 a7 b1 b2 b3 b4 b5 b6 b7 b8 b9 flag,
      s = entries a1 a2 a3 a4 a5 a6 a7 b1 b2 b3 b4 b5 b6 b7 b8 b9 flag ∧
      a1.inputName = "Drive Wheel Diameter".toList ∧
      a2.inputName = "Piston Stroke".toList ∧
      a3.inputName = "Bore".toList ∧
      a4.inputName = "Lead".toList ∧
      a5.inputName = "Lap".toList ∧
      a6.inputName = "Valve Travel".toList ∧
      a7.inputName = "Port Width".toList ∧
      b8.outputName = "Travel Margin".toList := by
  obtain ⟨a1, a2, a3, a4, a5, a6, a7, b1, b2, b3, b4, b5, b6, b7, b8, b9, flag, rfl⟩ :=
    h.shaped.entries
  obtain ⟨hi, ho⟩ := h
  simp only [inputShape, entries, Maths.new, List.map_cons, List.map_nil, List.cons.injEq,
    Prod.mk.injEq] at hi
  simp only [outputShape, entries, Maths.new, List.map_cons, List.map_nil, List.cons.injEq,
    Prod.mk.injEq] at ho
  exact ⟨a1, a2, a3, a4, a5, a6, a7, b1, b2, b3, b4, b5, b6, b7, b8, b9, flag, rfl,
    hi.1.2.2.1, hi.2.1.2.2.1, hi.2.2.1.2.2.1, hi.2.2.2.1.2.2.1, hi.2.2.2.2.1.2.2.1,
    hi.2.2.2.2.2.1.2.2.1, hi.2.2.2.2.2.2.1.2.2.1, ho.2.2.2.2.2.2.2.1.2.2⟩

omit [LinearOrderedField K] in
/-- A label that differs from a text within their first `n` characters does
not start a line that begins with that text. -/
theorem not_prefix_append {lbl l t : Str} (n : Nat) (hl : n ≤ l.length)
    (hlbl : n ≤ lbl.length) (hne : lbl.take n ≠ l.take n) : ¬ lbl <+: l ++ t := by
  intro hp
  apply hne
  have h1 : lbl = (l ++ t).take lbl.length := List.prefix_iff_eq_take.mp hp
  have h2 : lbl.take n = (l ++ t).take n := by
    conv_lhs => rw [h1]
    rw [List.take_take, min_eq_left hlbl]
  rw [h2, List.take_append_of_le_length hl]

/-- The first line that starts with the label sets the value to the parse of
the text of the spec. -/
theorem scanLines_match (parse : Str → Option K)
    (hskip : ∀ s : Str, parse (s.dropWhile fun c => c == ' ' || c == '\t') = parse s)
    (lbl : Str) (r : Input K) (pre post : List Str) (line : Str)
    (hcolon : ':' ∈ lbl) (hmatch : lbl <+: line) (hfirst : ∀ l ∈ pre, ¬ lbl <+: l) :
    scanLines parse lbl r (pre ++ line :: post) =
      { r with input := (parse (specNumberText line)).getD 0 } := by
  rw [scanLines_first parse lbl r line post hmatch pre hfirst]
  rcases strFindChar_colon line with ⟨-, hno⟩ | ⟨c, hc, -⟩
  · exact absurd (hmatch.subset hcolon) hno
  · simp only [hc, parse_numberStrOf parse hskip line c hc]

/-- The record of an input after `loadFile`, whether the file opens or not. -/
theorem mapFind_loadFile_match (parse : Str → Option K) (w : World K) (i : Int) :
    mapFind (loadFile parse w).maths.mathInput i =
      match w.inputsTxt with
      | none => mapFind w.maths.mathInput i
      | some lines => (mapFind w.maths.mathInput i).map fun r =>
          scanLines parse (r.inputName ++ ":".toList) r lines := by
  cases hf : w.inputsTxt with
  | none => simp only [loadFile, hf, World.log]
  | some lines => exact mapFind_loadFile parse w lines hf i

omit [LinearOrderedField K] in
/-- The text of the spec for a line `saveFile` wrote: the written value,
without leading blanks, when the name holds no colon. -/
theorem specNumberText_append (name t : Str) (h : ':' ∉ name) :
    specNumberText (name ++ ": ".toList ++ t) = t.dropWhile fun c => c == ' ' || c == '\t' := by
  have hdrop : (name ++ ": ".toList ++ t).dropWhile (fun c => c != ':') = ':' :: ' ' :: t := by
    induction name with
    | nil => rfl
    | cons x xs ih =>
      have hx : x ≠ ':' := fun hx => h (by simp [hx])
      have hb : (x != ':') = true := by simpa using hx
      simp only [List.cons_append, List.dropWhile_cons, hb, if_true]
      exact ih fun hm => h (List.mem_cons_of_mem _ hm)
  simp only [specNumberText, hdrop]
  rfl

/-- Reading back the line `saveFile` wrote for a record, when no earlier line
starts with its key: the value becomes the parse of the written text. -/
theorem scanLines_own_line (parse : Str → Option K)
    (hskip : ∀ s : Str, parse (s.dropWhile fun c => c == ' ' || c == '\t') = parse s)
    (fmt : K → Str) (r : Input K) (h : ':' ∉ r.inputName) (pre post : List Str)
    (hfirst : ∀ l ∈ pre, ¬ (r.inputName ++ ":".toList) <+: l) :
    scanLines parse (r.inputName ++ ":".toList) r (pre ++ inputLine fmt r :: post) =
      { r with input := (parse (fmt r.input)).getD 0 } := by
  have hmatch : (r.inputName ++ ":".toList) <+: inputLine fmt r :=
    ⟨" ".toList ++ fmt r.input, by simp [inputLine]⟩
  rw [scanLines_match parse hskip _ r pre post _ (by simp) hmatch hfirst, inputLine,
    specNumberText_append _ _ h, hskip]

/-- C11. For every canonical model whose inputs file opens, `saveFile` writes
the seven lines `"<name_i>: <text of value_i>"` in index order; the key
`"<name_i>:"` starts line `j` of them exactly when `i = j`; so `loadFile` on
those lines sets every input to the numeric parse of the text written for it
(0.0 when the parse fails), and reproduces it exactly whenever that text
parses back to the original value. The extraction `parse` is any one that
skips leading blanks itself. -/
theorem save_load_round_trip (fmt : K → Str) (parse : Str → Option K)
    (hskip : ∀ s : Str, parse (s.dropWhile fun c => c == ' ' || c == '\t') = parse s)
    (w : World K) (hc : Canonical w.maths) (hw : w.inputsWritable = true) :
    ∃ w', saveFile fmt w = some w' ∧
      w'.inputsTxt = some (([1, 2, 3, 4, 5, 6, 7] : List Int).map fun j =>
        inputLine fmt ((mapFind w.maths.mathInput j).getD Input.dflt)) ∧
      (∀ i j : Int, 1 ≤ i → i ≤ 7 → 1 ≤ j → j ≤ 7 →
        ((((mapFind w.maths.mathInput i).getD Input.dflt).inputName ++ ":".toList) <+:
            inputLine fmt ((mapFind w.maths.mathInput j).getD Input.dflt) ↔ i = j)) ∧
      (∀ i : Int, 1 ≤ i → i ≤ 7 →
        inputVal (loadFile parse w').maths i = (parse (fmt (inputVal w.maths i))).getD 0 ∧
        (parse (fmt (inputVal w.maths i)) = some (inputVal w.maths i) →
          inputVal (loadFile parse w').maths i = inputVal w.maths i)) := by
  obtain ⟨maths, phs, itxt, otxt, iw, ow, ev⟩ := w
  obtain ⟨a1, a2, a3, a4, a5, a6, a7, b1, b2, b3, b4, b5, b6, b7, b8, b9, flag, rfl,
    n1, n2, n3, n4, n5, n6, n7, -⟩ := hc.names
  obtain rfl : iw = true := hw
  obtain ⟨l1, nm1, d1, e1, v1⟩ := a1
  obtain ⟨l2, nm2, d2, e2, v2⟩ := a2
  obtain ⟨l3, nm3, d3, e3, v3⟩ := a3
  obtain ⟨l4, nm4, d4, e4, v4⟩ := a4
  obtain ⟨l5, nm5, d5, e5, v5⟩ := a5
  obtain ⟨l6, nm6, d6, e6, v6⟩ := a6
  obtain ⟨l7, nm7, d7, e7, v7⟩ := a7
  obtain rfl : nm1 = "Drive Wheel Diameter".toList := n1
  obtain rfl : nm2 = "Piston Stroke".toList := n2
  obtain rfl : nm3 = "Bore".toList := n3
  obtain rfl : nm4 = "Lead".toList := n4
  obtain rfl : nm5 = "Lap".toList := n5
  obtain rfl : nm6 = "Valve Travel".toList := n6
  obtain rfl : nm7 = "Port Width".toList := n7
  have hsh : Shaped (entries (⟨l1, "Drive Wheel Diameter".toList, d1, e1, v1⟩ : Input K) (⟨l2, "Piston Stroke".toList, d2, e2, v2⟩ : Input K) (⟨l3, "Bore".toList, d3, e3, v3⟩ : Input K) (⟨l4, "Lead".toList, d4, e4, v4⟩ : Input K) (⟨l5, "Lap".toList, d5, e5, v5⟩ : Input K) (⟨l6, "Valve Travel".toList, d6, e6, v6⟩ : Input K) (⟨l7, "Port Width".toList, d7, e7, v7⟩ : Input K)
      b1 b2 b3 b4 b5 b6 b7 b8 b9 flag) :=
    shaped_entries _ _ _ _ _ _ _ _ _ _ _ _ _ _ _ _ _
  have hsave := saveFile_spec fmt
    (⟨(entries (⟨l1, "Drive Wheel Diameter".toList, d1, e1, v1⟩ : Input K) (⟨l2, "Piston Stroke".toList, d2, e2, v2⟩ : Input K) (⟨l3, "Bore".toList, d3, e3, v3⟩ : Input K) (⟨l4, "Lead".toList, d4, e4, v4⟩ : Input K) (⟨l5, "Lap".toList, d5, e5, v5⟩ : Input K) (⟨l6, "Valve Travel".toList, d6, e6, v6⟩ : Input K) (⟨l7, "Port Width".toList, d7, e7, v7⟩ : Input K)
      b1 b2 b3 b4 b5 b6 b7 b8 b9 flag), phs, itxt, otxt, true, ow, ev⟩ : World K) hsh
  refine ⟨_, hsave, rfl, ?_, ?_⟩
  · intro i j hi1 hi7 hj1 hj7
    interval_cases i <;> interval_cases j <;>
      first
        | exact ⟨fun _ => rfl, fun _ => ⟨" ".toList ++ fmt _, rfl⟩⟩
        | exact ⟨fun hp => absurd hp (not_prefix_append 2 (of_decide_eq_true rfl)
            (of_decide_eq_true rfl) (of_decide_eq_true rfl)),
            fun hij => absurd hij (by decide)⟩
  · intro i hi1 hi7
    simp only [inputVal, mapFind_loadFile_match]
    have key : ∀ (r : Input K) (pre post : List Str), ':' ∉ r.inputName →
        (∀ l ∈ pre, ¬ (r.inputName ++ ":".toList) <+: l) →
        (scanLines parse (r.inputName ++ ":".toList) r (pre ++ inputLine fmt r :: post)).input =
          (parse (fmt r.input)).getD 0 := by
      intro r pre post hno hfirst
      rw [scanLines_own_line parse hskip fmt r hno pre post hfirst]
    have hnp : ∀ {lbl l t : Str}, 2 ≤ l.length → 2 ≤ lbl.length → lbl.take 2 ≠ l.take 2 →
        ¬ lbl <+: l ++ t := fun h1 h2 h3 => not_prefix_append 2 h1 h2 h3
    interval_cases i
    · have h := key (⟨l1, "Drive Wheel Diameter".toList, d1, e1, v1⟩ : Input K)
        []
        [inputLine fmt (⟨l2, "Piston Stroke".toList, d2, e2, v2⟩ : Input K), inputLine fmt (⟨l3, "Bore".toList, d3, e3, v3⟩ : Input K), inputLine fmt (⟨l4, "Lead".toList, d4, e4, v4⟩ : Input K), inputLine fmt (⟨l5, "Lap".toList, d5, e5, v5⟩ : Input K), inputLine fmt (⟨l6, "Valve Travel".toList, d6, e6, v6⟩ : Input K), inputLine fmt (⟨l7, "Port Width".toList, d7, e7, v7⟩ : Input K)]
        (of_decide_eq_true rfl)
        (fun l hl => absurd hl (List.not_mem_nil l))
      exact ⟨h, fun hp => h.trans (by
        have hp' : parse (fmt v1) = some v1 := hp
        rw [hp']
        rfl)⟩
    · have h := key (⟨l2, "Piston Stroke".toList, d2, e2, v2⟩ : Input K)
        [inputLine fmt (⟨l1, "Drive Wheel Diameter".toList, d1, e1, v1⟩ : Input K)]
        [inputLine fmt (⟨l3, "Bore".toList, d3, e3, v3⟩ : Input K), inputLine fmt (⟨l4, "Lead".toList, d4, e4, v4⟩ : Input K), inputLine fmt (⟨l5, "Lap".toList, d5, e5, v5⟩ : Input K), inputLine fmt (⟨l6, "Valve Travel".toList, d6, e6, v6⟩ : Input K), inputLine fmt (⟨l7, "Port Width".toList, d7, e7, v7⟩ : Input K)]
        (of_decide_eq_true rfl)
        (by
          intro l hl
          simp only [List.mem_cons, List.mem_singleton, List.not_mem_nil, or_false] at hl
          subst hl
          exact hnp (of_decide_eq_true rfl) (of_decide_eq_true rfl) (of_decide_eq_true rfl))
      exact ⟨h, fun hp => h.trans (by
        have hp' : parse (fmt v2) = some v2 := hp
        rw [hp']
        rfl)⟩
    · have h := key (⟨l3, "Bore".toList, d3, e3, v3⟩ : Input K)
        [inputLine fmt (⟨l1, "Drive Wheel Diameter".toList, d1, e1, v1⟩ : Input K), inputLine fmt (⟨l2, "Piston Stroke".toList, d2, e2, v2⟩ : Input K)]
        [inputLine fmt (⟨l4, "Lead".toList, d4, e4, v4⟩ : Input K), inputLine fmt (⟨l5, "Lap".toList, d5, e5, v5⟩ : Input K), inputLine fmt (⟨l6, "Valve Travel".toList, d6, e6, v6⟩ : Input K), inputLine fmt (⟨l7, "Port Width".toList, d7, e7, v7⟩ : Input K)]
        (of_decide_eq_true rfl)
        (by
          intro l hl
          simp only [List.mem_cons, List.mem_singleton, List.not_mem_nil, or_false] at hl
          rcases hl with rfl | rfl <;>
            exact hnp (of_decide_eq_true rfl) (of_decide_eq_true rfl) (of_decide_eq_true rfl))
      exact ⟨h, fun hp => h.trans (by
        have hp' : parse (fmt v3) = some v3 := hp
        rw [hp']
        rfl)⟩
    · have h := key (⟨l4, "Lead".toList, d4, e4, v4⟩ : Input K)
        [inputLine fmt (⟨l1, "Drive Wheel Diameter".toList, d1, e1, v1⟩ : Input K), inputLine fmt (⟨l2, "Piston Stroke".toList, d2, e2, v2⟩ : Input K), inputLine fmt (⟨l3, "Bore".toList, d3, e3, v3⟩ : Input K)]
        [inputLine fmt (⟨l5, "Lap".toList, d5, e5, v5⟩ : Input K), inputLine fmt (⟨l6, "Valve Travel".toList, d6, e6, v6⟩ : Input K), inputLine fmt (⟨l7, "Port Width".toList, d7, e7, v7⟩ : Input K)]
        (of_decide_eq_true rfl)
        (by
          intro l hl
          simp only [List.mem_cons, List.mem_singleton, List.not_mem_nil, or_false] at hl
          rcases hl with rfl | rfl | rfl <;>
            exact hnp (of_decide_eq_true rfl) (of_decide_eq_true rfl) (of_decide_eq_true rfl))
      exact ⟨h, fun hp => h.trans (by
        have hp' : parse (fmt v4) = some v4 := hp
        rw [hp']
        rfl)⟩
    · have h := key (⟨l5, "Lap".toList, d5, e5, v5⟩ : Input K)
        [inputLine fmt (⟨l1, "Drive Wheel Diameter".toList, d1, e1, v1⟩ : Input K), inputLine fmt (⟨l2, "Piston Stroke".toList, d2, e2, v2⟩ : Input K), inputLine fmt (⟨l3, "Bore".toList, d3, e3, v3⟩ : Input K), inputLine fmt (⟨l4, "Lead".toList, d4, e4, v4⟩ : Input K)]
        [inputLine fmt (⟨l6, "Valve Travel".toList, d6, e6, v6⟩ : Input K), inputLine fmt (⟨l7, "Port Width".toList, d7, e7, v7⟩ : Input K)]
        (of_decide_eq_true rfl)
        (by
          intro l hl
          simp only [List.mem_cons, List.mem_singleton, List.not_mem_nil, or_false] at hl
          rcases hl with rfl | rfl | rfl | rfl <;>
            exact hnp (of_decide_eq_true rfl) (of_decide_eq_true rfl) (of_decide_eq_true rfl))
      exact ⟨h, fun hp => h.trans (by
        have hp' : parse (fmt v5) = some v5 := hp
        rw [hp']
        rfl)⟩
    · have h := key (⟨l6, "Valve Travel".toList, d6, e6, v6⟩ : Input K)
        [inputLine fmt (⟨l1, "Drive Wheel Diameter".toList, d1, e1, v1⟩ : Input K), inputLine fmt (⟨l2, "Piston Stroke".toList, d2, e2, v2⟩ : Input K), inputLine fmt (⟨l3, "Bore".toList, d3, e3, v3⟩ : Input K), inputLine fmt (⟨l4, "Lead".toList, d4, e4, v4⟩ : Input K), inputLine fmt (⟨l5, "Lap".toList, d5, e5, v5⟩ : Input K)]
        [inputLine fmt (⟨l7, "Port Width".toList, d7, e7, v7⟩ : Input K)]
        (of_decide_eq_true rfl)
        (by
          intro l hl
          simp only [List.mem_cons, List.mem_singleton, List.not_mem_nil, or_false] at hl
          rcases hl with rfl | rfl | rfl | rfl | rfl <;>
            exact hnp (of_decide_eq_true rfl) (of_decide_eq_true rfl) (of_decide_eq_true rfl))
      exact ⟨h, fun hp => h.trans (by
        have hp' : parse (fmt v6) = some v6 := hp
        rw [hp']
        rfl)⟩
    · have h := key (⟨l7, "Port Width".toList, d7, e7, v7⟩ : Input K)
        [inputLine fmt (⟨l1, "Drive Wheel Diameter".toList, d1, e1, v1⟩ : Input K), inputLine fmt (⟨l2, "Piston Stroke".toList, d2, e2, v2⟩ : Input K), inputLine fmt (⟨l3, "Bore".toList, d3, e3, v3⟩ : Input K), inputLine fmt (⟨l4, "Lead".toList, d4, e4, v4⟩ : Input K), inputLine fmt (⟨l5, "Lap".toList, d5, e5, v5⟩ : Input K), inputLine fmt (⟨l6, "Valve Travel".toList, d6, e6, v6⟩ : Input K)]
        []
        (of_decide_eq_true rfl)
        (by
          intro l hl
          simp only [List.mem_cons, List.mem_singleton, List.not_mem_nil, or_false] at hl
          rcases hl with rfl | rfl | rfl | rfl | rfl | rfl <;>
            exact hnp (of_decide_eq_true rfl) (of_decide_eq_true rfl) (of_decide_eq_true rfl))
      exact ⟨h, fun hp => h.trans (by
        have hp' : parse (fmt v7) = some v7 := hp
        rw [hp']
        rfl)⟩

theorem canonical_entered (flag : Bool) (D S B L A T W : K) :
    Canonical (World.entered flag D S B L A T W).maths :=
  ⟨rfl, rfl⟩

/-- Witness of C11: the example values saved and loaded again, with a writer
that prints "20.5" for Bore: Bore is read back as 20.5. -/
theorem save_load_round_trip_witness :
    Canonical (World.entered false 66 26 20.5 0.858 3.39 5.5 18 : World ℚ).maths ∧
    ∃ w', saveFile (fun _ => "20.5".toList)
        (World.entered false 66 26 20.5 0.858 3.39 5.5 18 : World ℚ) = some w' ∧
      inputVal (loadFile parseDouble w').maths 3 = 20.5 := by
  obtain ⟨w', hsave, -, -, hload⟩ :=
    save_load_round_trip (fun _ => "20.5".toList) (parseDouble : Str → Option ℚ)
      parseDouble_skip (World.entered false 66 26 20.5 0.858 3.39 5.5 18)
      (canonical_entered _ _ _ _ _ _ _ _) rfl
  refine ⟨canonical_entered _ _ _ _ _ _ _ _, w', hsave, ?_⟩
  have hp : (parseDouble "20.5".toList : Option ℚ) =
      some (((205 : ℕ) : ℚ) / (10 : ℚ) ^ (1 : ℕ)) := rfl
  rw [(hload 3 (by decide) (by decide)).1, hp]
  norm_num

/-! ## C12: the file format of the help screen -/

/-- Stopped by the gate at the first index `k` whose input is not positive,
`breakItDown` echoes the inputs before `k`, reports input `k`, and returns
with the model as it was. -/
theorem breakItDown_stops (M_PI : K) (fmt : K → Str) (input : Int) (w : World K)
    (h : Shaped w.maths) (k : Int) (h1 : 1 ≤ k) (h7 : k ≤ 7)
    (hbad : inputVal w.maths k ≤ 0)
    (hgood : ∀ j : Int, 1 ≤ j → j < k → 0 < inputVal w.maths j) :
    ∃ echoes,
      breakItDown M_PI fmt input w =
        some { w with events := w.events ++ echoes ++
          [Event.invalidInput ((mapFind w.maths.mathInput k).getD Input.dflt).inputName] } ∧
      Event.callTheActualMath ∉ echoes := by
  obtain ⟨hlen, hfound, -⟩ := h.inputs_dense
  obtain ⟨echoes, hrun, -, hech⟩ :=
    validateLoop_first w.maths.mathInput 7 (w.maths.mathInput.length + 1) 1 k w.events
      (by omega) hfound h1 (by push_cast; omega) hbad hgood
  refine ⟨echoes, by simp [breakItDown, hrun], ?_⟩
  intro hm
  obtain ⟨_, _, _, he⟩ := hech _ hm
  exact absurd he (by simp)

/-- C12 (the code at the failing input). With the seven lines of the help
screen as the inputs file, `loadFile` on a fresh model sets only Drive Wheel
Diameter, from the text "66"; the six inputs whose label is followed by a
space before the colon stay 0, so `breakItDown` is stopped by the gate and
the formulas do not run. -/
theorem filesExample_sets_only_first (M_PI : K) (fmt : K → Str) (parse : Str → Option K)
    (input : Int) (flag : Bool) :
    inputVal (loadFile parse (World.start flag (some filesExample) none true true)).maths 1 =
      (parse "66".toList).getD 0 ∧
    (∀ i : Int, 2 ≤ i → i ≤ 7 →
      inputVal (loadFile parse (World.start flag (some filesExample) none true true)).maths i =
        0) ∧
    ∃ w', breakItDown M_PI fmt input
        (loadFile parse (World.start flag (some filesExample) none true true)) = some w' ∧
      w'.maths = (loadFile parse (World.start flag (some filesExample) none true true)).maths ∧
      Event.callTheActualMath ∉ w'.events ∧
      (Event.invalidInput "Drive Wheel Diameter".toList ∈ w'.events ∨
        Event.invalidInput "Piston Stroke".toList ∈ w'.events) := by
  have h2 : ∀ i : Int, 2 ≤ i → i ≤ 7 →
      inputVal (loadFile parse (World.start flag (some filesExample) none true true)).maths i =
        0 := by
    intro i h2 h7
    interval_cases i <;> rfl
  refine ⟨rfl, h2, ?_⟩
  have hsh : Shaped (loadFile parse
      (World.start flag (some filesExample) none true true : World K)).maths := ⟨rfl, rfl⟩
  by_cases h1 : inputVal (loadFile parse
      (World.start flag (some filesExample) none true true)).maths 1 ≤ 0
  · obtain ⟨echoes, hrun, hno⟩ :=
      breakItDown_stops M_PI fmt input _ hsh 1 (by decide) (by decide) h1
        (fun j hj1 hj => absurd hj (not_lt.mpr hj1))
    refine ⟨_, hrun, rfl, ?_, Or.inl ?_⟩
    · intro hm
      simp only [List.mem_append, List.mem_singleton] at hm
      rcases hm with (hm | hm) | hm
      · exact absurd hm (List.not_mem_nil _)
      · exact hno hm
      · exact absurd hm (by simp)
    · exact List.mem_append_right _ (List.mem_singleton.mpr rfl)
  · obtain ⟨echoes, hrun, hno⟩ :=
      breakItDown_stops M_PI fmt input _ hsh 2 (by decide) (by decide)
        (le_of_eq (h2 2 (by decide) (by decide)))
        (fun j hj1 hj => by
          have hj' : j = 1 := by omega
          subst hj'
          exact not_le.mp h1)
    refine ⟨_, hrun, rfl, ?_, Or.inr ?_⟩
    · intro hm
      simp only [List.mem_append, List.mem_singleton] at hm
      rcases hm with (hm | hm) | hm
      · exact absurd hm (List.not_mem_nil _)
      · exact hno hm
      · exact absurd hm (by simp)
    · exact List.mem_append_right _ (List.mem_singleton.mpr rfl)

/-! ## C13: exact label matching -/

/-- C13. In `loadFile` a line is used for a label if and only if the
characters of the line from column 0 are exactly the label, `"<name>:"`,
character for character: otherwise the search goes on with the next line. In
particular the lines "bore: 20.5", "Bore : 20.5" and " Bore: 20.5" match no
input of a canonical model, which `loadFile` leaves as it was. -/
theorem loadFile_exact_label (parse : Str → Option K) :
    (∀ (lbl : Str) (r : Input K) (line : Str) (rest : List Str),
      scanLines parse lbl r (line :: rest) =
        if line.take lbl.length = lbl then
          match strFindChar ':' line with
          | some colonPos => { r with input := (parse (numberStrOf line colonPos)).getD 0 }
          | none => r
        else scanLines parse lbl r rest) ∧
    (∀ w : World K, Canonical w.maths →
      w.inputsTxt = some ["bore: 20.5".toList, "Bore : 20.5".toList, " Bore: 20.5".toList] →
      (loadFile parse w).maths = w.maths) := by
  constructor
  · intro lbl r line rest
    have hiff : strFind line lbl = some 0 ↔ line.take lbl.length = lbl := by
      rw [strFind_eq_zero_iff, List.prefix_iff_eq_take]
      exact eq_comm
    by_cases h : strFind line lbl = some 0
    · rw [if_pos (hiff.mp h)]
      simp only [scanLines, if_pos h]
    · rw [if_neg fun h' => h (hiff.mpr h')]
      simp only [scanLines, if_neg h]
  · intro w hc hfile
    obtain ⟨maths, phs, itxt, otxt, iw, ow, ev⟩ := w
    obtain ⟨a1, a2, a3, a4, a5, a6, a7, b1, b2, b3, b4, b5, b6, b7, b8, b9, flag, rfl,
      n1, n2, n3, n4, n5, n6, n7, -⟩ := hc.names
    obtain rfl : itxt = some ["bore: 20.5".toList, "Bore : 20.5".toList,
      " Bore: 20.5".toList] := hfile
    obtain ⟨l1, nm1, d1, e1, v1⟩ := a1
    obtain ⟨l2, nm2, d2, e2, v2⟩ := a2
    obtain ⟨l3, nm3, d3, e3, v3⟩ := a3
    obtain ⟨l4, nm4, d4, e4, v4⟩ := a4
    obtain ⟨l5, nm5, d5, e5, v5⟩ := a5
    obtain ⟨l6, nm6, d6, e6, v6⟩ := a6
    obtain ⟨l7, nm7, d7, e7, v7⟩ := a7
    obtain rfl : nm1 = "Drive Wheel Diameter".toList := n1
    obtain rfl : nm2 = "Piston Stroke".toList := n2
    obtain rfl : nm3 = "Bore".toList := n3
    obtain rfl : nm4 = "Lead".toList := n4
    obtain rfl : nm5 = "Lap".toList := n5
    obtain rfl : nm6 = "Valve Travel".toList := n6
    obtain rfl : nm7 = "Port Width".toList := n7
    rfl

/-- Witness of C13: with Bore 7 in the model, the three near-miss lines leave
Bore at 7. -/
theorem loadFile_exact_label_witness :
    Canonical (World.entered false 66 26 7 0.858 3.39 5.5 18 : World ℚ).maths ∧
    inputVal (loadFile parseDouble
      { (World.entered false 66 26 7 0.858 3.39 5.5 18 : World ℚ) with
        inputsTxt := some ["bore: 20.5".toList, "Bore : 20.5".toList,
          " Bore: 20.5".toList] }).maths 3 = 7 := by
  have h := (loadFile_exact_label (parseDouble : Str → Option ℚ)).2
    { (World.entered false 66 26 7 0.858 3.39 5.5 18 : World ℚ) with
      inputsTxt := some ["bore: 20.5".toList, "Bore : 20.5".toList, " Bore: 20.5".toList] }
    (canonical_entered _ _ _ _ _ _ _ _) rfl
  exact ⟨canonical_entered _ _ _ _ _ _ _ _, by rw [h]; rfl⟩

/-! ## C18: `Menu::saves` looks at output 1 only -/

/-- Past the gate, with a negative output, `breakItDown` returns with the
outputs of the formulas and the flag false, and does nothing else. -/
theorem breakItDown_failed (M_PI : K) (fmt : K → Str) (input : Int) (w : World K)
    (h : Shaped w.maths) (hpos : ∀ i : Int, 1 ≤ i → i ≤ 7 → 0 < inputVal w.maths i)
    (hneg : ∃ i : Int, 1 ≤ i ∧ i ≤ 9 ∧ outputVal (theActualMath M_PI w.maths) i < 0) :
    ∃ new,
      breakItDown M_PI fmt input w = some { w with
        maths := { theActualMath M_PI w.maths with wasSuccessful := false }
        events := w.events ++ new } ∧
      Event.callTheActualMath ∈ new := by
  obtain ⟨doThing, more, -, hdo, -, hrun⟩ := breakItDown_spec M_PI fmt input w h
  obtain rfl : doThing = true := hdo.mpr hpos
  obtain ⟨flag', more2, hvis, hflag, -⟩ :=
    visualMath_spec { w with
      maths := theActualMath M_PI w.maths
      events := w.events ++ more ++ [Event.callTheActualMath] }
      (shaped_theActualMath M_PI h)
  obtain rfl : flag' = false := hflag.mpr hneg
  rw [if_pos rfl, hvis, Option.some_bind] at hrun
  refine ⟨more ++ Event.callTheActualMath :: Event.callVisualMath :: more2, ?_, by simp⟩
  rw [hrun]
  simp

/-- On a shaped model whose output 1 is not zero and whose files open,
`saves` writes the seven input lines and the nine output lines of the model
as it is. -/
theorem saves_computed (fmt : K → Str) (w : World K) (h : Shaped w.maths)
    (hz : outputVal w.maths 1 ≠ 0) (hiw : w.inputsWritable = true)
    (how : w.outputsWritable = true) :
    saves fmt w = some { w with
      inputsTxt := some (([1, 2, 3, 4, 5, 6, 7] : List Int).map fun j =>
        inputLine fmt ((mapFind w.maths.mathInput j).getD Input.dflt))
      outputsTxt := some (([1, 2, 3, 4, 5, 6, 7, 8, 9] : List Int).map fun j =>
        outputLine fmt ((mapFind w.maths.mathOutput j).getD Output.dflt))
      events := w.events ++ [Event.callSaves, Event.callSaveFile] } := by
  rw [saves_spec fmt w h, if_neg hz,
    saveFile_spec fmt { w with events := w.events ++ [Event.callSaves] } h]
  simp only [hiw, how, if_true, List.append_nil, List.append_assoc, List.singleton_append]
  rfl

/-- The name of output 8 in a canonical model. -/
theorem Canonical.outputName8 {s : Maths K} (h : Canonical s) :
    ((mapFind s.mathOutput 8).getD Output.dflt).outputName = "Travel Margin".toList := by
  obtain ⟨a1, a2, a3, a4, a5, a6, a7, b1, b2, b3, b4, b5, b6, b7, b8, b9, flag, rfl,
    -, -, -, -, -, -, -, n8⟩ := h.names
  exact n8

/-- What `loadFile` leaves alone of the session. -/
theorem loadFile_files (parse : Str → Option K) (w : World K) :
    (loadFile parse w).inputsWritable = w.inputsWritable ∧
    (loadFile parse w).outputsWritable = w.outputsWritable ∧
    (loadFile parse w).inputsTxt = w.inputsTxt ∧
    (loadFile parse w).outputsTxt = w.outputsTxt := by
  cases hf : w.inputsTxt with
  | none => simp only [loadFile, hf, World.log, and_self]
  | some lines => simp only [loadFile, hf, and_self]

/-- C18. `Menu::saves` decides on output 1 alone. From every reachable session
with all inputs positive, Valve Travel < Lap + Lead and both files writable
(over the reals, with the true pi), `breakItDown` leads to a reachable
session in which `wasSuccessful` is false and Travel Margin is negative, and
there `saves` still enters `saveFile` and writes that negative value as the
eighth output line. Likewise, after `takeInputs` or `loadFile` has changed
the inputs, `saves` writes the inputs as they are now together with the
outputs computed from the old ones. -/
theorem saves_ignores_flag (fmt : ℝ → Str) (parse : Str → Option ℝ) (input : Int)
    (w : World ℝ) (hr : Reach Real.pi fmt parse w)
    (hpos : ∀ i : Int, 1 ≤ i → i ≤ 7 → 0 < inputVal w.maths i)
    (hT : inputVal w.maths 6 < inputVal w.maths 5 + inputVal w.maths 4)
    (hiw : w.inputsWritable = true) (how : w.outputsWritable = true) :
    ∃ w1 w2 lines, breakItDown Real.pi fmt input w = some w1 ∧
      Reach Real.pi fmt parse w1 ∧
      w1.maths.wasSuccessful = false ∧
      outputVal w1.maths 8 = inputVal w.maths 6 - (inputVal w.maths 5 + inputVal w.maths 4) ∧
      outputVal w1.maths 8 < 0 ∧
      saves fmt w1 = some w2 ∧
      w2.events = w1.events ++ [Event.callSaves, Event.callSaveFile] ∧
      w2.maths.wasSuccessful = false ∧
      w2.outputsTxt = some lines ∧
      lines[7]? = some ("Travel Margin".toList ++ ": ".toList ++
        fmt (inputVal w.maths 6 - (inputVal w.maths 5 + inputVal w.maths 4))) ∧
      (∀ (reads : List (Read ℝ)) (w3 : World ℝ), takeInputs reads w1 = some w3 →
        ∃ w4, saves fmt w3 = some w4 ∧
          w4.inputsTxt = some (([1, 2, 3, 4, 5, 6, 7] : List Int).map fun j =>
            inputLine fmt ((mapFind w3.maths.mathInput j).getD Input.dflt)) ∧
          w4.outputsTxt = some (([1, 2, 3, 4, 5, 6, 7, 8, 9] : List Int).map fun j =>
            outputLine fmt
              ((mapFind (theActualMath Real.pi w.maths).mathOutput j).getD Output.dflt))) ∧
      ∃ w4, saves fmt (loadFile parse w1) = some w4 ∧
        w4.inputsTxt = some (([1, 2, 3, 4, 5, 6, 7] : List Int).map fun j =>
          inputLine fmt ((mapFind (loadFile parse w1).maths.mathInput j).getD Input.dflt)) ∧
        w4.outputsTxt = some (([1, 2, 3, 4, 5, 6, 7, 8, 9] : List Int).map fun j =>
          outputLine fmt
            ((mapFind (theActualMath Real.pi w.maths).mathOutput j).getD Output.dflt)) := by
  obtain ⟨hc, -, -⟩ := hr.inv Real.pi_pos
  have hsh := hc.shaped
  have hTM := theActualMath_TM Real.pi hsh
  have hneg8 : outputVal (theActualMath Real.pi w.maths) 8 < 0 := by
    rw [hTM]
    exact sub_neg.mpr hT
  obtain ⟨new, hrun, hmem⟩ :=
    breakItDown_failed Real.pi fmt input w hsh hpos ⟨8, by decide, by decide, hneg8⟩
  generalize theActualMath Real.pi w.maths = s1 at hTM hneg8 hrun ⊢
  have hr1 := Reach.calculate input hr hrun
  obtain ⟨hc1, -, hpos1⟩ := hr1.inv Real.pi_pos
  have hin1 : Event.callTheActualMath ∈ w.events ++ new := List.mem_append_right _ hmem
  have hz1 := (hpos1 hin1).ne'
  have hsave := saves_computed fmt _ hc1.shaped hz1 hiw how
  refine ⟨_, _, _, hrun, hr1, rfl, hTM, hneg8, hsave, rfl, rfl, rfl, ?_, ?_, ?_⟩
  · show some (outputLine fmt _) = _
    rw [outputLine, hc1.outputName8]
    exact congrArg (fun x => some ("Travel Margin".toList ++ ": ".toList ++ fmt x)) hTM
  · intro reads w3 h3
    obtain ⟨m', more, hspec, hshape, hmore⟩ := takeInputs_spec reads _ hc1.shaped
    rw [h3] at hspec
    obtain rfl := Option.some.inj hspec
    have hr3 := Reach.manualInput reads hr1 h3
    obtain ⟨hc3, -, hpos3⟩ := hr3.inv Real.pi_pos
    have hz3 := (hpos3 (List.mem_append_left _ hin1)).ne'
    exact ⟨_, saves_computed fmt _ hc3.shaped hz3 hiw how, rfl, rfl⟩
  · have hr3 : Reach Real.pi fmt parse (loadFile parse _) := Reach.fileInput hr1
    obtain ⟨hc3, -, hpos3⟩ := hr3.inv Real.pi_pos
    obtain ⟨hfi, hfo, -, -⟩ := loadFile_files parse
      ({ w with
        maths := { s1 with wasSuccessful := false }
        events := w.events ++ new } : World ℝ)
    have hout := (mathOutput_loadFile parse
      ({ w with
        maths := { s1 with wasSuccessful := false }
        events := w.events ++ new } : World ℝ)).1
    have hin3 : Event.callTheActualMath ∈ (loadFile parse
        ({ w with
          maths := { s1 with wasSuccessful := false }
          events := w.events ++ new } : World ℝ)).events := by
      rcases events_loadFile parse
        ({ w with
          maths := { s1 with wasSuccessful := false }
          events := w.events ++ new } : World ℝ) with he | he <;> rw [he]
      · exact hin1
      · exact List.mem_append_left _ hin1
    have hz3 := (hpos3 hin3).ne'
    refine ⟨_, saves_computed fmt _ hc3.shaped hz3 (hfi.trans hiw) (hfo.trans how), rfl, ?_⟩
    show some _ = some _
    rw [hout]

/-- Witness of C18: the inputs 66, 26, 20.5, 0.858, 3.39, 2 and 18 typed in
at the start of the session; the writer prints "-" for a negative number. -/
theorem saves_ignores_flag_witness :
    ∃ w w1 w2 lines,
      Reach Real.pi (fun x : ℝ => if x < 0 then "-".toList else []) parseDouble w ∧
      breakItDown Real.pi (fun x : ℝ => if x < 0 then "-".toList else []) 2 w = some w1 ∧
      w1.maths.wasSuccessful = false ∧
      saves (fun x : ℝ => if x < 0 then "-".toList else []) w1 = some w2 ∧
      w2.outputsTxt = some lines ∧
      lines[7]? = some "Travel Margin: -".toList := by
  have hrun0 : takeInputs
      [⟨some 66, false⟩, ⟨some 26, false⟩, ⟨some 20.5, false⟩, ⟨some 0.858, false⟩,
        ⟨some 3.39, false⟩, ⟨some 2, false⟩, ⟨some 18, false⟩]
      (World.start false none none true true : World ℝ) =
      some { (World.entered false 66 26 20.5 0.858 3.39 2 18 : World ℝ) with
        events := (Maths.new false : Maths ℝ).mathInput.map fun p =>
          Event.prompt p.2.inputLetter p.2.inputDescription p.2.inputExample } := rfl
  have hr : Reach Real.pi (fun x : ℝ => if x < 0 then "-".toList else []) parseDouble _ :=
    Reach.manualInput _ (Reach.start false none none true true) hrun0
  have hpos := allPositive_entered (K := ℝ) false (D := 66) (S := 26) (B := 20.5) (L := 0.858)
    (A := 3.39) (T := 2) (W := 18) (by norm_num) (by norm_num) (by norm_num) (by norm_num)
    (by norm_num) (by norm_num) (by norm_num)
  have hT : (2 : ℝ) < 3.39 + 0.858 := by norm_num
  obtain ⟨w1, w2, lines, hrun, -, hflag, -, -, hsave, -, -, hout, hline, -⟩ :=
    saves_ignores_flag (fun x : ℝ => if x < 0 then "-".toList else []) parseDouble 2 _ hr
      hpos hT rfl rfl
  refine ⟨_, w1, w2, lines, hr, hrun, hflag, hsave, hout, ?_⟩
  rw [hline]
  have hneg : (2 : ℝ) - (3.39 + 0.858) < 0 := by norm_num
  show some ("Travel Margin".toList ++ ": ".toList ++
    (if (2 : ℝ) - (3.39 + 0.858) < 0 then "-".toList else [])) = _
  rw [if_pos hneg]
  rfl

end Proofs

/-! ## Lemmas and theorems in the arithmetic of `double` -/

section Binary64

namespace F64

theorem lt_iff (a b : F64) : a < b ↔ a.mag ≤ infMag ∧ b.mag ≤ infMag ∧ a.key < b.key := by
  show lt a b = true ↔ _
  simp [lt, isNaN, and_assoc]

theorem le_iff (a b : F64) : a ≤ b ↔ a.mag ≤ infMag ∧ b.mag ≤ infMag ∧ a.key ≤ b.key := by
  show le a b = true ↔ _
  simp [le, isNaN, and_assoc]

theorem beq_iff (a b : F64) :
    (a == b) = true ↔ a.mag ≤ infMag ∧ b.mag ≤ infMag ∧ a.key = b.key := by
  show eq a b = true ↔ _
  simp [eq, isNaN, and_assoc]

theorem isNaN_iff (x : F64) : x.isNaN = true ↔ infMag < x.mag := by
  simp [isNaN]

theorem key_zero : (0 : F64).key = 0 := rfl

theorem mag_zero : (0 : F64).mag = 0 := rfl

theorem key_pos_iff (x : F64) : 0 < x.key ↔ x.sign = false ∧ 0 < x.mag := by
  cases hs : x.sign
  · simp [key, hs]
  · simp only [key, hs, if_true]
    constructor
    · intro h
      omega
    · rintro ⟨h, -⟩
      exact absurd h (by simp)

theorem key_neg_iff (x : F64) : x.key < 0 ↔ x.sign = true ∧ 0 < x.mag := by
  cases hs : x.sign
  · simp only [key, hs]
    constructor
    · intro h
      simp at h
      omega
    · rintro ⟨h, -⟩
      exact absurd h (by simp)
  · simp [key, hs]

theorem key_eq_zero_iff (x : F64) : x.key = 0 ↔ x.mag = 0 := by
  cases hs : x.sign <;> simp [key, hs]

/-- A value is positive when its sign bit is clear and it is neither a zero
nor a NaN. -/
theorem pos_iff (x : F64) : 0 < x ↔ x.sign = false ∧ 0 < x.mag ∧ x.mag ≤ infMag := by
  rw [lt_iff, key_zero, mag_zero, key_pos_iff]
  constructor
  · rintro ⟨-, h1, h2, h3⟩
    exact ⟨h2, h3, h1⟩
  · rintro ⟨h1, h2, h3⟩
    exact ⟨Nat.zero_le _, h3, h1, h2⟩

/-- A value is negative when its sign bit is set and it is neither a zero nor
a NaN. -/
theorem neg_iff (x : F64) : x < 0 ↔ x.sign = true ∧ 0 < x.mag ∧ x.mag ≤ infMag := by
  rw [lt_iff, key_zero, mag_zero, key_neg_iff]
  constructor
  · rintro ⟨h1, -, h2, h3⟩
    exact ⟨h2, h3, h1⟩
  · rintro ⟨h1, h2, h3⟩
    exact ⟨h3, Nat.zero_le _, h1, h2⟩

theorem zero_le_iff (x : F64) : 0 ≤ x ↔ x.mag ≤ infMag ∧ (x.sign = false ∨ x.mag = 0) := by
  rw [le_iff, key_zero, mag_zero]
  have h1 := key_neg_iff x
  have h2 : 0 ≤ x.key ↔ ¬ x.key < 0 := by omega
  rw [h2, h1]
  cases hs : x.sign
  · simp
  · simp

theorem le_zero_iff (x : F64) : x ≤ 0 ↔ x.mag ≤ infMag ∧ (x.sign = true ∨ x.mag = 0) := by
  rw [le_iff, key_zero, mag_zero]
  have h1 := key_pos_iff x
  have h2 : x.key ≤ 0 ↔ ¬ 0 < x.key := by omega
  rw [h2, h1]
  cases hs : x.sign
  · simp
  · simp

theorem beq_zero_iff (x : F64) : (x == 0) = true ↔ x.mag = 0 := by
  rw [beq_iff, key_zero, mag_zero, key_eq_zero_iff]
  constructor
  · rintro ⟨-, -, h⟩
    exact h
  · intro h
    exact ⟨by rw [h]; exact Nat.zero_le _, Nat.zero_le _, h⟩

/-- The test `x < 0` fails exactly for the values that are `>= 0` and for
the NaNs. -/
theorem not_neg_iff (x : F64) : ¬ x < 0 ↔ (0 ≤ x ∨ x.isNaN = true) := by
  rw [neg_iff, zero_le_iff, isNaN_iff]
  cases hs : x.sign
  · simp
    omega
  · simp
    omega

/-- The test `x <= 0` fails exactly for the positive values and for the
NaNs. -/
theorem not_le_zero_iff (x : F64) : ¬ x ≤ 0 ↔ (0 < x ∨ x.isNaN = true) := by
  rw [le_zero_iff, pos_iff, isNaN_iff]
  cases hs : x.sign
  · simp
    omega
  · simp

end F64

namespace F64

/-! ### Rounding -/

/-- The result of rounding is infinity or has a `mag` that is at least the
one of the quotient cut to 53 bits. -/
theorem roundUnits_cases (s : Bool) (n d : Nat) :
    ∃ g, (bitLen (n / d) (n / d) - 53) * 2 ^ 52 +
        n / (d * 2 ^ (bitLen (n / d) (n / d) - 53)) ≤ g ∧
      roundUnits s n d = if infMag ≤ g then inf s else ⟨s, g⟩ :=
  ⟨_, Nat.le_add_right _ _, rfl⟩

theorem roundUnits_sign (s : Bool) (n d : Nat) : (roundUnits s n d).sign = s := by
  obtain ⟨g, -, hr⟩ := roundUnits_cases s n d
  rw [hr]
  split <;> rfl

theorem roundUnits_mag_le (s : Bool) (n d : Nat) : (roundUnits s n d).mag ≤ infMag := by
  obtain ⟨g, -, hr⟩ := roundUnits_cases s n d
  rw [hr]
  split
  · exact Nat.le_refl _
  · rename_i h
    exact Nat.le_of_lt (Nat.lt_of_not_le h)

/-- Rounding does not go below a bound `c` on the first grid that the exact
value reaches. -/
theorem roundUnits_mag_ge (s : Bool) (n d c : Nat) (hc : c ≤ 2 ^ 52) (h : c ≤ n / d) :
    c ≤ (roundUnits s n d).mag := by
  obtain ⟨g, hg, hr⟩ := roundUnits_cases s n d
  rw [hr]
  generalize bitLen (n / d) (n / d) - 53 = k at hg
  split
  · show c ≤ infMag
    unfold infMag
    omega
  · show c ≤ g
    rcases Nat.eq_zero_or_pos k with rfl | hk
    · simp only [pow_zero, mul_one, zero_mul, zero_add] at hg
      omega
    · have h1 : 2 ^ 52 ≤ k * 2 ^ 52 := Nat.le_mul_of_pos_left _ hk
      exact hc.trans (h1.trans ((Nat.le_add_right _ _).trans hg))

/-! ### The value of a finite `double` -/

theorem mag_le_units (x : F64) : x.mag ≤ x.units := by
  unfold units
  split
  · exact Nat.le_refl _
  · rename_i h
    have hE : 1 ≤ x.mag / 2 ^ 52 := by
      rw [Nat.le_div_iff_mul_le (by positivity)]
      omega
    obtain ⟨e, he⟩ : ∃ e, x.mag / 2 ^ 52 = e + 1 := ⟨x.mag / 2 ^ 52 - 1, by omega⟩
    have hdm := Nat.div_add_mod x.mag (2 ^ 52)
    rw [he] at hdm ⊢
    simp only [Nat.add_sub_cancel]
    have hpow : e + 1 ≤ 2 ^ e := Nat.lt_two_pow e
    have h1 : 2 ^ 52 * (e + 1) ≤ 2 ^ 52 * 2 ^ e := Nat.mul_le_mul_left _ hpow
    have h2 : x.mag % 2 ^ 52 ≤ x.mag % 2 ^ 52 * 2 ^ e :=
      Nat.le_mul_of_pos_right _ (by positivity)
    calc x.mag = 2 ^ 52 * (e + 1) + x.mag % 2 ^ 52 := hdm.symm
      _ ≤ 2 ^ 52 * 2 ^ e + x.mag % 2 ^ 52 * 2 ^ e := Nat.add_le_add h1 h2
      _ = (2 ^ 52 + x.mag % 2 ^ 52) * 2 ^ e := by ring

theorem units_zero {x : F64} (h : x.mag = 0) : x.units = 0 := by
  unfold units
  rw [h]
  rfl

/-- The value grows with `mag`. -/
theorem units_lt {a b : F64} (h : a.mag < b.mag) : a.units < b.units := by
  unfold units
  by_cases hb : b.mag < 2 ^ 52
  · rw [if_pos hb, if_pos (by omega)]
    exact h
  · rw [if_neg hb]
    obtain ⟨eb, heb⟩ : ∃ e, b.mag / 2 ^ 52 = e + 1 :=
      ⟨b.mag / 2 ^ 52 - 1, by
        have : 1 ≤ b.mag / 2 ^ 52 := by
          rw [Nat.le_div_iff_mul_le (by positivity)]
          omega
        omega⟩
    rw [heb]
    simp only [Nat.add_sub_cancel]
    have hpb : 0 < 2 ^ eb := by positivity
    by_cases ha : a.mag < 2 ^ 52
    · rw [if_pos ha]
      calc a.mag < 2 ^ 52 := ha
        _ ≤ 2 ^ 52 * 2 ^ eb := Nat.le_mul_of_pos_right _ hpb
        _ ≤ (2 ^ 52 + b.mag % 2 ^ 52) * 2 ^ eb :=
          Nat.mul_le_mul_right _ (Nat.le_add_right _ _)
    · rw [if_neg ha]
      obtain ⟨ea, hea⟩ : ∃ e, a.mag / 2 ^ 52 = e + 1 :=
        ⟨a.mag / 2 ^ 52 - 1, by
          have : 1 ≤ a.mag / 2 ^ 52 := by
            rw [Nat.le_div_iff_mul_le (by positivity)]
            omega
          omega⟩
      rw [hea]
      simp only [Nat.add_sub_cancel]
      have hda := Nat.div_add_mod a.mag (2 ^ 52)
      have hdb := Nat.div_add_mod b.mag (2 ^ 52)
      have hma : a.mag % 2 ^ 52 < 2 ^ 52 := Nat.mod_lt _ (by positivity)
      have hmb : b.mag % 2 ^ 52 < 2 ^ 52 := Nat.mod_lt _ (by positivity)
      rw [hea] at hda
      rw [heb] at hdb
      have hle : ea ≤ eb := by
        by_contra hc
        have : eb + 1 ≤ ea := by omega
        have : 2 ^ 52 * (eb + 1 + 1) ≤ 2 ^ 52 * (ea + 1) := Nat.mul_le_mul_left _ (by omega)
        omega
      rcases Nat.eq_or_lt_of_le hle with heq | hlt
      · subst heq
        have : a.mag % 2 ^ 52 < b.mag % 2 ^ 52 := by omega
        exact Nat.mul_lt_mul_of_pos_right (by omega) hpb
      · calc (2 ^ 52 + a.mag % 2 ^ 52) * 2 ^ ea < (2 ^ 52 + 2 ^ 52) * 2 ^ ea :=
            Nat.mul_lt_mul_of_pos_right (by omega) (by positivity)
          _ = 2 ^ 52 * 2 ^ (ea + 1) := by ring
          _ ≤ 2 ^ 52 * 2 ^ eb := Nat.mul_le_mul_left _ (Nat.pow_le_pow_right (by decide) hlt)
          _ ≤ (2 ^ 52 + b.mag % 2 ^ 52) * 2 ^ eb :=
            Nat.mul_le_mul_right _ (Nat.le_add_right _ _)

end F64

namespace F64

/-! ### Signs of sums, halves and doubles -/

theorem isNaN_false {x : F64} (h : x.mag ≤ infMag) : x.isNaN = false := by
  simp only [isNaN, decide_eq_false_iff_not, Nat.not_lt]
  exact h

theorem isNaN_nan : nan.isNaN = true := by decide

theorem two_eq : (2 : F64) = ⟨false, 4611686018427387904⟩ := by decide!

theorem units_two : (2 : F64).units = 2 * 2 ^ 1074 := by decide!

/-- A positive value or a NaN is a NaN or has a clear sign bit and a `mag`
of at least 1. -/
theorem pos_or_nan {x : F64} (h : 0 < x ∨ x.isNaN = true) :
    x.isNaN = true ∨ (x.sign = false ∧ 1 ≤ x.mag) := by
  rcases h with h | h
  · exact Or.inr ⟨((pos_iff x).mp h).1, ((pos_iff x).mp h).2.1⟩
  · exact Or.inl h

/-- A NaN, and a value with a `mag` of at least 1, does not compare equal to
zero. -/
theorem beq_zero_false {x : F64} (h : x.isNaN = true ∨ (x.sign = false ∧ 1 ≤ x.mag)) :
    (x == 0) = false := by
  rw [Bool.eq_false_iff]
  intro hz
  have hm := (beq_zero_iff x).mp hz
  rcases h with h | ⟨-, h⟩
  · have := (isNaN_iff x).mp h
    rw [hm] at this
    exact absurd this (by decide)
  · omega

/-- The sum of two values that are positive or NaN is a NaN or at least two
units: it is never a zero. -/
theorem add_pos {a b : F64} (ha : a.isNaN = true ∨ (a.sign = false ∧ 1 ≤ a.mag))
    (hb : b.isNaN = true ∨ (b.sign = false ∧ 1 ≤ b.mag)) :
    (a + b).isNaN = true ∨ ((a + b).sign = false ∧ 2 ≤ (a + b).mag) := by
  show (add a b).isNaN = true ∨ ((add a b).sign = false ∧ 2 ≤ (add a b).mag)
  unfold add
  rcases ha with ha | ⟨hsa, hma⟩
  · simp only [ha, Bool.true_or, if_true]
    exact Or.inl isNaN_nan
  rcases hb with hb | ⟨hsb, hmb⟩
  · simp only [hb, Bool.or_true, if_true]
    exact Or.inl isNaN_nan
  by_cases hn : (a.isNaN || b.isNaN) = true
  · rw [if_pos hn]
    exact Or.inl isNaN_nan
  rw [if_neg hn]
  by_cases hai : a.mag = infMag
  · rw [if_pos hai]
    have hne : (decide (b.mag = infMag) && (a.sign != b.sign)) = false := by
      simp [hsa, hsb]
    simp only [hne, Bool.false_eq_true, if_false]
    exact Or.inr ⟨hsa, by rw [hai]; decide⟩
  rw [if_neg hai]
  by_cases hbi : b.mag = infMag
  · rw [if_pos hbi]
    exact Or.inr ⟨hsb, by rw [hbi]; decide⟩
  rw [if_neg hbi, if_pos (hsa.trans hsb.symm)]
  refine Or.inr ⟨by rw [roundUnits_sign, hsa], roundUnits_mag_ge _ _ _ 2 (by decide) ?_⟩
  rw [Nat.div_one]
  have h1 := mag_le_units a
  have h2 := mag_le_units b
  omega

/-- Half of a value of at least two units, or of a NaN, is a NaN or at least
one unit. -/
theorem div_two_pos {x : F64} (hx : x.isNaN = true ∨ (x.sign = false ∧ 2 ≤ x.mag)) :
    (x / 2).isNaN = true ∨ ((x / 2).sign = false ∧ 1 ≤ (x / 2).mag) := by
  show (div x 2).isNaN = true ∨ ((div x 2).sign = false ∧ 1 ≤ (div x 2).mag)
  unfold div
  rcases hx with hx | ⟨hs, hm⟩
  · simp only [hx, Bool.true_or, if_true]
    exact Or.inl isNaN_nan
  by_cases hn : (x.isNaN || (2 : F64).isNaN) = true
  · rw [if_pos hn]
    exact Or.inl isNaN_nan
  rw [if_neg hn]
  have h2s : (2 : F64).sign = false := by rw [two_eq]
  have h2m : (2 : F64).mag = 4611686018427387904 := by rw [two_eq]
  have hsgn : (x.sign != (2 : F64).sign) = false := by rw [hs, h2s]; rfl
  by_cases hxi : x.mag = infMag
  · rw [if_pos hxi, if_neg (by rw [h2m]; decide), hsgn]
    exact Or.inr ⟨rfl, by decide⟩
  rw [if_neg hxi, if_neg (by rw [h2m]; decide), if_neg (by rw [h2m]; decide), hsgn]
  refine Or.inr ⟨roundUnits_sign _ _ _, roundUnits_mag_ge _ _ _ 1 (by decide) ?_⟩
  rw [units_two, Nat.le_div_iff_mul_le (by positivity)]
  have h1 := mag_le_units x
  calc 1 * (2 * 2 ^ 1074) ≤ x.units * 2 ^ 1074 := by
        rw [one_mul]
        exact Nat.mul_le_mul_right _ (hm.trans h1)

/-- Twice a value of at least one unit, or a NaN, is a NaN or at least one
unit. -/
theorem two_mul_pos {y : F64} (hy : y.isNaN = true ∨ (y.sign = false ∧ 1 ≤ y.mag)) :
    (2 * y).isNaN = true ∨ ((2 * y).sign = false ∧ 1 ≤ (2 * y).mag) := by
  show (mul 2 y).isNaN = true ∨ ((mul 2 y).sign = false ∧ 1 ≤ (mul 2 y).mag)
  unfold mul
  rcases hy with hy | ⟨hs, hm⟩
  · simp only [hy, Bool.or_true, if_true]
    exact Or.inl isNaN_nan
  by_cases hn : ((2 : F64).isNaN || y.isNaN) = true
  · rw [if_pos hn]
    exact Or.inl isNaN_nan
  rw [if_neg hn]
  have h2s : (2 : F64).sign = false := by rw [two_eq]
  have h2m : (2 : F64).mag = 4611686018427387904 := by rw [two_eq]
  have hsgn : ((2 : F64).sign != y.sign) = false := by rw [hs, h2s]; rfl
  rw [if_neg (by rw [h2m]; decide)]
  by_cases hyi : y.mag = infMag
  · rw [if_pos hyi, if_neg (by rw [h2m]; decide), hsgn]
    exact Or.inr ⟨rfl, by decide⟩
  rw [if_neg hyi, hsgn]
  refine Or.inr ⟨roundUnits_sign _ _ _, roundUnits_mag_ge _ _ _ 1 (by decide) ?_⟩
  rw [units_two, Nat.le_div_iff_mul_le (by positivity)]
  have h1 := mag_le_units y
  calc 1 * 2 ^ 1074 ≤ 2 * 2 ^ 1074 * y.units := by
        rw [one_mul, Nat.mul_comm 2, Nat.mul_assoc]
        exact Nat.le_mul_of_pos_right _ (by omega)

end F64

namespace F64

/-! ### The sign of a difference -/

theorem key_bounds (x : F64) (h : x.mag ≤ infMag) :
    -(infMag : Int) ≤ x.key ∧ x.key ≤ (infMag : Int) := by
  cases hs : x.sign <;> simp only [key, hs] <;> constructor <;> simp <;> omega

/-- The difference `a - b` of two values with `a < b` is negative: it is not
rounded to zero, because two different finite `double`s differ by at least
one unit. -/
theorem sub_neg_of_lt {a b : F64} (h : a < b) : a - b < 0 := by
  obtain ⟨ha, hb, hk⟩ := (lt_iff a b).mp h
  rw [neg_iff]
  show (add a (neg b)).sign = true ∧ 0 < (add a (neg b)).mag ∧ (add a (neg b)).mag ≤ infMag
  have hnu : (neg b).units = b.units := rfl
  have hnm : (neg b).mag = b.mag := rfl
  have hns : (neg b).sign = !b.sign := rfl
  have hkb := key_bounds b hb
  have hka := key_bounds a ha
  unfold add
  rw [if_neg (by simp [isNaN_false ha, isNaN_false (x := neg b) hb])]
  by_cases hai : a.mag = infMag
  · rw [if_pos hai]
    have hsa : a.sign = true := by
      cases hs : a.sign
      · simp only [key, hs, hai] at hk
        simp at hk
        omega
      · rfl
    have hne : (decide ((neg b).mag = infMag) && (a.sign != (neg b).sign)) = false := by
      rw [hns, hsa, hnm]
      cases hs : b.sign
      · simp
      · simp only [key, hs, hsa, hai] at hk
        simp at hk
        simp
        omega
    simp only [hne, Bool.false_eq_true, if_false]
    exact ⟨hsa, by rw [hai]; decide, by rw [hai]⟩
  rw [if_neg hai]
  by_cases hbi : (neg b).mag = infMag
  · rw [if_pos hbi]
    have hsb : b.sign = false := by
      cases hs : b.sign
      · rfl
      · rw [hnm] at hbi
        simp only [key, hs, hbi] at hk
        simp at hk
        omega
    exact ⟨by rw [hns, hsb]; rfl, by rw [hbi]; decide, by rw [hbi]⟩
  rw [if_neg hbi, hnu, hns]
  have hua := mag_le_units a
  have hub := mag_le_units b
  cases hsa : a.sign <;> cases hsb : b.sign <;> simp only [key, hsa, hsb] at hk
  · -- both positive: a.mag < b.mag
    have hlt : a.mag < b.mag := by simpa using hk
    have hu := units_lt hlt
    rw [if_neg (by simp), if_neg (by omega), if_neg (by omega)]
    exact ⟨roundUnits_sign _ _ _,
      roundUnits_mag_ge _ _ _ 1 (by decide) (by rw [Nat.div_one]; omega),
      roundUnits_mag_le _ _ _⟩
  · -- a positive, b negative: impossible
    simp at hk
    omega
  · -- a negative, b positive
    have hlt : 0 < a.mag + b.mag := by
      simp at hk
      omega
    rw [if_pos (by simp)]
    exact ⟨roundUnits_sign _ _ _,
      roundUnits_mag_ge _ _ _ 1 (by decide) (by rw [Nat.div_one]; omega),
      roundUnits_mag_le _ _ _⟩
  · -- both negative: b.mag < a.mag
    have hlt : b.mag < a.mag := by
      simp at hk
      omega
    have hu := units_lt hlt
    rw [if_neg (by simp), if_neg (by omega), if_pos hu]
    exact ⟨roundUnits_sign _ _ _,
      roundUnits_mag_ge _ _ _ 1 (by decide) (by rw [Nat.div_one]; omega),
      roundUnits_mag_le _ _ _⟩

/-- A positive value fails the test `x <= 0`. -/
theorem not_le_zero_of_pos {x : F64} (h : 0 < x) : ¬ x ≤ 0 :=
  (not_le_zero_iff x).mpr (Or.inl h)

end F64

/-! ## C5: the output sanity check -/

/-- C5. In the arithmetic of `double`, on every model with the nine outputs
`visualMath` returns, the flag `wasSuccessful` is afterwards false if and only
if at least one output value is < 0, and true if and only if every output
value is >= 0 or is a NaN; no record of the model, so none of the nine stored
output values, is changed. -/
theorem visualMath_flag_double (w : World F64) (h : Shaped w.maths) :
    ∃ w', visualMath w = some w' ∧
      (w'.maths.wasSuccessful = false ↔ ∃ i : Int, 1 ≤ i ∧ i ≤ 9 ∧ outputVal w.maths i < 0) ∧
      (w'.maths.wasSuccessful = true ↔
        ∀ i : Int, 1 ≤ i → i ≤ 9 →
          0 ≤ outputVal w.maths i ∨ (outputVal w.maths i).isNaN = true) ∧
      w'.maths.mathOutput = w.maths.mathOutput ∧
      w'.maths.mathInput = w.maths.mathInput := by
  obtain ⟨flag', more, hvis, hflag, -⟩ := visualMath_spec w h
  refine ⟨_, hvis, hflag, ?_, rfl, rfl⟩
  show flag' = true ↔ _
  constructor
  · intro ht i h1 h9
    refine (F64.not_neg_iff _).mp fun hneg => ?_
    have := hflag.mpr ⟨i, h1, h9, hneg⟩
    rw [ht] at this
    exact absurd this (by simp)
  · intro hall
    cases hf : flag' with
    | true => rfl
    | false =>
      obtain ⟨i, h1, h9, hneg⟩ := hflag.mp hf
      exact absurd hneg ((F64.not_neg_iff _).mpr (hall i h1 h9))

/-- Witness of C5: after the formulas have run on Piston Stroke 1e308 and
Bore 1e-200, five outputs are NaN and none is negative, so the check sets the
flag to true. -/
theorem visualMath_flag_double_witness :
    Shaped (theActualMath M_PI64 nanInputs.maths) ∧
    ∃ w', visualMath { nanInputs with maths := theActualMath M_PI64 nanInputs.maths } = some w' ∧
      w'.maths.wasSuccessful = true := by
  have hs : Shaped (theActualMath M_PI64 nanInputs.maths) :=
    shaped_theActualMath M_PI64 (shaped_entered _ _ _ _ _ _ _ _)
  obtain ⟨w', hrun, -, htrue, -, -⟩ :=
    visualMath_flag_double { nanInputs with maths := theActualMath M_PI64 nanInputs.maths } hs
  refine ⟨hs, w', hrun, htrue.mpr ?_⟩
  intro i h1 h9
  interval_cases i <;> decide!

/-- Counterexample to C5 as stated for every assignment of the outputs. With
Piston Stroke 1e308 and Bore 1e-200 all seven inputs are > 0; the formulas
give infinity for Piston Speed and 0 for Bore Area, so Volume Swept per Minute
is a NaN; `breakItDown`, and `visualMath` on the outputs of the formulas, end
with `wasSuccessful = true`, although that output is neither >= 0 nor < 0. -/
theorem visualMath_flag_nan :
    (∀ i : Int, 1 ≤ i → i ≤ 7 → 0 < inputVal nanInputs.maths i) ∧
    (breakItDown M_PI64 (fun _ => []) 2 nanInputs).map
      (fun w => (w.maths.wasSuccessful, (outputVal w.maths 4).isNaN)) = some (true, true) ∧
    (visualMath { nanInputs with maths := theActualMath M_PI64 nanInputs.maths }).map
      (fun w => w.maths.wasSuccessful) = some true ∧
    ¬ 0 ≤ outputVal (theActualMath M_PI64 nanInputs.maths) 4 ∧
    ¬ outputVal (theActualMath M_PI64 nanInputs.maths) 4 < 0 := by
  refine ⟨?_, by decide!, by decide!, by decide!, by decide!⟩
  intro i h1 h7
  interval_cases i <;> decide!

/-! ## C6: the negative Travel Margin scenario -/

/-- C6. In the arithmetic of `double`, for every all-positive input set
with Valve Travel T < Lap + Lead, the sum as the program computes it,
`breakItDown` returns with the failure state set (`wasSuccessful = false`),
Travel Margin equal to the computed T - (A + L) and < 0, and every other
output (WS, FPM, BA, VPM, PA, PH, HT and CLL) equal to the value the formulas
give for the same inputs with any other value of T; nothing is rolled back
and no export follows. -/
theorem breakItDown_negative_margin_double (M_PI : F64) (fmt : F64 → Str) (input : Int)
    (w : World F64) (h : Shaped w.maths)
    (hpos : ∀ i : Int, 1 ≤ i → i ≤ 7 → 0 < inputVal w.maths i)
    (hT : inputVal w.maths 6 < inputVal w.maths 5 + inputVal w.maths 4) :
    ∃ w' new, breakItDown M_PI fmt input w = some w' ∧ w'.events = w.events ++ new ∧
      w'.maths.wasSuccessful = false ∧
      outputVal w'.maths 8 = inputVal w.maths 6 - (inputVal w.maths 5 + inputVal w.maths 4) ∧
      outputVal w'.maths 8 < 0 ∧
      (∀ (T' : F64) (i : Int), 1 ≤ i → i ≤ 9 → i ≠ 8 →
        outputVal w'.maths i = outputVal (theActualMath M_PI (setInput w.maths 6 T')) i) ∧
      w'.maths.mathOutput = (theActualMath M_PI w.maths).mathOutput ∧
      Event.callSaves ∉ new ∧ w'.inputsTxt = w.inputsTxt ∧ w'.outputsTxt = w.outputsTxt := by
  obtain ⟨doThing, more, hdo, hmore, hrun⟩ := breakItDown_steps M_PI fmt input w h
  have hd : doThing = true :=
    hdo.mpr fun i h1 h7 => F64.not_le_zero_of_pos (hpos i h1 h7)
  subst hd
  have hTM := theActualMath_TM M_PI h
  have hind : ∀ (T' : F64) (i : Int), 1 ≤ i → i ≤ 9 → i ≠ 8 →
      outputVal (theActualMath M_PI w.maths) i =
        outputVal (theActualMath M_PI (setInput w.maths 6 T')) i :=
    fun T' i h1 h9 h8 => (theActualMath_indep_T M_PI h T' i h1 h9 h8).symm
  have hsh := shaped_theActualMath M_PI h
  rw [if_pos rfl] at hrun
  generalize theActualMath M_PI w.maths = s1 at hTM hind hsh hrun ⊢
  obtain ⟨flag', more2, hvis, hflag, hmore2⟩ :=
    visualMath_spec { w with
      maths := s1
      events := w.events ++ more ++ [Event.callTheActualMath] } hsh
  have hneg : outputVal s1 8 < 0 := by
    rw [hTM]
    exact F64.sub_neg_of_lt hT
  have hfalse : flag' = false := hflag.mpr ⟨8, by decide, by decide, hneg⟩
  subst hfalse
  rw [hvis, Option.some_bind] at hrun
  simp only [Bool.false_eq_true, if_false] at hrun
  refine ⟨{ w with
      maths := { s1 with wasSuccessful := false }
      events := w.events ++ more ++ [Event.callTheActualMath] ++ Event.callVisualMath :: more2 },
    more ++ Event.callTheActualMath :: Event.callVisualMath :: more2, hrun,
    by simp, rfl, hTM, hneg, hind, rfl, ?_, rfl, rfl⟩
  intro hmem
  simp only [List.mem_append, List.mem_cons] at hmem
  rcases hmem with hm | hm | hm | hm
  · exact absurd (hmore _ hm) (by simp [Event.isCall])
  · exact absurd hm (by simp)
  · exact absurd hm (by simp)
  · exact absurd (hmore2 _ hm) (by simp [Event.isCall])

/-- Witness of C6: T = 2 with A = 3.39 and L = 0.858 gives the failure state
and the Travel Margin -2.248, as a `double`. -/
theorem breakItDown_negative_margin_double_witness :
    Shaped (World.entered true 66 26 20.5 0.858 3.39 2 18 : World F64).maths ∧
    inputVal (World.entered true 66 26 20.5 0.858 3.39 2 18 : World F64).maths 6 <
      inputVal (World.entered true 66 26 20.5 0.858 3.39 2 18 : World F64).maths 5 +
        inputVal (World.entered true 66 26 20.5 0.858 3.39 2 18 : World F64).maths 4 ∧
    ∃ w', breakItDown M_PI64 (fun _ => []) 1 (World.entered true 66 26 20.5 0.858 3.39 2 18) =
        some w' ∧
      w'.maths.wasSuccessful = false ∧ outputVal w'.maths 8 = -2.248 ∧
      outputVal w'.maths 8 < 0 := by
  have hT : inputVal (World.entered true 66 26 20.5 0.858 3.39 2 18 : World F64).maths 6 <
      inputVal (World.entered true 66 26 20.5 0.858 3.39 2 18 : World F64).maths 5 +
        inputVal (World.entered true 66 26 20.5 0.858 3.39 2 18 : World F64).maths 4 := by
    decide!
  obtain ⟨w', new, hrun, -, hflag, hTM, hneg, -⟩ :=
    breakItDown_negative_margin_double M_PI64 (fun _ => []) 1
      (World.entered true 66 26 20.5 0.858 3.39 2 18) (shaped_entered _ _ _ _ _ _ _ _)
      (by intro i h1 h7; interval_cases i <;> decide!) hT
  exact ⟨shaped_entered _ _ _ _ _ _ _ _, hT, w', hrun, hflag, hTM.trans (by decide!), hneg⟩

/-- Counterexample to C6 as stated for every input set. With Lead 2^-53, Lap
1 and Valve Travel 1 all seven inputs are > 0 and T < Lap + Lead holds for
the exact values; the sum 1 + 2^-53 is rounded to 1, so the program computes a
Travel Margin of 0, which is not < 0, and `breakItDown` ends with
`wasSuccessful = true`. -/
theorem breakItDown_margin_rounded :
    (∀ i : Int, 1 ≤ i → i ≤ 7 → 0 < inputVal roundedInputs.maths i) ∧
    (inputVal roundedInputs.maths 6).toRat <
      (inputVal roundedInputs.maths 5).toRat + (inputVal roundedInputs.maths 4).toRat ∧
    (breakItDown M_PI64 (fun _ => []) 2 roundedInputs).map
      (fun w => (w.maths.wasSuccessful, outputVal w.maths 8)) = some (true, 0) ∧
    ¬ (0 : F64) < 0 := by
  refine ⟨?_, ?_, by decide!, by decide!⟩
  · intro i h1 h7
    interval_cases i <;> decide!
  · have h6 : (inputVal roundedInputs.maths 6).toRat = 1 := by
      have hu : (inputVal roundedInputs.maths 6).units = 2 ^ 1074 := by decide!
      have hs : (inputVal roundedInputs.maths 6).sign = false := by decide!
      rw [F64.toRat, hu, hs]
      norm_num
    have h5 : (inputVal roundedInputs.maths 5).toRat = 1 := by
      have hu : (inputVal roundedInputs.maths 5).units = 2 ^ 1074 := by decide!
      have hs : (inputVal roundedInputs.maths 5).sign = false := by decide!
      rw [F64.toRat, hu, hs]
      norm_num
    have h4 : (inputVal roundedInputs.maths 4).toRat = 1 / 2 ^ 53 := by
      have hu : (inputVal roundedInputs.maths 4).units = 2 ^ 1021 := by decide!
      have hs : (inputVal roundedInputs.maths 4).sign = false := by decide!
      rw [F64.toRat, hu, hs]
      norm_num
    rw [h6, h5, h4]
    norm_num

/-! ## C15: the gate shields the formulas -/

end Binary64

end ValveGear
